import Mathlib

/-!
Verification development for the `devalue-async` streaming codec.

The repository extends the synchronous `devalue` base codec so that promises,
async iterables and readable streams can be carried over a newline-delimited
text stream.  The encoder (`stringifyAsync` in `src/async.ts`) emits a header
frame followed by body frames `[id, status, payload]`; the decoder
(`unflattenAsync`) reconstructs the root from the header and demultiplexes the
body frames into per-id controllers.  `mergeAsyncIterable.ts` provides the
merge engine that interleaves the per-id producers.

This file embeds those components shallowly:

* a concrete JSON fragment (`J`, `renderC`, `parseJC`) models the host
  `JSON.stringify` / `JSON.parse` pair used by `async.ts`;
* the base codec (`devalue`'s `stringify` / `unflatten`) is an external
  collaborator of the repository; its flattened-array wire shape is modelled
  from the specification (see `flattenF`, `decodeIdx`);
* the merge engine is a scheduler-parametric small-step machine (`mstep`,
  `runM`) over producer traces;
* the encoder and decoder are deterministic functions over these models,
  with a fuel parameter standing in for the (always terminating) recursion
  of the original JavaScript.
-/

namespace DevalueAsync

/-! ## JSON fragment

Models the host `JSON.stringify` and `JSON.parse` for the values that appear
on the wire: null, booleans, integers, strings, arrays and string-keyed
objects.  `renderC` produces exactly the representation `JSON.stringify`
produces for these values (no whitespace, keys in insertion order); `parseJC`
is a recursive-descent parser for that representation. -/

inductive J where
  | null : J
  | tru : J
  | fls : J
  | num : Int → J
  | str : String → J
  | arr : List J → J
  | obj : List (String × J) → J

/-- Digit character for a single decimal digit. -/
def dChar : Nat → Char
  | 0 => '0' | 1 => '1' | 2 => '2' | 3 => '3' | 4 => '4'
  | 5 => '5' | 6 => '6' | 7 => '7' | 8 => '8' | _ => '9'

/-- Numeric value of a digit character. -/
def dVal (c : Char) : Nat := c.toNat - 48

/-- Is `c` a decimal digit? -/
def isDig (c : Char) : Bool := 48 ≤ c.toNat && c.toNat ≤ 57

/-- Decimal digit characters of a natural number, most significant first. -/
def natChars (n : Nat) : List Char :=
  if n = 0 then ['0'] else (Nat.digits 10 n).reverse.map dChar

/-- Decimal representation of an integer, as `String(n)` produces in JS. -/
def intChars (n : Int) : List Char :=
  if n < 0 then '-' :: natChars n.natAbs else natChars n.toNat

/-- JSON escaping of one string character (the fragment of `JSON.stringify`
escaping needed for the modelled strings: quote, backslash, newline). -/
def escChar (c : Char) : List Char :=
  if c = '"' ∨ c = '\\' then ['\\', c]
  else if c = '\n' then ['\\', 'n'] else [c]

/-- JSON escaping of a whole string body. -/
def escStr (cs : List Char) : List Char := (cs.map escChar).flatten

mutual

/-- Characters of the JSON rendering of `j`, exactly as `JSON.stringify`
renders such a value (no whitespace). -/
def renderC : J → List Char
  | .null => ['n', 'u', 'l', 'l']
  | .tru => ['t', 'r', 'u', 'e']
  | .fls => ['f', 'a', 'l', 's', 'e']
  | .num n => intChars n
  | .str s => '"' :: (escStr s.data ++ ['"'])
  | .arr xs => '[' :: (renderArrC xs ++ [']'])
  | .obj fs => '\x7b' :: (renderObjC fs ++ ['\x7d'])

/-- Comma-separated rendering of array elements. -/
def renderArrC : List J → List Char
  | [] => []
  | [x] => renderC x
  | x :: y :: xs => renderC x ++ ',' :: renderArrC (y :: xs)

/-- Comma-separated rendering of object fields. -/
def renderObjC : List (String × J) → List Char
  | [] => []
  | [(k, v)] => '"' :: (escStr k.data ++ '"' :: ':' :: renderC v)
  | (k, v) :: f :: fs =>
      ('"' :: (escStr k.data ++ '"' :: ':' :: renderC v)) ++
        ',' :: renderObjC (f :: fs)

end

/-- The JSON rendering of `j` as a string. -/
def renderJ (j : J) : String := String.mk (renderC j)

/-- Undo a backslash escape. -/
def unesc (c : Char) : Char := if c = 'n' then '\n' else c

/-- Parse the body of a JSON string (after the opening quote), returning the
unescaped characters and the input after the closing quote. -/
def parseStrBody : List Char → Option (List Char × List Char)
  | [] => none
  | c :: r =>
    if c = '"' then some ([], r)
    else if c = '\\' then
      match r with
      | [] => none
      | c2 :: r2 => (parseStrBody r2).map (fun p => (unesc c2 :: p.1, p.2))
    else (parseStrBody r).map (fun p => (c :: p.1, p.2))

/-- Greedily take decimal digits from the front of the input. -/
def takeDigs : List Char → (List Nat × List Char)
  | [] => ([], [])
  | c :: cs =>
      if isDig c then
        let p := takeDigs cs
        (dVal c :: p.1, p.2)
      else ([], c :: cs)

/-- Value of a most-significant-first digit list. -/
def digsVal (ds : List Nat) : Nat := ds.foldl (fun a d => 10 * a + d) 0

mutual

/-- Recursive-descent parser for the JSON fragment; `fuel` bounds the
recursion depth and element count. -/
def parseJC : Nat → List Char → Option (J × List Char)
  | 0, _ => none
  | _ + 1, [] => none
  | fuel + 1, c :: r =>
    if c = 'n' then
      match r with
      | 'u' :: 'l' :: 'l' :: r2 => some (.null, r2)
      | _ => none
    else if c = 't' then
      match r with
      | 'r' :: 'u' :: 'e' :: r2 => some (.tru, r2)
      | _ => none
    else if c = 'f' then
      match r with
      | 'a' :: 'l' :: 's' :: 'e' :: r2 => some (.fls, r2)
      | _ => none
    else if c = '"' then
      (parseStrBody r).map (fun p => (.str (String.mk p.1), p.2))
    else if c = '-' then
      match takeDigs r with
      | ([], _) => none
      | (d :: ds, r2) => some (.num (-(digsVal (d :: ds) : Int)), r2)
    else if c = '[' then
      (parseElems fuel r).map (fun p => (.arr p.1, p.2))
    else if c = '\x7b' then
      (parseFields fuel r).map (fun p => (.obj p.1, p.2))
    else if isDig c then
      let p := takeDigs (c :: r)
      some (.num (digsVal p.1 : Int), p.2)
    else none

/-- Parse array elements up to and including the closing bracket. -/
def parseElems : Nat → List Char → Option (List J × List Char)
  | 0, _ => none
  | _ + 1, [] => none
  | fuel + 1, c :: r =>
    if c = ']' then some ([], r)
    else
      match parseJC fuel (c :: r) with
      | none => none
      | some (j, r1) =>
        match r1 with
        | [] => none
        | d :: r2 =>
          if d = ']' then some ([j], r2)
          else if d = ',' then
            (parseElems fuel r2).map (fun p => (j :: p.1, p.2))
          else none

/-- Parse object fields up to and including the closing brace. -/
def parseFields : Nat → List Char → Option (List (String × J) × List Char)
  | 0, _ => none
  | _ + 1, [] => none
  | fuel + 1, c :: r =>
    if c = '\x7d' then some ([], r)
    else if c = '"' then
      match parseStrBody r with
      | none => none
      | some (k, r1) =>
        match r1 with
        | [] => none
        | d :: r2 =>
          if d = ':' then
            match parseJC fuel r2 with
            | none => none
            | some (v, r3) =>
              match r3 with
              | [] => none
              | e :: r4 =>
                if e = '\x7d' then some ([(String.mk k, v)], r4)
                else if e = ',' then
                  (parseFields fuel r4).map
                    (fun p => ((String.mk k, v) :: p.1, p.2))
                else none
          else none
    else none

end

mutual

/-- Fuel bound sufficient for `parseJC` to parse the rendering of `j`. -/
def jw : J → Nat
  | .null | .tru | .fls | .num _ | .str _ => 1
  | .arr xs => 1 + jwL xs
  | .obj fs => 1 + jwF fs

/-- Fuel bound for element lists. -/
def jwL : List J → Nat
  | [] => 1
  | [x] => 1 + jw x
  | x :: y :: xs => 1 + jw x + jwL (y :: xs)

/-- Fuel bound for field lists. -/
def jwF : List (String × J) → Nat
  | [] => 1
  | [f] => 1 + jw f.2
  | f :: g :: fs => 1 + jw f.2 + jwF (g :: fs)

end

/-- Whitespace characters tolerated by `JSON.parse` around a document. -/
def wsChar (c : Char) : Bool := c = ' ' || c = '\n' || c = '\t' || c = '\r'

/-- Model of `JSON.parse` on a string: parse one value and require that only
whitespace follows.  Errors are `SyntaxError`s. -/
def jsParse (s : String) : Except String J :=
  match parseJC (s.data.length + 1) s.data with
  | some (j, rest) =>
      if rest.all wsChar then .ok j else .error "SyntaxError: unexpected token"
  | none => .error "SyntaxError: invalid JSON"

/-! ### Parse / render roundtrip -/

/-- The next input character (if any) is not a digit, so a greedy number
parse stops exactly here. -/
def digFree : List Char → Bool
  | [] => true
  | c :: _ => !isDig c

theorem dVal_dChar {d : Nat} (h : d < 10) : dVal (dChar d) = d := by
  interval_cases d <;> decide

theorem isDig_dChar {d : Nat} (h : d < 10) : isDig (dChar d) = true := by
  interval_cases d <;> decide

theorem natChars_digits (n : Nat) : ∀ c ∈ natChars n, isDig c = true := by
  intro c hc
  unfold natChars at hc
  split at hc
  · simp only [List.mem_singleton] at hc; subst hc; decide
  · simp only [List.mem_map, List.mem_reverse] at hc
    obtain ⟨d, hd, rfl⟩ := hc
    exact isDig_dChar (Nat.digits_lt_base (by norm_num) hd)

theorem natChars_ne_nil (n : Nat) : natChars n ≠ [] := by
  unfold natChars
  split
  · simp
  · simp only [ne_eq, List.map_eq_nil_iff, List.reverse_eq_nil_iff]
    exact Nat.digits_ne_nil_iff_ne_zero.mpr (by assumption)

theorem map_dVal_natChars (n : Nat) :
    (natChars n).map dVal = if n = 0 then [0] else (Nat.digits 10 n).reverse := by
  unfold natChars
  split
  · rfl
  · rw [List.map_map]
    refine List.map_congr_left ?_ |>.trans (List.map_id _)
    intro d hd
    simp only [List.mem_reverse] at hd
    exact dVal_dChar (Nat.digits_lt_base (by norm_num) hd)

theorem digsVal_append_singleton (xs : List Nat) (d : Nat) :
    digsVal (xs ++ [d]) = 10 * digsVal xs + d := by
  unfold digsVal
  rw [List.foldl_append]
  rfl

theorem digsVal_reverse (l : List Nat) :
    digsVal l.reverse = Nat.ofDigits 10 l := by
  induction l with
  | nil => rfl
  | cons d t ih =>
      rw [List.reverse_cons, digsVal_append_singleton, ih, Nat.ofDigits_cons]
      ring

theorem digsVal_natChars (n : Nat) : digsVal ((natChars n).map dVal) = n := by
  rw [map_dVal_natChars]
  split
  · simp only [digsVal, List.foldl]; omega
  · rw [digsVal_reverse, Nat.ofDigits_digits]

theorem takeDigs_append (ds rest : List Char)
    (hds : ∀ c ∈ ds, isDig c = true) (hr : digFree rest = true) :
    takeDigs (ds ++ rest) = (ds.map dVal, rest) := by
  induction ds with
  | nil =>
      cases rest with
      | nil => rfl
      | cons c t =>
          simp only [digFree, Bool.not_eq_true'] at hr
          simp [takeDigs, hr]
  | cons c t ih =>
      simp only [List.cons_append, takeDigs, hds c (by simp), if_true]
      have := ih (fun x hx => hds x (by simp [hx]))
      simp only [List.append_eq] at this ⊢
      rw [this]
      rfl

theorem takeDigs_natChars (n : Nat) (rest : List Char) (hr : digFree rest = true) :
    takeDigs (natChars n ++ rest) = ((natChars n).map dVal, rest) :=
  takeDigs_append _ _ (natChars_digits n) hr

theorem natChars_map_cons (m : Nat) :
    ∃ d ds, (natChars m).map dVal = d :: ds := by
  cases e : natChars m with
  | nil => exact absurd e (natChars_ne_nil m)
  | cons c cs => exact ⟨dVal c, cs.map dVal, rfl⟩

theorem parseJC_digitHead (fuel : Nat) (c : Char) (r : List Char)
    (hc : isDig c = true) :
    parseJC (fuel + 1) (c :: r) =
      some (.num (digsVal (takeDigs (c :: r)).1 : Int), (takeDigs (c :: r)).2) := by
  have h1 : c ≠ 'n' := by rintro rfl; exact absurd hc (by decide)
  have h2 : c ≠ 't' := by rintro rfl; exact absurd hc (by decide)
  have h3 : c ≠ 'f' := by rintro rfl; exact absurd hc (by decide)
  have h4 : c ≠ '"' := by rintro rfl; exact absurd hc (by decide)
  have h5 : c ≠ '-' := by rintro rfl; exact absurd hc (by decide)
  have h6 : c ≠ '[' := by rintro rfl; exact absurd hc (by decide)
  have h7 : c ≠ '\x7b' := by rintro rfl; exact absurd hc (by decide)
  simp only [parseJC, if_neg h1, if_neg h2, if_neg h3, if_neg h4, if_neg h5,
    if_neg h6, if_neg h7, hc, if_true]

theorem parseJC_negHead (fuel : Nat) (r : List Char) :
    parseJC (fuel + 1) ('-' :: r) =
      (match takeDigs r with
       | ([], _) => none
       | (d :: ds, r2) => some (J.num (-(digsVal (d :: ds) : Int)), r2)) := rfl

theorem parseJC_natChars (m : Nat) (fuel : Nat) (rest : List Char)
    (hr : digFree rest = true) :
    parseJC (fuel + 1) (natChars m ++ rest) = some (.num (m : Int), rest) := by
  cases e : natChars m with
  | nil => exact absurd e (natChars_ne_nil m)
  | cons c cs =>
      have hc : isDig c = true := natChars_digits m c (by rw [e]; simp)
      have ht : takeDigs (c :: (cs ++ rest)) = (dVal c :: cs.map dVal, rest) := by
        have h2 := takeDigs_natChars m rest hr
        rw [e] at h2
        simpa using h2
      have hv : digsVal (dVal c :: cs.map dVal) = m := by
        have h3 := digsVal_natChars m
        rw [e] at h3
        simpa using h3
      rw [List.cons_append, parseJC_digitHead fuel c _ hc, ht]
      simp [hv]

theorem parseJC_intChars (n : Int) (fuel : Nat) (rest : List Char)
    (hr : digFree rest = true) :
    parseJC (fuel + 1) (intChars n ++ rest) = some (.num n, rest) := by
  unfold intChars
  split
  · rename_i hneg
    rw [List.cons_append, parseJC_negHead, takeDigs_natChars _ _ hr]
    obtain ⟨d, ds, hds⟩ := natChars_map_cons n.natAbs
    rw [hds]
    have hv : digsVal (d :: ds) = n.natAbs := by rw [← hds, digsVal_natChars]
    simp only [hv]
    have : -((n.natAbs : Nat) : Int) = n := by omega
    rw [this]
  · rename_i hpos
    have : ((n.toNat : Nat) : Int) = n := by omega
    rw [← this]
    exact parseJC_natChars n.toNat fuel rest hr

theorem renderC_cons (j : J) :
    ∃ c cs, renderC j = c :: cs ∧ c ≠ ']' ∧ c ≠ ',' ∧ c ≠ '\x7d' ∧ c ≠ ':' := by
  cases j with
  | null => exact ⟨'n', _, rfl, by decide, by decide, by decide, by decide⟩
  | tru => exact ⟨'t', _, rfl, by decide, by decide, by decide, by decide⟩
  | fls => exact ⟨'f', _, rfl, by decide, by decide, by decide, by decide⟩
  | str s => exact ⟨'"', _, rfl, by decide, by decide, by decide, by decide⟩
  | arr xs => exact ⟨'[', _, rfl, by decide, by decide, by decide, by decide⟩
  | obj fs => exact ⟨'\x7b', _, rfl, by decide, by decide, by decide, by decide⟩
  | num n =>
      show ∃ c cs, intChars n = c :: cs ∧ _
      unfold intChars
      split
      · exact ⟨'-', _, rfl, by decide, by decide, by decide, by decide⟩
      · cases e : natChars n.toNat with
        | nil => exact absurd e (natChars_ne_nil _)
        | cons c cs =>
            have hc : isDig c = true := natChars_digits _ c (by rw [e]; simp)
            refine ⟨c, cs, rfl, ?_, ?_, ?_, ?_⟩ <;>
              (rintro rfl; exact absurd hc (by decide))

theorem parseStrBody_escaped (c : Char) (r : List Char) :
    parseStrBody ('\\' :: c :: r) =
      (parseStrBody r).map (fun p => (unesc c :: p.1, p.2)) := by
  rw [parseStrBody.eq_def]
  simp

theorem parseStrBody_plain (c : Char) (r : List Char)
    (hq : c ≠ '"') (hb : c ≠ '\\') :
    parseStrBody (c :: r) = (parseStrBody r).map (fun p => (c :: p.1, p.2)) := by
  rw [parseStrBody.eq_def]
  simp [hq, hb]

theorem parseStrBody_escStr (s : List Char) (rest : List Char) :
    parseStrBody (escStr s ++ '"' :: rest) = some (s, rest) := by
  induction s with
  | nil =>
      have h0 : escStr [] = [] := rfl
      rw [h0, List.nil_append, parseStrBody.eq_def]
      simp
  | cons c t ih =>
      have hesc : escStr (c :: t) = escChar c ++ escStr t := by
        simp [escStr]
      rw [hesc, List.append_assoc]
      unfold escChar
      split
      · rename_i hc
        rw [List.cons_append, List.cons_append, List.nil_append,
          parseStrBody_escaped, ih]
        have hu : unesc c = c := by
          rcases hc with rfl | rfl <;> decide
        simp [hu]
      · split
        · rename_i hnl
          subst hnl
          rw [List.cons_append, List.cons_append, List.nil_append,
            parseStrBody_escaped, ih]
          simp [unesc]
        · rename_i hns hnl
          push_neg at hns
          rw [List.cons_append, List.nil_append,
            parseStrBody_plain c _ hns.1 hns.2, ih]
          rfl

theorem parseJC_quoteHead (fuel : Nat) (r : List Char) :
    parseJC (fuel + 1) ('"' :: r) =
      (parseStrBody r).map (fun p => (J.str (String.mk p.1), p.2)) := by
  rw [parseJC.eq_def]
  simp

theorem parseJC_lbrackHead (fuel : Nat) (r : List Char) :
    parseJC (fuel + 1) ('[' :: r) =
      (parseElems fuel r).map (fun p => (J.arr p.1, p.2)) := by
  rw [parseJC.eq_def]
  simp

theorem parseJC_lbraceHead (fuel : Nat) (r : List Char) :
    parseJC (fuel + 1) ('\x7b' :: r) =
      (parseFields fuel r).map (fun p => (J.obj p.1, p.2)) := by
  rw [parseJC.eq_def]
  simp

theorem parseElems_rbrack (fuel : Nat) (r : List Char) :
    parseElems (fuel + 1) (']' :: r) = some ([], r) := by
  rw [parseElems.eq_def]
  simp

theorem parseElems_step (fuel : Nat) (c : Char) (r : List Char) (hc : c ≠ ']') :
    parseElems (fuel + 1) (c :: r) =
      (match parseJC fuel (c :: r) with
       | none => none
       | some (j, r1) =>
         match r1 with
         | [] => none
         | d :: r2 =>
           if d = ']' then some ([j], r2)
           else if d = ',' then
             (parseElems fuel r2).map (fun p => (j :: p.1, p.2))
           else none) := by
  rw [parseElems.eq_def]
  simp [hc]

theorem parseFields_rbrace (fuel : Nat) (r : List Char) :
    parseFields (fuel + 1) ('\x7d' :: r) = some ([], r) := by
  rw [parseFields.eq_def]
  simp

theorem parseFields_quote (fuel : Nat) (r : List Char) :
    parseFields (fuel + 1) ('"' :: r) =
      (match parseStrBody r with
       | none => none
       | some (k, r1) =>
         match r1 with
         | [] => none
         | d :: r2 =>
           if d = ':' then
             match parseJC fuel r2 with
             | none => none
             | some (v, r3) =>
               match r3 with
               | [] => none
               | e :: r4 =>
                 if e = '\x7d' then some ([(String.mk k, v)], r4)
                 else if e = ',' then
                   (parseFields fuel r4).map
                     (fun p => ((String.mk k, v) :: p.1, p.2))
                 else none
           else none) := by
  rw [parseFields.eq_def]
  simp

theorem parseFields_field (fuel : Nat) (k : String) (rem : List Char) :
    parseFields (fuel + 1) ('"' :: (escStr k.data ++ '"' :: ':' :: rem)) =
      (match parseJC fuel rem with
       | none => none
       | some (v, r3) =>
         match r3 with
         | [] => none
         | e :: r4 =>
           if e = '\x7d' then some ([(k, v)], r4)
           else if e = ',' then
             (parseFields fuel r4).map (fun p => ((k, v) :: p.1, p.2))
           else none) := by
  rw [parseFields_quote, parseStrBody_escStr]
  cases k
  rfl

theorem jw_pos (j : J) : 1 ≤ jw j := by
  cases j <;> simp [jw]

theorem jwL_pos (xs : List J) : 1 ≤ jwL xs := by
  match xs with
  | [] => simp [jwL]
  | [x] => simp only [jwL]; omega
  | x :: y :: t => simp only [jwL]; omega

theorem jwF_pos (fs : List (String × J)) : 1 ≤ jwF fs := by
  match fs with
  | [] => simp [jwF]
  | [f] => simp only [jwF]; omega
  | f :: g :: t => simp only [jwF]; omega

mutual

/-- Parsing the rendering of a value recovers the value and leaves the rest
of the input untouched. -/
theorem parseJC_render (j : J) : ∀ (fuel : Nat) (rest : List Char),
    jw j ≤ fuel → digFree rest = true →
    parseJC fuel (renderC j ++ rest) = some (j, rest) := by
  intro fuel rest hf hr
  obtain ⟨f, rfl⟩ : ∃ f, fuel = f + 1 := ⟨fuel - 1, by have := jw_pos j; omega⟩
  cases j with
  | null =>
      show parseJC (f + 1) ('n' :: 'u' :: 'l' :: 'l' :: rest) = _
      rw [parseJC.eq_def]
      simp
  | tru =>
      show parseJC (f + 1) ('t' :: 'r' :: 'u' :: 'e' :: rest) = _
      rw [parseJC.eq_def]
      simp
  | fls =>
      show parseJC (f + 1) ('f' :: 'a' :: 'l' :: 's' :: 'e' :: rest) = _
      rw [parseJC.eq_def]
      simp
  | num n => exact parseJC_intChars n f rest hr
  | str s =>
      show parseJC (f + 1) ('"' :: ((escStr s.data ++ ['"']) ++ rest)) = _
      rw [List.append_assoc, List.singleton_append, parseJC_quoteHead,
        parseStrBody_escStr]
      cases s
      rfl
  | arr xs =>
      show parseJC (f + 1) ('[' :: ((renderArrC xs ++ [']']) ++ rest)) = _
      rw [List.append_assoc, List.singleton_append, parseJC_lbrackHead,
        parseElems_render xs f rest (by simp only [jw] at hf; omega)]
      rfl
  | obj fs =>
      show parseJC (f + 1) ('\x7b' :: ((renderObjC fs ++ ['\x7d']) ++ rest)) = _
      rw [List.append_assoc, List.singleton_append, parseJC_lbraceHead,
        parseFields_render fs f rest (by simp only [jw] at hf; omega)]
      rfl

/-- Parsing the rendering of an element list (with its closing bracket)
recovers the list. -/
theorem parseElems_render (xs : List J) : ∀ (fuel : Nat) (rest : List Char),
    jwL xs ≤ fuel →
    parseElems fuel (renderArrC xs ++ ']' :: rest) = some (xs, rest) := by
  intro fuel rest hf
  obtain ⟨f, rfl⟩ : ∃ f, fuel = f + 1 := ⟨fuel - 1, by have := jwL_pos xs; omega⟩
  cases xs with
  | nil =>
      show parseElems (f + 1) (']' :: rest) = _
      exact parseElems_rbrack f rest
  | cons x t =>
      cases t with
      | nil =>
          have hx : jw x ≤ f := by simp only [jwL] at hf; omega
          obtain ⟨c, cs, hcons, h1, _h2, _h3, _h4⟩ := renderC_cons x
          show parseElems (f + 1) (renderC x ++ ']' :: rest) = _
          rw [hcons, List.cons_append, parseElems_step f c _ h1,
            ← List.cons_append, ← hcons,
            parseJC_render x f (']' :: rest) hx (by rfl)]
          rfl
      | cons y t2 =>
          have hx : jw x ≤ f := by simp only [jwL] at hf; omega
          have ht : jwL (y :: t2) ≤ f := by
            have := jw_pos x
            simp only [jwL] at hf ⊢
            omega
          obtain ⟨c, cs, hcons, h1, _h2, _h3, _h4⟩ := renderC_cons x
          show parseElems (f + 1)
              ((renderC x ++ ',' :: renderArrC (y :: t2)) ++ ']' :: rest) = _
          rw [List.append_assoc, List.cons_append, hcons, List.cons_append,
            parseElems_step f c _ h1, ← List.cons_append, ← hcons,
            parseJC_render x f (',' :: (renderArrC (y :: t2) ++ ']' :: rest))
              hx (by rfl)]
          have hrec := parseElems_render (y :: t2) f rest ht
          simp only [hrec]
          rfl

/-- Parsing the rendering of a field list (with its closing brace) recovers
the list. -/
theorem parseFields_render (fs : List (String × J)) :
    ∀ (fuel : Nat) (rest : List Char), jwF fs ≤ fuel →
    parseFields fuel (renderObjC fs ++ '\x7d' :: rest) = some (fs, rest) := by
  intro fuel rest hf
  obtain ⟨f, rfl⟩ : ∃ f, fuel = f + 1 := ⟨fuel - 1, by have := jwF_pos fs; omega⟩
  cases fs with
  | nil =>
      show parseFields (f + 1) ('\x7d' :: rest) = _
      exact parseFields_rbrace f rest
  | cons kv t =>
      obtain ⟨k, v⟩ := kv
      cases t with
      | nil =>
          have hv : jw v ≤ f := by simp only [jwF] at hf; omega
          show parseFields (f + 1)
              (('"' :: (escStr k.data ++ '"' :: ':' :: renderC v)) ++
                '\x7d' :: rest) = _
          have hshape :
              (('"' :: (escStr k.data ++ '"' :: ':' :: renderC v)) ++
                '\x7d' :: rest) =
              '"' :: (escStr k.data ++ '"' :: ':' ::
                (renderC v ++ '\x7d' :: rest)) := by
            simp [List.cons_append, List.append_assoc]
          rw [hshape, parseFields_field,
            parseJC_render v f ('\x7d' :: rest) hv (by rfl)]
          rfl
      | cons kv2 t2 =>
          have hv : jw v ≤ f := by simp only [jwF] at hf; omega
          have ht : jwF (kv2 :: t2) ≤ f := by
            have := jw_pos v
            simp only [jwF] at hf ⊢
            omega
          show parseFields (f + 1)
              ((('"' :: (escStr k.data ++ '"' :: ':' :: renderC v)) ++
                ',' :: renderObjC (kv2 :: t2)) ++ '\x7d' :: rest) = _
          have hshape :
              ((('"' :: (escStr k.data ++ '"' :: ':' :: renderC v)) ++
                ',' :: renderObjC (kv2 :: t2)) ++ '\x7d' :: rest) =
              '"' :: (escStr k.data ++ '"' :: ':' ::
                (renderC v ++ ',' ::
                  (renderObjC (kv2 :: t2) ++ '\x7d' :: rest))) := by
            simp [List.cons_append, List.append_assoc]
          rw [hshape, parseFields_field,
            parseJC_render v f
              (',' :: (renderObjC (kv2 :: t2) ++ '\x7d' :: rest)) hv (by rfl)]
          have hrec := parseFields_render (kv2 :: t2) f rest ht
          simp only [hrec]
          rfl

end

theorem natChars_length_pos (n : Nat) : 1 ≤ (natChars n).length := by
  cases e : natChars n with
  | nil => exact absurd e (natChars_ne_nil n)
  | cons c cs => simp

theorem intChars_length_pos (n : Int) : 1 ≤ (intChars n).length := by
  unfold intChars
  split
  · simp
  · exact natChars_length_pos _

mutual

/-- The parser fuel bound is dominated by the rendering length. -/
theorem jw_le_len (j : J) : jw j ≤ (renderC j).length := by
  cases j with
  | null => simp [jw, renderC]
  | tru => simp [jw, renderC]
  | fls => simp [jw, renderC]
  | num n =>
      simp only [jw, renderC]
      exact intChars_length_pos n
  | str s => simp [jw, renderC]
  | arr xs =>
      have h := jwL_le_len xs
      simp only [jw, renderC, List.length_cons, List.length_append,
        List.length_singleton]
      omega
  | obj fs =>
      have h := jwF_le_len fs
      simp only [jw, renderC, List.length_cons, List.length_append,
        List.length_singleton]
      omega

theorem jwL_le_len (xs : List J) : jwL xs ≤ (renderArrC xs).length + 1 := by
  match xs with
  | [] => simp [jwL, renderArrC]
  | [x] =>
      have h := jw_le_len x
      simp only [jwL, renderArrC]
      omega
  | x :: y :: t =>
      have h := jw_le_len x
      have h2 := jwL_le_len (y :: t)
      simp only [jwL, renderArrC, List.length_append, List.length_cons]
      omega

theorem jwF_le_len (fs : List (String × J)) :
    jwF fs ≤ (renderObjC fs).length + 1 := by
  match fs with
  | [] => simp [jwF, renderObjC]
  | [(k, v)] =>
      have h := jw_le_len v
      simp only [jwF, renderObjC, List.length_cons, List.length_append]
      omega
  | (k, v) :: g :: t =>
      have h := jw_le_len v
      have h2 := jwF_le_len (g :: t)
      simp only [jwF, renderObjC, List.length_cons, List.length_append]
      omega

end

/-- `JSON.parse` applied to the rendering of `j` followed by trailing
whitespace recovers `j`. -/
theorem jsParse_render_ws (j : J) (tail : List Char)
    (ht : tail.all wsChar = true) (hd : digFree tail = true) :
    jsParse (String.mk (renderC j ++ tail)) = .ok j := by
  unfold jsParse
  have hdata : (String.mk (renderC j ++ tail)).data = renderC j ++ tail := rfl
  rw [hdata]
  have hlen : jw j ≤ (renderC j ++ tail).length + 1 := by
    have := jw_le_len j
    rw [List.length_append]
    omega
  rw [parseJC_render j _ tail hlen hd]
  simp [ht]

/-- `JSON.parse` tolerates the trailing newline that `stringifyAsync` appends
to every frame. -/
theorem jsParse_newline (j : J) :
    jsParse (String.mk (renderC j ++ ['\n'])) = .ok j :=
  jsParse_render_ws j ['\n'] (by decide) (by decide)

/-- `JSON.parse` of a bare rendering. -/
theorem jsParse_render (j : J) : jsParse (renderJ j) = .ok j := by
  have := jsParse_render_ws j [] (by decide) (by decide)
  simpa [renderJ] using this

/-! ## Merge engine (`mergeAsyncIterables`, `createManagedIterator`)

`mergeAsyncIterables` multiplexes a dynamically growing set of managed
iterators: each live iterator has at most one in-flight `pull`; a resolved
pull appends a `yield` or `error` result to a shared FIFO buffer (removing
the iterator from the live set on `return`/`error`) and wakes the consumer,
which drains the buffer in order, re-pulling after each consumed yield and
throwing on the first error.  We model each source by the trace of results
its iterator will deliver; a `yld` event can register further sources with
the engine (this is how the encoder's producers register nested async
values mid-stream).  The interleaving of pull resolutions and consumer
steps is delivered by a scheduler parameter `sch`, so theorems quantified
over `sch` hold for every interleaving the engine can exhibit. -/

mutual

/-- One resolved pull of a managed source: a yielded value together with the
sources it registers with the engine while being produced, or a rejection. -/
inductive MEvt (α : Type) where
  | yld : α → List (MSrc α) → MEvt α
  | fail : String → MEvt α

/-- A source managed by the merge engine: its id, the kind tag of the
reducer that registered it (encoder use; `0` = promise, `1` = async
iterable), the trace of its pull results (an exhausted trace models
`done: true`), and the optional error thrown by its cancellation hook
(`iterator.return`). -/
inductive MSrc (α : Type) where
  | mk : Nat → Nat → List (MEvt α) → Option String → MSrc α

end

namespace MSrc

def id : MSrc α → Nat
  | .mk i _ _ _ => i

def kind : MSrc α → Nat
  | .mk _ k _ _ => k

def evts : MSrc α → List (MEvt α)
  | .mk _ _ e _ => e

def dErr : MSrc α → Option String
  | .mk _ _ _ d => d

end MSrc

/-- An entry of the merge engine's FIFO buffer. -/
inductive BItem (α : Type) where
  | yv : α → BItem α
  | ev : String → BItem α

/-- The in-flight state of one merge-engine consumption: iterators with an
in-flight pull, iterators whose buffered yield has not been consumed yet
(they are re-pulled when it is), the FIFO buffer, the values yielded to the
consumer so far (tagged with their source id) and the ids of sources that
already completed (their iterator resolved `done` or rejected, removing
them from the live set). -/
structure MSt (α : Type) where
  pulling : List (MSrc α)
  blocked : List (MSrc α)
  buffer : List (Nat × BItem α)
  output : List (Nat × α)
  completed : List Nat

/-- An error surfaced to the merge engine's consumer: either an error from a
source, or the `AggregateError` built from cleanup failures in the
`finally` block. -/
inductive RunErr where
  | src : String → RunErr
  | agg : List String → RunErr

/-- How a consumption ended. -/
inductive ExitK where
  | done
  | broke
  | errored : String → ExitK
  | fuelOut

/-- Result of one consumption of the merged sequence. -/
structure MRes (α : Type) where
  output : List (Nat × α)
  exit : ExitK
  liveAtExit : List (MSrc α)
  destroyed : List Nat
  destroyErrs : List String
  err : Option RunErr

/-- The `finally` block of `mergeAsyncIterables`: every still-live managed
iterator is destroyed; destruction errors are collected and, if any
occurred, an `AggregateError` carrying all of them replaces the in-flight
outcome. -/
def finishRun (exit : ExitK) (s : MSt α) (base : Option RunErr) : MRes α :=
  let live := s.pulling ++ s.blocked
  let errs := live.filterMap MSrc.dErr
  { output := s.output
    exit := exit
    liveAtExit := live
    destroyed := live.map MSrc.id
    destroyErrs := errs
    err := if errs.isEmpty then base else some (.agg errs) }

/-- A pull of the `i`-th in-flight iterator resolves: `done` removes it from
the live set, a yield is buffered (and the sources the produced value
registered join the engine and are pulled), an error is buffered and the
iterator is removed from the live set. -/
def doArrive (s : MSt α) (i : Nat) : MSt α :=
  match s.pulling[i]? with
  | none => s
  | some src =>
    match src.evts with
    | [] =>
        { s with pulling := s.pulling.eraseIdx i
                 completed := s.completed ++ [src.id] }
    | .yld v spawns :: rest =>
        { s with pulling := s.pulling.eraseIdx i ++ spawns
                 blocked := s.blocked ++ [.mk src.id src.kind rest src.dErr]
                 buffer := s.buffer ++ [(src.id, .yv v)] }
    | .fail e :: _ =>
        { s with pulling := s.pulling.eraseIdx i
                 buffer := s.buffer ++ [(src.id, .ev e)]
                 completed := s.completed ++ [src.id] }

/-- The consumer takes a buffered yield: the value is emitted and the
source is re-pulled (moved back to the in-flight set). -/
def consumeYld (s : MSt α) (id : Nat) (v : α) (rest : List (Nat × BItem α)) :
    MSt α :=
  match s.blocked.find? (fun src => src.id == id) with
  | some src =>
      { s with buffer := rest
               output := s.output ++ [(id, v)]
               blocked := s.blocked.eraseP (fun src => src.id == id)
               pulling := s.pulling ++ [src] }
  | none =>
      { s with buffer := rest
               output := s.output ++ [(id, v)] }

mutual

/-- Weight of a source (for fuel): one per source plus its events. -/
def wSrc : MSrc α → Nat
  | .mk _ _ evts _ => 1 + wEvts evts

def wEvts : List (MEvt α) → Nat
  | [] => 0
  | e :: r => wEvt e + wEvts r

def wEvt : MEvt α → Nat
  | .yld _ spawns => 2 + wSrcs spawns
  | .fail _ => 2

def wSrcs : List (MSrc α) → Nat
  | [] => 0
  | s :: r => wSrc s + wSrcs r

end

/-- Weight of a state: strictly decreases along every engine step. -/
def wSt (s : MSt α) : Nat :=
  wSrcs s.pulling + wSrcs s.blocked + s.buffer.length

/-- The consumer loop of `mergeAsyncIterables`, driven by the scheduler
`sch`: while iterators are live or results are buffered, either some
in-flight pull resolves or the consumer takes the next buffered result;
`budget` models a consumer that breaks out of its `for await` loop after
that many values. -/
def runM (sch : Nat → Nat) (budget : Option Nat) :
    Nat → Nat → MSt α → MRes α
  | 0, _, s => finishRun .fuelOut s none
  | fuel + 1, t, s =>
    let n := s.pulling.length
    let total := n + (if s.buffer.isEmpty then 0 else 1)
    if total = 0 then finishRun .done s none
    else
      let k := sch t % total
      if k < n then runM sch budget fuel (t + 1) (doArrive s k)
      else
        match s.buffer with
        | [] => finishRun .done s none
        | (_, .ev e) :: rest =>
            finishRun (.errored e) { s with buffer := rest } (some (.src e))
        | (id, .yv v) :: rest =>
            let s2 := consumeYld s id v rest
            match budget with
            | some b =>
                if b ≤ s2.output.length then finishRun .broke s2 none
                else runM sch budget fuel (t + 1) s2
            | none => runM sch budget fuel (t + 1) s2

/-- Initial state for one consumption: the queued iterables are drained
into live, pulled iterators. -/
def initSt (sources : List (MSrc α)) : MSt α :=
  { pulling := sources, blocked := [], buffer := [], output := [], completed := [] }

/-- One full consumption of the merged sequence over the given sources. -/
def runFull (sch : Nat → Nat) (budget : Option Nat)
    (sources : List (MSrc α)) : MRes α :=
  runM sch budget (wSt (initSt sources) + 1) 0 (initSt sources)

/-- The guard at the top of `mergeAsyncIterables`'s
`[Symbol.asyncIterator]` body (part_007): starting a consumption while one
is in progress is an error; otherwise the `iterating` flag is set and the
consumption runs. -/
def mergeIterate (iterating : Bool) (sch : Nat → Nat) (budget : Option Nat)
    (sources : List (MSrc α)) : Except String (MRes α) :=
  if iterating then .error "Cannot iterate twice"
  else .ok (runFull sch budget sources)

/-! ### Merge engine: id accounting -/

mutual

/-- All sources reachable from a source, itself included (nested sources
are those a yield event registers). -/
def closSrc : MSrc α → List (MSrc α)
  | .mk i k evts d => .mk i k evts d :: closEvts evts

def closEvts : List (MEvt α) → List (MSrc α)
  | [] => []
  | e :: r => closEvt e ++ closEvts r

def closEvt : MEvt α → List (MSrc α)
  | .yld _ sp => closSrcs sp
  | .fail _ => []

def closSrcs : List (MSrc α) → List (MSrc α)
  | [] => []
  | s :: r => closSrc s ++ closSrcs r

end

/-- All ids a state still accounts for: reachable from live sources, plus
completed ones. -/
def stIdsL (s : MSt α) : List Nat :=
  (closSrcs s.pulling).map MSrc.id ++ (closSrcs s.blocked).map MSrc.id ++
    s.completed

theorem closSrcs_append (a b : List (MSrc α)) :
    closSrcs (a ++ b) = closSrcs a ++ closSrcs b := by
  induction a with
  | nil => simp [closSrcs]
  | cons s r ih => simp [closSrcs, ih]

theorem getElem?_decomp {β : Type} (l : List β) (i : Nat) (x : β)
    (h : l[i]? = some x) :
    ∃ a b, l = a ++ x :: b ∧ a.length = i ∧ l.eraseIdx i = a ++ b := by
  induction l generalizing i with
  | nil => simp at h
  | cons y t ih =>
      cases i with
      | zero =>
          simp at h
          subst h
          exact ⟨[], t, rfl, rfl, rfl⟩
      | succ i2 =>
          simp only [List.getElem?_cons_succ] at h
          obtain ⟨a, b, hl, hlen, herase⟩ := ih i2 h
          exact ⟨y :: a, b, by simp [hl], by simp [hlen],
            by simp [List.eraseIdx_cons_succ, herase]⟩

theorem find?_decomp {β : Type} (p : β → Bool) (l : List β) (x : β)
    (h : l.find? p = some x) :
    ∃ a b, l = a ++ x :: b ∧ (∀ y ∈ a, p y = false) ∧ p x = true ∧
      l.eraseP p = a ++ b := by
  induction l with
  | nil => simp at h
  | cons y t ih =>
      by_cases hp : p y = true
      · rw [List.find?_cons_of_pos _ hp] at h
        cases h
        exact ⟨[], t, rfl, by simp, hp, by simp [List.eraseP_cons, hp]⟩
      · have hp2 : p y = false := by simpa using hp
        rw [List.find?_cons_of_neg _ (by simpa using hp)] at h
        obtain ⟨a, b, hl, ha, hx, he⟩ := ih h
        refine ⟨y :: a, b, by simp [hl], ?_, hx, ?_⟩
        · intro z hz
          rcases List.mem_cons.mp hz with rfl | hz2
          · exact hp2
          · exact ha z hz2
        · simp [List.eraseP_cons, hp2, he]

theorem count_stIdsL_doArrive (s : MSt α) (i : Nat) (x : Nat) :
    (stIdsL (doArrive s i)).count x ≤ (stIdsL s).count x := by
  unfold doArrive
  cases hget : s.pulling[i]? with
  | none => simp
  | some src =>
      obtain ⟨a, b, hl, _hlen, herase⟩ := getElem?_decomp _ _ _ hget
      cases src with
      | mk sid skind evts d =>
          cases evts with
          | nil =>
              simp only [MSrc.evts, MSrc.id, stIdsL]
              rw [herase, hl]
              simp only [closSrcs_append, closSrcs, closSrc, closEvts,
                List.count_append, List.map_append, List.map_cons,
                List.count_cons, List.map_nil, List.count_nil,
                List.append_nil]
              simp only [MSrc.id]
              omega
          | cons e rest =>
              cases e with
              | yld v spawns =>
                  simp only [MSrc.evts, MSrc.id, MSrc.kind, MSrc.dErr, stIdsL]
                  rw [herase, hl]
                  simp only [closSrcs_append, closSrcs, closSrc, closEvts,
                    closEvt, List.count_append, List.map_append,
                    List.map_cons, List.count_cons, List.map_nil,
                    List.count_nil, List.append_nil]
                  simp only [MSrc.id]
                  omega
              | fail err =>
                  simp only [MSrc.evts, MSrc.id, stIdsL]
                  rw [herase, hl]
                  simp only [closSrcs_append, closSrcs, closSrc, closEvts,
                    closEvt, List.count_append, List.map_append,
                    List.map_cons, List.count_cons, List.map_nil,
                    List.count_nil, List.append_nil, List.nil_append]
                  simp only [MSrc.id]
                  omega

theorem count_stIdsL_consumeYld (s : MSt α) (id : Nat) (v : α)
    (rest : List (Nat × BItem α)) (x : Nat) :
    (stIdsL (consumeYld s id v rest)).count x ≤ (stIdsL s).count x := by
  unfold consumeYld
  cases hfind : s.blocked.find? (fun src => src.id == id) with
  | none => simp [stIdsL]
  | some src =>
      obtain ⟨a, b, hl, _ha, _hx, he⟩ := find?_decomp _ _ _ hfind
      cases src with
      | mk sid skind evts d =>
          simp only [stIdsL]
          rw [he, hl]
          simp only [closSrcs_append, closSrcs, closSrc, closEvts,
            List.count_append, List.map_append, List.map_cons,
            List.count_cons, List.append_nil]
          omega

/-- Top-level live ids are dominated by the closure ids. -/
theorem count_live_le_stIdsL (s : MSt α) (x : Nat) :
    ((s.pulling ++ s.blocked).map MSrc.id).count x ≤ (stIdsL s).count x := by
  have h : ∀ l : List (MSrc α), (l.map MSrc.id).count x ≤
      ((closSrcs l).map MSrc.id).count x := by
    intro l
    induction l with
    | nil => simp [closSrcs]
    | cons s2 r ih =>
        cases s2 with
        | mk sid skind evts d =>
            simp only [closSrcs, closSrc, List.map_cons, List.map_append,
              List.count_append, List.count_cons]
            omega
  simp only [stIdsL, List.map_append, List.count_append]
  have h1 := h s.pulling
  have h2 := h s.blocked
  omega

/-- The cleanup bookkeeping a consumption result must satisfy relative to
the state `s` it started from. -/
def ResProps (r : MRes α) (s : MSt α) : Prop :=
  r.destroyed = r.liveAtExit.map MSrc.id ∧
  r.destroyErrs = r.liveAtExit.filterMap MSrc.dErr ∧
  (∀ x, (r.liveAtExit.map MSrc.id).count x ≤ (stIdsL s).count x) ∧
  (r.destroyErrs ≠ [] → r.err = some (.agg r.destroyErrs)) ∧
  (∀ l, r.err = some (.agg l) → l = r.destroyErrs ∧ r.destroyErrs ≠ [])

theorem ResProps.mono {r : MRes α} {s s2 : MSt α} (h : ResProps r s2)
    (hle : ∀ x, (stIdsL s2).count x ≤ (stIdsL s).count x) : ResProps r s :=
  ⟨h.1, h.2.1, fun x => le_trans (h.2.2.1 x) (hle x), h.2.2.2.1, h.2.2.2.2⟩

/-- Structural properties of the cleanup record produced by the `finally`
block. -/
theorem finishRun_props (ex : ExitK) (s : MSt α) (base : Option RunErr)
    (hb : ∀ l, base ≠ some (.agg l)) :
    ResProps (finishRun ex s base) s := by
  refine ⟨rfl, rfl, ?_, ?_, ?_⟩
  · intro x
    exact count_live_le_stIdsL s x
  · intro hne
    simp only [finishRun] at hne ⊢
    rw [if_neg (by simpa [List.isEmpty_iff] using hne)]
  · intro l hl
    simp only [finishRun] at hl ⊢
    by_cases he : ((s.pulling ++ s.blocked).filterMap MSrc.dErr).isEmpty
    · rw [if_pos he] at hl
      exact absurd hl (hb l)
    · rw [if_neg he] at hl
      cases hl
      exact ⟨rfl, by simpa [List.isEmpty_iff] using he⟩

theorem stIdsL_setBuffer (s : MSt α) (b : List (Nat × BItem α)) :
    stIdsL { s with buffer := b } = stIdsL s := rfl

/-- Properties of any merge-engine consumption: the destroyed iterators are
exactly the live ones at exit, destruction errors are their cancellation
errors, live ids at exit are dominated by the starting ids, and an
`AggregateError` is surfaced exactly when some destruction failed. -/
theorem runM_props (sch : Nat → Nat) (budget : Option Nat) :
    ∀ (fuel t : Nat) (s : MSt α), ResProps (runM sch budget fuel t s) s := by
  intro fuel
  induction fuel with
  | zero =>
      intro t s
      exact finishRun_props _ _ _ (by intro l; simp)
  | succ f ih =>
      intro t s
      rw [runM]
      dsimp only
      cases hbe : s.buffer.isEmpty with
      | true =>
          have h1 : (if (true = true) then 0 else 1) = 0 := rfl
          rw [h1]
          by_cases hn : s.pulling.length + 0 = 0
          · rw [if_pos hn]
            exact finishRun_props _ _ _ (by intro l; simp)
          · rw [if_neg hn, Nat.add_zero, if_pos (Nat.mod_lt _ (by omega))]
            exact (ih (t + 1) _).mono (fun x => count_stIdsL_doArrive s _ x)
      | false =>
          have h1 : (if (false = true) then 0 else 1) = 1 := rfl
          rw [h1, if_neg (by omega)]
          by_cases hk : sch t % (s.pulling.length + 1) < s.pulling.length
          · rw [if_pos hk]
            exact (ih (t + 1) _).mono (fun x => count_stIdsL_doArrive s _ x)
          · rw [if_neg hk]
            cases hbuf : s.buffer with
            | nil => rw [hbuf] at hbe; simp at hbe
            | cons hd rest =>
                obtain ⟨bid, bi⟩ := hd
                cases bi with
                | ev e =>
                    exact (finishRun_props _ _ _ (by intro l; simp)).mono
                      (fun x => le_of_eq rfl)
                | yv v =>
                    cases budget with
                    | none =>
                        exact (ih (t + 1) _).mono
                          (fun x => count_stIdsL_consumeYld _ _ _ _ x)
                    | some b =>
                        dsimp only
                        split
                        · exact (finishRun_props _ _ _ (by intro l; simp)).mono
                            (fun x => count_stIdsL_consumeYld _ _ _ _ x)
                        · exact (ih (t + 1) _).mono
                            (fun x => count_stIdsL_consumeYld _ _ _ _ x)

/-- Live ids at exit are dominated by the closure ids of the starting
sources. -/
theorem runFull_live_count (sources : List (MSrc α)) (sch : Nat → Nat)
    (budget : Option Nat) (x : Nat) :
    (((runFull sch budget sources).liveAtExit).map MSrc.id).count x ≤
      ((closSrcs sources).map MSrc.id).count x := by
  have h := (runM_props sch budget (wSt (initSt sources) + 1) 0
    (initSt sources)).2.2.1 x
  simpa [stIdsL, initSt, closSrcs] using h

/-- Claim C6: on every exit from consuming the merge engine's sequence
(normal completion, a thrown source error, or an early consumer break),
every still-live managed iterator is destroyed, each exactly once, and if
one or more destructions throw, a single AggregateError carrying exactly
the individual causes is surfaced to the consumer (models the finally
block of mergeAsyncIterables). -/
theorem claim_C6 {α : Type} (sources : List (MSrc α)) (sch : Nat → Nat)
    (budget : Option Nat)
    (hnd : ((closSrcs sources).map MSrc.id).Nodup) :
    (runFull sch budget sources).destroyed =
      ((runFull sch budget sources).liveAtExit).map MSrc.id ∧
    (∀ src ∈ (runFull sch budget sources).liveAtExit,
      ((runFull sch budget sources).destroyed).count src.id = 1) ∧
    ((runFull sch budget sources).destroyErrs =
      ((runFull sch budget sources).liveAtExit).filterMap MSrc.dErr) ∧
    ((runFull sch budget sources).destroyErrs ≠ [] →
      (runFull sch budget sources).err =
        some (.agg (runFull sch budget sources).destroyErrs)) ∧
    (∀ l, (runFull sch budget sources).err = some (.agg l) →
      l = (runFull sch budget sources).destroyErrs ∧
        (runFull sch budget sources).destroyErrs ≠ []) := by
  have h := runM_props sch budget (wSt (initSt sources) + 1) 0 (initSt sources)
  refine ⟨h.1, ?_, h.2.1, h.2.2.2.1, h.2.2.2.2⟩
  intro src hsrc
  have hle := runFull_live_count sources sch budget src.id
  have hone : ((closSrcs sources).map MSrc.id).count src.id ≤ 1 :=
    List.nodup_iff_count_le_one.mp hnd src.id
  have hmem : src.id ∈ ((runFull sch budget sources).liveAtExit).map MSrc.id :=
    List.mem_map_of_mem _ hsrc
  have hpos := List.count_pos_iff.mpr hmem
  have hdes : (runFull sch budget sources).destroyed =
      ((runFull sch budget sources).liveAtExit).map MSrc.id := h.1
  rw [hdes]
  omega

/-- The concrete engine run of the `failed cleanup` test: one source
yielding three values whose cancellation hook throws, consumer breaking
after the second value. -/
def srcsC6 : List (MSrc String) :=
  [MSrc.mk 1 1 [MEvt.yld "a" [], MEvt.yld "b" [], MEvt.yld "c" []]
    (some "failed return")]

theorem claim_C6_witness :
    ((closSrcs srcsC6).map MSrc.id).Nodup ∧
    ((runFull (fun _ => 0) (some 2) srcsC6).destroyed =
      ((runFull (fun _ => 0) (some 2) srcsC6).liveAtExit).map MSrc.id ∧
    (∀ src ∈ (runFull (fun _ => 0) (some 2) srcsC6).liveAtExit,
      ((runFull (fun _ => 0) (some 2) srcsC6).destroyed).count src.id = 1) ∧
    ((runFull (fun _ => 0) (some 2) srcsC6).destroyErrs =
      ((runFull (fun _ => 0) (some 2) srcsC6).liveAtExit).filterMap
        MSrc.dErr) ∧
    ((runFull (fun _ => 0) (some 2) srcsC6).destroyErrs ≠ [] →
      (runFull (fun _ => 0) (some 2) srcsC6).err =
        some (.agg (runFull (fun _ => 0) (some 2) srcsC6).destroyErrs)) ∧
    (∀ l, (runFull (fun _ => 0) (some 2) srcsC6).err = some (.agg l) →
      l = (runFull (fun _ => 0) (some 2) srcsC6).destroyErrs ∧
        (runFull (fun _ => 0) (some 2) srcsC6).destroyErrs ≠ [])) :=
  ⟨by decide, claim_C6 srcsC6 (fun _ => 0) (some 2) (by decide)⟩

/-- Claim C8: attempting a consumption of the merged sequence while one is
in progress (the `iterating` flag is set) fails immediately with the fatal
`Cannot iterate twice` error, regardless of the sources, the scheduler or
the consumer; when no consumption is in progress the consumption runs. -/
theorem claim_C8 {α : Type} (sch : Nat → Nat) (budget : Option Nat)
    (sources : List (MSrc α)) :
    mergeIterate true sch budget sources =
      Except.error "Cannot iterate twice" ∧
    mergeIterate false sch budget sources =
      Except.ok (runFull sch budget sources) := by
  exact ⟨rfl, rfl⟩

/-! ### Merge engine: per-source ordering -/

mutual

/-- No rejection anywhere in a source's reachable behavior. -/
def nfSrc : MSrc α → Bool
  | .mk _ _ evts _ => nfEvts evts

def nfEvts : List (MEvt α) → Bool
  | [] => true
  | e :: r => nfEvt e && nfEvts r

def nfEvt : MEvt α → Bool
  | .yld _ sp => nfSrcs sp
  | .fail _ => false

def nfSrcs : List (MSrc α) → Bool
  | [] => true
  | s :: r => nfSrc s && nfSrcs r

end

/-- The values a trace yields, in order. -/
def ylds : List (MEvt α) → List α
  | [] => []
  | .yld v _ :: r => v :: ylds r
  | .fail _ :: r => ylds r

/-- The subsequence of the merged output belonging to one source. -/
def outFor (id : Nat) (out : List (Nat × α)) : List α :=
  (out.filter (fun p => p.1 == id)).map Prod.snd

/-- The buffered yields belonging to one source. -/
def bufFor (id : Nat) (buf : List (Nat × BItem α)) : List α :=
  (buf.filter (fun p => p.1 == id)).filterMap
    (fun p => match p.2 with | .yv v => some v | .ev _ => none)

theorem outFor_append (id : Nat) (a b : List (Nat × α)) :
    outFor id (a ++ b) = outFor id a ++ outFor id b := by
  simp [outFor, List.filter_append]

theorem outFor_single_eq (id : Nat) (v : α) :
    outFor id [(id, v)] = [v] := by
  simp [outFor]

theorem outFor_single_ne (id id2 : Nat) (v : α) (h : id2 ≠ id) :
    outFor id [(id2, v)] = [] := by
  simp [outFor, h]

theorem bufFor_append (id : Nat) (a b : List (Nat × BItem α)) :
    bufFor id (a ++ b) = bufFor id a ++ bufFor id b := by
  simp [bufFor, List.filter_append]

theorem bufFor_single_yv_eq (id : Nat) (v : α) :
    bufFor id [(id, BItem.yv v)] = [v] := by
  simp [bufFor]

theorem bufFor_single_ne (id id2 : Nat) (bi : BItem α) (h : id2 ≠ id) :
    bufFor id [(id2, bi)] = [] := by
  simp [bufFor, h]

theorem bufFor_cons_yv_eq (id : Nat) (v : α) (rest : List (Nat × BItem α)) :
    bufFor id ((id, BItem.yv v) :: rest) = v :: bufFor id rest := by
  simp [bufFor]

theorem bufFor_cons_ne (id id2 : Nat) (bi : BItem α)
    (rest : List (Nat × BItem α)) (h : id2 ≠ id) :
    bufFor id ((id2, bi) :: rest) = bufFor id rest := by
  simp [bufFor, h]

/-- The full yield trace of the closure source carrying a given id. -/
def trOf (sources : List (MSrc α)) (id : Nat) : List α :=
  match (closSrcs sources).find? (fun s => s.id == id) with
  | some s => ylds s.evts
  | none => []

theorem find?_of_nodup {l : List (MSrc α)} {src : MSrc α}
    (hnd : (l.map MSrc.id).Nodup) (hmem : src ∈ l) :
    l.find? (fun s => s.id == src.id) = some src := by
  induction l with
  | nil => simp at hmem
  | cons s r ih =>
      rcases List.mem_cons.mp hmem with rfl | hmem2
      · rw [List.find?_cons_of_pos _ (by simp)]
      · have hne : s.id ≠ src.id := by
          intro he
          have : src.id ∈ r.map MSrc.id := List.mem_map_of_mem _ hmem2
          rw [← he] at this
          exact (List.nodup_cons.mp (by simpa using hnd)).1 this
        rw [List.find?_cons_of_neg _ (by simpa using hne)]
        exact ih (List.nodup_cons.mp (by simpa using hnd)).2 hmem2

theorem trOf_eq {sources : List (MSrc α)} {src : MSrc α}
    (hnd : ((closSrcs sources).map MSrc.id).Nodup)
    (hmem : src ∈ closSrcs sources) :
    trOf sources src.id = ylds src.evts := by
  unfold trOf
  rw [find?_of_nodup hnd hmem]

theorem mem_closSrcs_of_mem {l : List (MSrc α)} {src : MSrc α}
    (h : src ∈ l) : src ∈ closSrcs l := by
  induction l with
  | nil => simp at h
  | cons s r ih =>
      rcases List.mem_cons.mp h with rfl | h2
      · cases src with
        | mk i k e d =>
            have : closSrcs (MSrc.mk i k e d :: r) =
              (MSrc.mk i k e d :: closEvts e) ++ closSrcs r := rfl
            rw [this]
            simp
      · have : closSrcs (s :: r) = closSrc s ++ closSrcs r := rfl
        rw [this]
        exact List.mem_append_right _ (ih h2)

theorem closEvts_sub_closSrc {src : MSrc α} {y : MSrc α}
    (h : y ∈ closEvts src.evts) : y ∈ closSrc src := by
  cases src with
  | mk i k e d =>
      have : closSrc (MSrc.mk i k e d) = MSrc.mk i k e d :: closEvts e := rfl
      rw [this]
      exact List.mem_cons_of_mem _ h

theorem closSrc_sub_closSrcs {l : List (MSrc α)} {src : MSrc α}
    (h : src ∈ l) {y : MSrc α} (hy : y ∈ closSrc src) : y ∈ closSrcs l := by
  induction l with
  | nil => simp at h
  | cons s r ih =>
      have heq : closSrcs (s :: r) = closSrc s ++ closSrcs r := rfl
      rw [heq]
      rcases List.mem_cons.mp h with rfl | h2
      · exact List.mem_append_left _ hy
      · exact List.mem_append_right _ (ih h2)

theorem count_pos_of_mem_closSrcs {l : List (MSrc α)} {src : MSrc α}
    (h : src ∈ closSrcs l) :
    0 < ((closSrcs l).map MSrc.id).count src.id :=
  List.count_pos_iff.mpr (List.mem_map_of_mem _ h)

/-- The invariant a no-failure consumption maintains, relative to the full
yield traces `tr`: every live source's consumed prefix (emitted output plus
buffered yields) followed by its remaining yields is its full trace; not
yet started nested sources are untouched; completed sources are fully
accounted. -/
def Inv (tr : Nat → List α) (s : MSt α) : Prop :=
  (stIdsL s).Nodup ∧
  (s.buffer.map Prod.fst).Nodup ∧
  (∀ p ∈ s.buffer, ∃ src ∈ s.blocked, src.id = p.1) ∧
  (∀ src ∈ s.blocked, src.id ∈ s.buffer.map Prod.fst) ∧
  (∀ src ∈ s.pulling ++ s.blocked,
    outFor src.id s.output ++ bufFor src.id s.buffer ++ ylds src.evts =
      tr src.id) ∧
  (∀ src ∈ s.pulling ++ s.blocked, ∀ nested ∈ closEvts src.evts,
    outFor nested.id s.output = [] ∧ bufFor nested.id s.buffer = [] ∧
      ylds nested.evts = tr nested.id) ∧
  (∀ id ∈ s.completed, outFor id s.output ++ bufFor id s.buffer = tr id)

/-- No rejection can still reach the consumer: live sources are
failure-free and nothing buffered is an error. -/
def NoFailSt (s : MSt α) : Prop :=
  nfSrcs (s.pulling ++ s.blocked) = true ∧
  (∀ p ∈ s.buffer, ∀ e, p.2 ≠ BItem.ev e)

theorem id_ne_of_count_zero {l : List (MSrc α)} {x : Nat}
    (h : (l.map MSrc.id).count x = 0) {y : MSrc α} (hy : y ∈ l) :
    y.id ≠ x := by
  intro he
  have hpos := List.count_pos_iff.mpr (List.mem_map_of_mem MSrc.id hy)
  rw [he] at hpos
  omega

theorem mem_of_count_zero_false {l : List Nat} {x : Nat}
    (h : l.count x = 0) (hy : x ∈ l) : False := by
  have := List.count_pos_iff.mpr hy
  omega

/-- Ids are globally unique: the id of a live, in-flight source occurs
nowhere else in the state's accounting. -/
theorem sep_pulling {s : MSt α} (hnd : (stIdsL s).Nodup)
    {a b : List (MSrc α)} {src : MSrc α} (hp : s.pulling = a ++ src :: b) :
    ((closSrcs a).map MSrc.id).count src.id = 0 ∧
    ((closEvts src.evts).map MSrc.id).count src.id = 0 ∧
    ((closSrcs b).map MSrc.id).count src.id = 0 ∧
    ((closSrcs s.blocked).map MSrc.id).count src.id = 0 ∧
    s.completed.count src.id = 0 := by
  have h1 := List.nodup_iff_count_le_one.mp hnd src.id
  cases src with
  | mk sid k evts d =>
      simp only [stIdsL, hp, closSrcs_append] at h1
      have hc : closSrcs (MSrc.mk sid k evts d :: b) =
          (MSrc.mk sid k evts d :: closEvts evts) ++ closSrcs b := rfl
      rw [hc] at h1
      simp only [List.map_append, List.map_cons, List.count_append,
        List.count_cons, MSrc.id, MSrc.evts] at h1 ⊢
      simp only [beq_self_eq_true, if_true] at h1
      refine ⟨?_, ?_, ?_, ?_, ?_⟩ <;> omega

/-- Ids are globally unique: the id of a blocked source occurs nowhere
else in the state's accounting. -/
theorem sep_blocked {s : MSt α} (hnd : (stIdsL s).Nodup)
    {a b : List (MSrc α)} {src : MSrc α} (hp : s.blocked = a ++ src :: b) :
    ((closSrcs s.pulling).map MSrc.id).count src.id = 0 ∧
    ((closSrcs a).map MSrc.id).count src.id = 0 ∧
    ((closEvts src.evts).map MSrc.id).count src.id = 0 ∧
    ((closSrcs b).map MSrc.id).count src.id = 0 ∧
    s.completed.count src.id = 0 := by
  have h1 := List.nodup_iff_count_le_one.mp hnd src.id
  cases src with
  | mk sid k evts d =>
      simp only [stIdsL, hp, closSrcs_append] at h1
      have hc : closSrcs (MSrc.mk sid k evts d :: b) =
          (MSrc.mk sid k evts d :: closEvts evts) ++ closSrcs b := rfl
      rw [hc] at h1
      simp only [List.map_append, List.map_cons, List.count_append,
        List.count_cons, MSrc.id, MSrc.evts] at h1 ⊢
      simp only [beq_self_eq_true, if_true] at h1
      refine ⟨?_, ?_, ?_, ?_, ?_⟩ <;> omega

theorem nfSrcs_append_iff (a b : List (MSrc α)) :
    nfSrcs (a ++ b) = (nfSrcs a && nfSrcs b) := by
  induction a with
  | nil => simp [nfSrcs]
  | cons s r ih => simp [nfSrcs, ih, Bool.and_assoc]

theorem nfSrc_of_mem {l : List (MSrc α)} (h : nfSrcs l = true) {src : MSrc α}
    (hm : src ∈ l) : nfSrc src = true := by
  induction l with
  | nil => simp at hm
  | cons s r ih =>
      simp only [nfSrcs, Bool.and_eq_true] at h
      rcases List.mem_cons.mp hm with rfl | h2
      · exact h.1
      · exact ih h.2 h2

theorem nfSrcs_of_sub {l l2 : List (MSrc α)} (h : nfSrcs l = true)
    (hsub : ∀ x ∈ l2, x ∈ l) : nfSrcs l2 = true := by
  induction l2 with
  | nil => rfl
  | cons s r ih =>
      simp only [nfSrcs, Bool.and_eq_true]
      exact ⟨nfSrc_of_mem h (hsub s (by simp)),
        ih (fun x hx => hsub x (by simp [hx]))⟩

/-- A resolving pull preserves the ordering invariant in a failure-free
consumption. -/
theorem Inv_doArrive {tr : Nat → List α} {s : MSt α} (i : Nat)
    (hI : Inv tr s) (hF : NoFailSt s) :
    Inv tr (doArrive s i) ∧ NoFailSt (doArrive s i) := by
  obtain ⟨hA, hB, hC, hH, hE, hN, hG⟩ := hI
  obtain ⟨hNF, hNB⟩ := hF
  have hA2 : (stIdsL (doArrive s i)).Nodup := by
    apply List.nodup_iff_count_le_one.mpr
    intro x
    exact le_trans (count_stIdsL_doArrive s i x)
      (List.nodup_iff_count_le_one.mp hA x)
  cases hget : s.pulling[i]? with
  | none =>
      have hs : doArrive s i = s := by unfold doArrive; rw [hget]
      rw [hs]
      exact ⟨⟨hA, hB, hC, hH, hE, hN, hG⟩, hNF, hNB⟩
  | some src =>
      obtain ⟨a, b, hp, _hlen, herase⟩ := getElem?_decomp _ _ _ hget
      have hmemsrc : src ∈ s.pulling := by
        rw [hp]; exact List.mem_append_right _ (List.mem_cons_self _ _)
      have hsubP : ∀ x ∈ a ++ b, x ∈ s.pulling := by
        intro x hx
        rw [hp]
        rcases List.mem_append.mp hx with h2 | h2
        · exact List.mem_append_left _ h2
        · exact List.mem_append_right _ (List.mem_cons_of_mem _ h2)
      cases src with
      | mk sid k evts d =>
        have hnfsrc : nfSrc (MSrc.mk sid k evts d) = true :=
          nfSrc_of_mem hNF (List.mem_append_left _ hmemsrc)
        obtain ⟨c1, c2, c3, c4, c5⟩ := sep_pulling hA hp
        simp only [MSrc.id, MSrc.evts] at c1 c2 c3 c4 c5
        cases evts with
        | nil =>
            have hs : doArrive s i = { s with pulling := a ++ b, completed := s.completed ++ [sid] } := by
              unfold doArrive
              rw [hget]
              simp only [MSrc.evts, MSrc.id]
              rw [herase]
            rw [hs] at hA2 ⊢
            refine ⟨⟨hA2, hB, ?_, ?_, ?_, ?_, ?_⟩, ?_, ?_⟩
            · intro p hp2
              exact hC p hp2
            · intro src' hm
              exact hH src' hm
            · intro src' hm
              have hold : src' ∈ s.pulling ++ s.blocked := by
                rcases List.mem_append.mp hm with h2 | h2
                · exact List.mem_append_left _ (hsubP _ h2)
                · exact List.mem_append_right _ h2
              exact hE src' hold
            · intro src' hm nested hn
              have hold : src' ∈ s.pulling ++ s.blocked := by
                rcases List.mem_append.mp hm with h2 | h2
                · exact List.mem_append_left _ (hsubP _ h2)
                · exact List.mem_append_right _ h2
              exact hN src' hold nested hn
            · intro id hid
              rcases List.mem_append.mp hid with h2 | h2
              · exact hG id h2
              · have heq : id = sid := by simpa using h2
                subst heq
                have h3 := hE _ (List.mem_append_left _ hmemsrc)
                simp only [MSrc.id, MSrc.evts, ylds, List.append_nil] at h3
                exact h3
            · exact nfSrcs_of_sub hNF (by
                intro x hx
                rcases List.mem_append.mp hx with h2 | h2
                · exact List.mem_append_left _ (hsubP _ h2)
                · exact List.mem_append_right _ h2)
            · intro p hp2
              exact hNB p hp2
        | cons e rest =>
            cases e with
            | fail err =>
                exfalso
                simp [nfSrc, nfEvts, nfEvt] at hnfsrc
            | yld v spawns =>
                have hs : doArrive s i = { s with pulling := (a ++ b) ++ spawns, blocked := s.blocked ++ [MSrc.mk sid k rest d], buffer := s.buffer ++ [(sid, BItem.yv v)] } := by
                  unfold doArrive
                  rw [hget]
                  simp only [MSrc.evts, MSrc.id, MSrc.kind, MSrc.dErr]
                  rw [herase]
                rw [hs] at hA2 ⊢
                have hclosE : closEvts (MEvt.yld v spawns :: rest) =
                    closSrcs spawns ++ closEvts rest := by
                  simp [closEvts, closEvt]
                rw [hclosE] at c2
                simp only [List.map_append, List.count_append] at c2
                have cSp : ((closSrcs spawns).map MSrc.id).count sid = 0 := by
                  omega
                have cRest : ((closEvts rest).map MSrc.id).count sid = 0 := by
                  omega
                -- facts about the source's yields
                have hEsrc := hE _ (List.mem_append_left _ hmemsrc)
                simp only [MSrc.id, MSrc.evts, ylds] at hEsrc
                -- distinctness of sid from everything else
                have hne_blocked : ∀ src' ∈ s.blocked, src'.id ≠ sid := by
                  intro src' h2
                  exact id_ne_of_count_zero c4 (mem_closSrcs_of_mem h2)
                have hne_buf : sid ∉ s.buffer.map Prod.fst := by
                  intro hmem
                  obtain ⟨p, hp2, hp3⟩ := List.mem_map.mp hmem
                  obtain ⟨srcw, hw1, hw2⟩ := hC p hp2
                  exact hne_blocked srcw hw1 (by rw [hw2, hp3])
                refine ⟨⟨hA2, ?_, ?_, ?_, ?_, ?_, ?_⟩, ?_, ?_⟩
                · -- buffer ids stay distinct
                  simp only [List.map_append, List.map_cons, List.map_nil]
                  rw [List.nodup_append]
                  exact ⟨hB, List.nodup_singleton _,
                    by simpa [List.disjoint_singleton] using hne_buf⟩
                · -- every buffered item has a blocked owner
                  intro p hp2
                  rcases List.mem_append.mp hp2 with h2 | h2
                  · obtain ⟨srcw, hw1, hw2⟩ := hC p h2
                    exact ⟨srcw, List.mem_append_left _ hw1, hw2⟩
                  · have : p = (sid, BItem.yv v) := by simpa using h2
                    subst this
                    exact ⟨MSrc.mk sid k rest d,
                      List.mem_append_right _ (by simp), rfl⟩
                · -- every blocked source has a buffered item
                  intro src' hm
                  rcases List.mem_append.mp hm with h2 | h2
                  · have := hH src' h2
                    simp only [List.map_append, List.map_cons, List.map_nil]
                    exact List.mem_append_left _ this
                  · have : src' = MSrc.mk sid k rest d := by simpa using h2
                    subst this
                    simp [MSrc.id]
                · -- live accounting
                  intro src' hm
                  rcases List.mem_append.mp hm with h2 | h2
                  · rcases List.mem_append.mp h2 with h3 | h3
                    · -- still in flight, untouched
                      have hne : src'.id ≠ sid := by
                        rcases List.mem_append.mp h3 with h4 | h4
                        · exact id_ne_of_count_zero c1 (mem_closSrcs_of_mem h4)
                        · exact id_ne_of_count_zero c3 (mem_closSrcs_of_mem h4)
                      have hold := hE src' (List.mem_append_left _ (hsubP _ h3))
                      simpa [bufFor_append, bufFor_single_ne _ _ _ (Ne.symm hne)] using hold
                    · -- freshly spawned
                      have hnested : src' ∈ closEvts (MEvt.yld v spawns :: rest) := by
                        rw [hclosE]
                        exact List.mem_append_left _ (mem_closSrcs_of_mem h3)
                      have hne : src'.id ≠ sid :=
                        id_ne_of_count_zero cSp
                          (mem_closSrcs_of_mem h3)
                      obtain ⟨ho, hb2, hy⟩ :=
                        hN _ (List.mem_append_left _ hmemsrc) src' (by
                          simpa [MSrc.evts] using hnested)
                      simp [bufFor_append, bufFor_single_ne _ _ _ (Ne.symm hne), ho, hb2, hy]
                  · rcases List.mem_append.mp h2 with h3 | h3
                    · -- previously blocked, untouched
                      have hne : src'.id ≠ sid := hne_blocked src' h3
                      have hold := hE src' (List.mem_append_right _ h3)
                      simpa [bufFor_append, bufFor_single_ne _ _ _ (Ne.symm hne)] using hold
                    · -- the stepped source, now blocked on its new yield
                      have : src' = MSrc.mk sid k rest d := by simpa using h3
                      subst this
                      simp only [MSrc.id, MSrc.evts]
                      rw [bufFor_append, bufFor_single_yv_eq]
                      have := hEsrc
                      simp only [List.append_assoc, List.singleton_append] at this ⊢
                      exact this
                · -- untouched nested sources
                  intro src' hm nested hn
                  have hne : nested.id ≠ sid := by
                    rcases List.mem_append.mp hm with h2 | h2
                    · rcases List.mem_append.mp h2 with h3 | h3
                      · rcases List.mem_append.mp h3 with h4 | h4
                        · exact id_ne_of_count_zero c1
                            (closSrc_sub_closSrcs h4 (closEvts_sub_closSrc hn))
                        · exact id_ne_of_count_zero c3
                            (closSrc_sub_closSrcs h4 (closEvts_sub_closSrc hn))
                      · have : nested ∈ closSrcs spawns :=
                          closSrc_sub_closSrcs h3 (closEvts_sub_closSrc hn)
                        exact id_ne_of_count_zero cSp this
                    · rcases List.mem_append.mp h2 with h3 | h3
                      · exact id_ne_of_count_zero c4
                          (closSrc_sub_closSrcs h3 (closEvts_sub_closSrc hn))
                      · have : src' = MSrc.mk sid k rest d := by simpa using h3
                        subst this
                        exact id_ne_of_count_zero cRest
                          (by simpa [MSrc.evts] using hn)
                  have hold : outFor nested.id s.output = [] ∧
                      bufFor nested.id s.buffer = [] ∧
                      ylds nested.evts = tr nested.id := by
                    rcases List.mem_append.mp hm with h2 | h2
                    · rcases List.mem_append.mp h2 with h3 | h3
                      · exact hN src' (List.mem_append_left _ (hsubP _ h3))
                          nested hn
                      · -- nested inside a spawned source
                        apply hN _ (List.mem_append_left _ hmemsrc) nested
                        simp only [MSrc.evts]
                        rw [hclosE]
                        exact List.mem_append_left _
                          (closSrc_sub_closSrcs h3 (closEvts_sub_closSrc hn))
                    · rcases List.mem_append.mp h2 with h3 | h3
                      · exact hN src' (List.mem_append_right _ h3) nested hn
                      · have : src' = MSrc.mk sid k rest d := by simpa using h3
                        subst this
                        apply hN _ (List.mem_append_left _ hmemsrc) nested
                        simp only [MSrc.evts] at hn ⊢
                        rw [hclosE]
                        exact List.mem_append_right _ hn
                  obtain ⟨ho, hb2, hy⟩ := hold
                  refine ⟨ho, ?_, hy⟩
                  rw [bufFor_append, bufFor_single_ne _ _ _ (Ne.symm hne), hb2]
                  rfl
                · -- completed accounting
                  intro id hid
                  have hne : id ≠ sid := by
                    intro heq
                    subst heq
                    exact mem_of_count_zero_false c5 hid
                  have hne2 : sid ≠ id := fun h2 => hne h2.symm
                  have hold := hG id hid
                  rw [bufFor_append, bufFor_single_ne _ _ _ hne2]
                  simpa using hold
                · -- live sources stay failure-free
                  simp only [nfSrc, nfEvts, nfEvt, Bool.and_eq_true] at hnfsrc
                  have hP : nfSrcs (a ++ b) = true := nfSrcs_of_sub hNF
                    (fun x hx => List.mem_append_left _ (hsubP _ hx))
                  rw [nfSrcs_append_iff, Bool.and_eq_true] at hP
                  have hBl : nfSrcs s.blocked = true := nfSrcs_of_sub hNF
                    (fun x hx => List.mem_append_right _ hx)
                  simp [nfSrcs_append_iff, nfSrcs, nfSrc, hP.1, hP.2, hBl,
                    hnfsrc.1, hnfsrc.2]
                · -- nothing buffered is an error
                  intro p hp2
                  rcases List.mem_append.mp hp2 with h2 | h2
                  · exact hNB p h2
                  · have : p = (sid, BItem.yv v) := by simpa using h2
                    subst this
                    intro e
                    simp

/-- Consuming a buffered yield preserves the ordering invariant in a
failure-free consumption. -/
theorem Inv_consumeYld {tr : Nat → List α} {s : MSt α} {id : Nat} {v : α}
    {rest : List (Nat × BItem α)}
    (hI : Inv tr s) (hF : NoFailSt s)
    (hbuf : s.buffer = (id, BItem.yv v) :: rest) :
    Inv tr (consumeYld s id v rest) ∧ NoFailSt (consumeYld s id v rest) := by
  obtain ⟨hA, hB, hC, hH, hE, hN, hG⟩ := hI
  obtain ⟨hNF, hNB⟩ := hF
  have hA2 : (stIdsL (consumeYld s id v rest)).Nodup := by
    apply List.nodup_iff_count_le_one.mpr
    intro x
    exact le_trans (count_stIdsL_consumeYld s id v rest x)
      (List.nodup_iff_count_le_one.mp hA x)
  have hBids : s.buffer.map Prod.fst = id :: rest.map Prod.fst := by
    rw [hbuf]; rfl
  have hBrest : (rest.map Prod.fst).Nodup := by
    rw [hBids] at hB
    exact (List.nodup_cons.mp hB).2
  have hBhead : id ∉ rest.map Prod.fst := by
    rw [hBids] at hB
    exact (List.nodup_cons.mp hB).1
  obtain ⟨srcw, hw1, hw2⟩ := hC (id, BItem.yv v) (by rw [hbuf]; simp)
  cases hfind : s.blocked.find? (fun src => src.id == id) with
  | none =>
      exfalso
      have := List.find?_eq_none.mp hfind srcw hw1
      simp [hw2] at this
  | some srcb =>
      obtain ⟨a, b, hp, _ha, hx, he⟩ := find?_decomp _ _ _ hfind
      have hsid : srcb.id = id := by simpa using hx
      have hmemb : srcb ∈ s.blocked := by
        rw [hp]; exact List.mem_append_right _ (List.mem_cons_self _ _)
      have hsubB : ∀ x ∈ a ++ b, x ∈ s.blocked := by
        intro x hx2
        rw [hp]
        rcases List.mem_append.mp hx2 with h2 | h2
        · exact List.mem_append_left _ h2
        · exact List.mem_append_right _ (List.mem_cons_of_mem _ h2)
      obtain ⟨c1, c2, c3, c4, c5⟩ := sep_blocked hA hp
      rw [hsid] at c1 c2 c3 c4 c5
      have hs : consumeYld s id v rest = { s with buffer := rest, output := s.output ++ [(id, v)], blocked := a ++ b, pulling := s.pulling ++ [srcb] } := by
        unfold consumeYld
        rw [hfind, he]
      rw [hs] at hA2 ⊢
      have hne_p : ∀ src' ∈ s.pulling, src'.id ≠ id := by
        intro src' h2
        exact id_ne_of_count_zero c1 (mem_closSrcs_of_mem h2)
      have hne_a : ∀ src' ∈ a, src'.id ≠ id := by
        intro src' h2
        exact id_ne_of_count_zero c2 (mem_closSrcs_of_mem h2)
      have hne_b : ∀ src' ∈ b, src'.id ≠ id := by
        intro src' h2
        exact id_ne_of_count_zero c4 (mem_closSrcs_of_mem h2)
      have hbufx : ∀ x, x ≠ id → bufFor x s.buffer = bufFor x rest := by
        intro x hx2
        rw [hbuf, bufFor_cons_ne _ _ _ _ (fun h2 => hx2 h2.symm)]
      have houtx : ∀ x, x ≠ id →
          outFor x (s.output ++ [(id, v)]) = outFor x s.output := by
        intro x hx2
        rw [outFor_append, outFor_single_ne _ _ _ (fun h2 => hx2 h2.symm)]
        simp
      refine ⟨⟨hA2, hBrest, ?_, ?_, ?_, ?_, ?_⟩, ?_, ?_⟩
      · -- buffered items still have blocked owners
        intro p hp2
        have hPid : p.1 ≠ id := by
          intro heq
          apply hBhead
          rw [← heq]
          exact List.mem_map_of_mem _ hp2
        obtain ⟨srcw2, hw3, hw4⟩ := hC p (by rw [hbuf]; simp [hp2])
        have : srcw2 ∈ a ++ b := by
          rw [hp] at hw3
          rcases List.mem_append.mp hw3 with h2 | h2
          · exact List.mem_append_left _ h2
          · rcases List.mem_cons.mp h2 with rfl | h3
            · exact absurd (hw4.symm.trans hsid) hPid
            · exact List.mem_append_right _ h3
        exact ⟨srcw2, this, hw4⟩
      · -- blocked sources still have buffered items
        intro src' hm
        have hne : src'.id ≠ id := by
          rcases List.mem_append.mp hm with h2 | h2
          · exact hne_a src' h2
          · exact hne_b src' h2
        have := hH src' (hsubB _ hm)
        rw [hBids] at this
        rcases List.mem_cons.mp this with h2 | h2
        · exact absurd h2 hne
        · exact h2
      · -- live accounting
        intro src' hm
        rcases List.mem_append.mp hm with h2 | h2
        · rcases List.mem_append.mp h2 with h3 | h3
          · have hne := hne_p src' h3
            have hold := hE src' (List.mem_append_left _ h3)
            rw [houtx _ hne, ← hbufx _ hne]
            exact hold
          · rw [show src' = srcb from by simpa using h3]
            have hold := hE srcb (List.mem_append_right _ hmemb)
            rw [hsid] at hold ⊢
            rw [hbuf, bufFor_cons_yv_eq] at hold
            rw [outFor_append, outFor_single_eq]
            simp only [List.append_assoc, List.singleton_append,
              List.cons_append] at hold ⊢
            exact hold
        · have hne : src'.id ≠ id := by
            rcases List.mem_append.mp h2 with h3 | h3
            · exact hne_a src' h3
            · exact hne_b src' h3
          have hold := hE src' (List.mem_append_right _ (hsubB _ h2))
          rw [houtx _ hne, ← hbufx _ hne]
          exact hold
      · -- untouched nested sources
        intro src' hm nested hn
        have hclosmem : nested.id ≠ id := by
          rcases List.mem_append.mp hm with h2 | h2
          · rcases List.mem_append.mp h2 with h3 | h3
            · exact id_ne_of_count_zero c1
                (closSrc_sub_closSrcs h3 (closEvts_sub_closSrc hn))
            · have h4 : src' = srcb := by simpa using h3
              rw [h4] at hn
              exact id_ne_of_count_zero c3 hn
          · rcases List.mem_append.mp h2 with h3 | h3
            · exact id_ne_of_count_zero c2
                (closSrc_sub_closSrcs h3 (closEvts_sub_closSrc hn))
            · exact id_ne_of_count_zero c4
                (closSrc_sub_closSrcs h3 (closEvts_sub_closSrc hn))
        have hold : outFor nested.id s.output = [] ∧
            bufFor nested.id s.buffer = [] ∧
            ylds nested.evts = tr nested.id := by
          rcases List.mem_append.mp hm with h2 | h2
          · rcases List.mem_append.mp h2 with h3 | h3
            · exact hN src' (List.mem_append_left _ h3) nested hn
            · have h4 : src' = srcb := by simpa using h3
              rw [h4] at hn
              exact hN srcb (List.mem_append_right _ hmemb) nested hn
          · exact hN src' (List.mem_append_right _ (hsubB _ h2)) nested hn
        obtain ⟨ho, hb2, hy⟩ := hold
        rw [← hbufx _ hclosmem, houtx _ hclosmem]
        exact ⟨ho, hb2, hy⟩
      · -- completed accounting
        intro id2 hid
        have hne : id2 ≠ id := by
          intro heq
          subst heq
          exact mem_of_count_zero_false c5 hid
        have hold := hG id2 hid
        rw [houtx _ hne, ← hbufx _ hne]
        exact hold
      · -- live sources stay failure-free
        have hPnf : nfSrcs s.pulling = true := nfSrcs_of_sub hNF
          (fun x hx2 => List.mem_append_left _ hx2)
        have hBnf : nfSrc srcb = true :=
          nfSrc_of_mem hNF (List.mem_append_right _ hmemb)
        have hABnf : nfSrcs (a ++ b) = true := nfSrcs_of_sub hNF
          (fun x hx2 => List.mem_append_right _ (hsubB _ hx2))
        rw [nfSrcs_append_iff, Bool.and_eq_true] at hABnf
        simp [nfSrcs_append_iff, nfSrcs, hPnf, hBnf, hABnf.1, hABnf.2]
      · -- nothing buffered is an error
        intro p hp2
        exact hNB p (by rw [hbuf]; simp [hp2])

theorem wSrcs_append (a b : List (MSrc α)) :
    wSrcs (a ++ b) = wSrcs a + wSrcs b := by
  induction a with
  | nil => simp [wSrcs]
  | cons s r ih => simp [wSrcs, ih]; omega

/-- A resolving pull strictly decreases the state weight. -/
theorem wSt_doArrive_lt (s : MSt α) (i : Nat) (h : i < s.pulling.length) :
    wSt (doArrive s i) < wSt s := by
  have hget : ∃ src, s.pulling[i]? = some src := by
    rw [List.getElem?_eq_getElem h]
    exact ⟨_, rfl⟩
  obtain ⟨src, hget⟩ := hget
  obtain ⟨a, b, hp, _hlen, herase⟩ := getElem?_decomp _ _ _ hget
  unfold doArrive
  rw [hget]
  cases src with
  | mk sid k evts d =>
      cases evts with
      | nil =>
          simp only [MSrc.evts, wSt]
          rw [herase, hp, wSrcs_append, wSrcs_append]
          simp only [wSrcs, wSrc, wEvts]
          omega
      | cons e rest =>
          cases e with
          | yld v spawns =>
              simp only [MSrc.evts, MSrc.id, MSrc.kind, MSrc.dErr, wSt]
              rw [herase, hp, wSrcs_append, wSrcs_append, wSrcs_append,
                wSrcs_append]
              simp only [wSrcs, wSrc, wEvts, wEvt, List.length_append,
                List.length_cons, List.length_nil]
              omega
          | fail err =>
              simp only [MSrc.evts, MSrc.id, wSt]
              rw [herase, hp, wSrcs_append, wSrcs_append]
              simp only [wSrcs, wSrc, wEvts, wEvt, List.length_append,
                List.length_cons, List.length_nil]
              omega

/-- Consuming a buffered yield strictly decreases the state weight. -/
theorem wSt_consumeYld_lt (s : MSt α) (id : Nat) (v : α)
    (rest : List (Nat × BItem α)) (hbuf : s.buffer = (id, BItem.yv v) :: rest) :
    wSt (consumeYld s id v rest) < wSt s := by
  unfold consumeYld
  cases hfind : s.blocked.find? (fun src => src.id == id) with
  | none =>
      simp only [wSt, hbuf]
      simp
  | some srcb =>
      obtain ⟨a, b, hp, _ha, _hx, he⟩ := find?_decomp _ _ _ hfind
      simp only [wSt]
      rw [he, hp, wSrcs_append, wSrcs_append, wSrcs_append, hbuf]
      simp only [wSrcs, List.length_cons]
      omega

/-- Failure-free steps preserve every id's multiplicity exactly. -/
theorem count_stIdsL_doArrive_eq (s : MSt α) (i : Nat) (x : Nat)
    (hF : NoFailSt s) :
    (stIdsL (doArrive s i)).count x = (stIdsL s).count x := by
  unfold doArrive
  cases hget : s.pulling[i]? with
  | none => rfl
  | some src =>
      obtain ⟨a, b, hp, _hlen, herase⟩ := getElem?_decomp _ _ _ hget
      have hmemsrc : src ∈ s.pulling := by
        rw [hp]; exact List.mem_append_right _ (List.mem_cons_self _ _)
      have hnf : nfSrc src = true :=
        nfSrc_of_mem hF.1 (List.mem_append_left _ hmemsrc)
      cases src with
      | mk sid k evts d =>
          cases evts with
          | nil =>
              simp only [MSrc.evts, MSrc.id, stIdsL]
              rw [herase, hp]
              simp only [closSrcs_append, closSrcs, closSrc, closEvts,
                List.count_append, List.map_append, List.map_cons,
                List.count_cons, List.map_nil, List.count_nil,
                List.append_nil]
              simp only [MSrc.id]
              omega
          | cons e rest =>
              cases e with
              | yld v spawns =>
                  simp only [MSrc.evts, MSrc.id, MSrc.kind, MSrc.dErr, stIdsL]
                  rw [herase, hp]
                  simp only [closSrcs_append, closSrcs, closSrc, closEvts,
                    closEvt, List.count_append, List.map_append,
                    List.map_cons, List.count_cons, List.map_nil,
                    List.count_nil, List.append_nil]
                  simp only [MSrc.id]
                  omega
              | fail err =>
                  exfalso
                  simp [nfSrc, nfEvts, nfEvt] at hnf

theorem count_stIdsL_consumeYld_eq (s : MSt α) (id : Nat) (v : α)
    (rest : List (Nat × BItem α)) (x : Nat) :
    (stIdsL (consumeYld s id v rest)).count x = (stIdsL s).count x := by
  unfold consumeYld
  cases hfind : s.blocked.find? (fun src => src.id == id) with
  | none => rfl
  | some srcb =>
      obtain ⟨a, b, hp, _ha, _hx, he⟩ := find?_decomp _ _ _ hfind
      cases srcb with
      | mk sid k evts d =>
          simp only [stIdsL]
          rw [he, hp]
          simp only [closSrcs_append, closSrcs, closSrc, closEvts,
            List.count_append, List.map_append, List.map_cons,
            List.count_cons, List.append_nil]
          omega

theorem mem_stIdsL_doArrive {s : MSt α} {i x : Nat} (hF : NoFailSt s)
    (h : x ∈ stIdsL s) : x ∈ stIdsL (doArrive s i) := by
  apply List.count_pos_iff.mp
  rw [count_stIdsL_doArrive_eq s i x hF]
  exact List.count_pos_iff.mpr h

theorem mem_stIdsL_consumeYld {s : MSt α} {id : Nat} {v : α}
    {rest : List (Nat × BItem α)} {x : Nat} (h : x ∈ stIdsL s) :
    x ∈ stIdsL (consumeYld s id v rest) := by
  apply List.count_pos_iff.mp
  rw [count_stIdsL_consumeYld_eq s id v rest x]
  exact List.count_pos_iff.mpr h

/-- Every failure-free, unbudgeted consumption runs to normal completion
and, for each id it accounts for, the merged output restricted to that id
is exactly the corresponding source's yield trace, in order. -/
theorem runM_ordering (sch : Nat → Nat) (tr : Nat → List α) :
    ∀ (fuel t : Nat) (s : MSt α), Inv tr s → NoFailSt s → wSt s < fuel →
    (runM sch none fuel t s).exit = ExitK.done ∧
    (∀ x, x ∈ stIdsL s → outFor x (runM sch none fuel t s).output = tr x) := by
  intro fuel
  induction fuel with
  | zero => intro t s _ _ hw; omega
  | succ f ih =>
      intro t s hI hF hw
      rw [runM]
      dsimp only
      cases hbe : s.buffer.isEmpty with
      | true =>
          have hbufnil : s.buffer = [] := by simpa using hbe
          have h1 : (if (true = true) then 0 else 1) = 0 := rfl
          rw [h1]
          by_cases hn : s.pulling.length + 0 = 0
          · rw [if_pos hn]
            refine ⟨rfl, ?_⟩
            intro x hx
            have hpnil : s.pulling = [] := List.length_eq_zero.mp (by omega)
            have hblk : s.blocked = [] := by
              apply List.eq_nil_iff_forall_not_mem.mpr
              intro src hsrc
              have hh := hI.2.2.2.1 src hsrc
              rw [hbufnil] at hh
              simp at hh
            have hxc : x ∈ s.completed := by
              have hx2 := hx
              simp only [stIdsL, hpnil, hblk, closSrcs] at hx2
              simpa using hx2
            have hg := hI.2.2.2.2.2.2 x hxc
            rw [hbufnil] at hg
            simp only [bufFor, List.filter_nil, List.filterMap_nil,
              List.append_nil] at hg
            exact hg
          · rw [if_neg hn, Nat.add_zero, if_pos (Nat.mod_lt _ (by omega))]
            obtain ⟨hI2, hF2⟩ := Inv_doArrive (sch t % s.pulling.length) hI hF
            have hw2 : wSt (doArrive s (sch t % s.pulling.length)) < f := by
              have := wSt_doArrive_lt s (sch t % s.pulling.length)
                (Nat.mod_lt _ (by omega))
              omega
            obtain ⟨he, ho⟩ := ih (t + 1) _ hI2 hF2 hw2
            exact ⟨he, fun x hx => ho x (mem_stIdsL_doArrive hF hx)⟩
      | false =>
          have h1 : (if (false = true) then 0 else 1) = 1 := rfl
          rw [h1, if_neg (by omega)]
          by_cases hk : sch t % (s.pulling.length + 1) < s.pulling.length
          · rw [if_pos hk]
            obtain ⟨hI2, hF2⟩ :=
              Inv_doArrive (sch t % (s.pulling.length + 1)) hI hF
            have hw2 :
                wSt (doArrive s (sch t % (s.pulling.length + 1))) < f := by
              have := wSt_doArrive_lt s (sch t % (s.pulling.length + 1)) hk
              omega
            obtain ⟨he, ho⟩ := ih (t + 1) _ hI2 hF2 hw2
            exact ⟨he, fun x hx => ho x (mem_stIdsL_doArrive hF hx)⟩
          · rw [if_neg hk]
            cases hbuf : s.buffer with
            | nil => rw [hbuf] at hbe; simp at hbe
            | cons hd rest =>
                obtain ⟨bid, bi⟩ := hd
                cases bi with
                | ev e =>
                    exfalso
                    exact hF.2 (bid, BItem.ev e) (by rw [hbuf]; simp) e rfl
                | yv v =>
                    obtain ⟨hI2, hF2⟩ := Inv_consumeYld hI hF hbuf
                    have hw2 : wSt (consumeYld s bid v rest) < f := by
                      have := wSt_consumeYld_lt s bid v rest hbuf
                      omega
                    obtain ⟨he, ho⟩ := ih (t + 1) _ hI2 hF2 hw2
                    exact ⟨he, fun x hx => ho x (mem_stIdsL_consumeYld hx)⟩

/-- The invariant holds at the start of a consumption. -/
theorem Inv_initSt (sources : List (MSrc α))
    (hnd : ((closSrcs sources).map MSrc.id).Nodup) :
    Inv (trOf sources) (initSt sources) := by
  refine ⟨?_, ?_, ?_, ?_, ?_, ?_, ?_⟩
  · simp only [stIdsL, initSt, closSrcs, List.map_nil, List.append_nil]
    exact hnd
  · simp [initSt]
  · intro p hp
    simp [initSt] at hp
  · intro src hm
    simp [initSt] at hm
  · intro src hm
    simp only [initSt, List.append_nil] at hm
    simp only [initSt, outFor, bufFor, List.filter_nil, List.map_nil,
      List.filterMap_nil, List.nil_append]
    exact (trOf_eq hnd (mem_closSrcs_of_mem hm)).symm
  · intro src hm nested hn
    simp only [initSt, List.append_nil] at hm
    simp only [initSt, outFor, bufFor, List.filter_nil, List.map_nil,
      List.filterMap_nil]
    refine ⟨trivial, trivial, ?_⟩
    exact (trOf_eq hnd
      (closSrc_sub_closSrcs hm (closEvts_sub_closSrc hn))).symm
  · intro id hid
    simp [initSt] at hid

/-- Claim C7: for every source handed to the merge engine — added before
iteration or registered while producing a value mid-stream — and for every
scheduling of pull resolutions, the subsequence of the merged output made
of that source's values equals, in order, the sequence of values the
source yielded (in a complete failure-free run, which also always
terminates normally). -/
theorem claim_C7 {α : Type} (sources : List (MSrc α)) (sch : Nat → Nat)
    (src0 : MSrc α) (hmem : src0 ∈ closSrcs sources)
    (hnd : ((closSrcs sources).map MSrc.id).Nodup)
    (hnf : nfSrcs sources = true) :
    outFor src0.id (runFull sch none sources).output = ylds src0.evts ∧
    (runFull sch none sources).exit = ExitK.done := by
  have hInv := Inv_initSt sources hnd
  have hNF : NoFailSt (initSt sources) := by
    constructor
    · simp only [initSt, List.append_nil]
      exact hnf
    · intro p hp
      simp [initSt] at hp
  have h := runM_ordering sch (trOf sources) (wSt (initSt sources) + 1) 0
    (initSt sources) hInv hNF (by omega)
  refine ⟨?_, h.1⟩
  have hx : src0.id ∈ stIdsL (initSt sources) := by
    simp only [stIdsL, initSt, closSrcs, List.map_nil, List.append_nil]
    exact List.mem_map_of_mem _ hmem
  have h2 := h.2 src0.id hx
  rw [trOf_eq hnd hmem] at h2
  exact h2

/-- The two-source scenario of the `basic` merge test. -/
def srcsC7 : List (MSrc Nat) :=
  [MSrc.mk 1 1 [MEvt.yld 10 [], MEvt.yld 11 [], MEvt.yld 12 []] none,
   MSrc.mk 2 1 [MEvt.yld 20 [], MEvt.yld 21 [], MEvt.yld 22 []] none]

theorem claim_C7_witness :
    (MSrc.mk 2 1 [MEvt.yld 20 [], MEvt.yld 21 [], MEvt.yld 22 []] none ∈
      closSrcs srcsC7) ∧
    ((closSrcs srcsC7).map MSrc.id).Nodup ∧
    nfSrcs srcsC7 = true ∧
    (outFor
        (MSrc.mk 2 1 [MEvt.yld 20 [], MEvt.yld 21 [], MEvt.yld 22 []]
          (none : Option String) |>.id)
        (runFull (fun _ => 0) none srcsC7).output =
      ylds (MSrc.mk 2 1 [MEvt.yld 20 [], MEvt.yld 21 [], MEvt.yld 22 []]
        (none : Option String) |>.evts) ∧
    (runFull (fun _ => 0) none srcsC7).exit = ExitK.done) :=
  ⟨by simp [srcsC7, closSrcs, closSrc, closEvts, closEvt],
   by decide, by decide,
   claim_C7 srcsC7 (fun _ => 0) _
     (by simp [srcsC7, closSrcs, closSrc, closEvts, closEvt])
     (by decide) (by decide)⟩

/-! ## Values carried by the codec

`Value` models the JavaScript values the encoder receives: the JSON-like
sync fragment, an unserializable value (`vfun`, standing for a function or
other value the base codec rejects), promises (`vprom ok payload`:
fulfilled when `ok`, rejected with the payload as cause otherwise) and
async iterables (`vaiter ys isErr fin`: yields `ys`, then either returns
`fin` or — when `isErr` — the underlying iterator throws `fin`). -/

inductive Value where
  | vnull : Value
  | vbool : Bool → Value
  | vint : Int → Value
  | vstr : String → Value
  | varr : List Value → Value
  | vobj : List (String × Value) → Value
  | vfun : Value
  | vprom : Bool → Value → Value
  | vaiter : List Value → Bool → Value → Value

mutual

/-- Is the value serializable by the base codec alone (no async parts and no
unserializable leaves)? -/
def syncV : Value → Bool
  | .vnull => true
  | .vbool _ => true
  | .vint _ => true
  | .vstr _ => true
  | .varr xs => syncL xs
  | .vobj fs => syncF fs
  | .vfun => false
  | .vprom _ _ => false
  | .vaiter _ _ _ => false

def syncL : List Value → Bool
  | [] => true
  | x :: xs => syncV x && syncL xs

def syncF : List (String × Value) → Bool
  | [] => true
  | f :: fs => syncV f.2 && syncF fs

end

/-! ## The encoder (`stringifyAsync`, src/async.ts lines 40-135)

A body chunk is a `(status, payload)` pair; the payload is the flattened
node array of one fresh base-codec `stringify` call, kept as a JSON value.
The merge engine of `mergeAsyncIterable.ts` interleaves the per-id
producers, so the encoder's producers are `MSrc Chunk` sources.

The base codec (`devalue`'s `stringify`) is an external collaborator; its
flattening is spec-modelled: each value becomes a node of a JSON array in
depth-first pre-order (the root at index 0), objects and arrays store the
node indices of their parts, and a value some reducer claims becomes the
tagged node `["Name", i]` where node `i` holds the reduced value.  The
built-in reducers claim promises and async iterables, handing out the
chunk id `++counter` (`registerAsync`); interning of repeated values is
not modelled.  A registration is recorded as a `Reg` and the producer
traces are built afterwards (`buildSrc`); ids that `registerAsync` assigns
while a producer serializes a payload are ordered along a canonical
(depth-first) schedule — other schedules differ by a renaming of those
ids only. -/

abbrev Chunk := Nat × J

/-- One `registerAsync` registration: the assigned chunk id plus what the
producer will serialize — for a promise whether it fulfills and its
payload (the fulfillment value or the rejection cause), for an async
iterable its yields, whether it ends by throwing, and the final
return value or cause. -/
inductive Reg where
  | prom : Nat → Bool → Value → Reg
  | aiter : Nat → List Value → Bool → Value → Reg

/-- The chunk id a registration was assigned. -/
def Reg.rid : Reg → Nat
  | .prom i _ _ => i
  | .aiter i _ _ _ => i

/-- State of one base-codec `stringify` call: the nodes built so far, the
shared `counter` of `stringifyAsync`, and the registrations made. -/
structure FSt where
  nodes : List J
  ctr : Nat
  regs : List Reg

mutual

/-- Flatten one value, returning its node index.  A value nothing can
serialize (modelled by `vfun`) makes the whole call throw. -/
def flattenV : Value → FSt → Except String (Nat × FSt)
  | .vnull, st => .ok (st.nodes.length, ⟨st.nodes ++ [J.null], st.ctr, st.regs⟩)
  | .vbool true, st => .ok (st.nodes.length, ⟨st.nodes ++ [J.tru], st.ctr, st.regs⟩)
  | .vbool false, st => .ok (st.nodes.length, ⟨st.nodes ++ [J.fls], st.ctr, st.regs⟩)
  | .vint n, st => .ok (st.nodes.length, ⟨st.nodes ++ [J.num n], st.ctr, st.regs⟩)
  | .vstr s, st => .ok (st.nodes.length, ⟨st.nodes ++ [J.str s], st.ctr, st.regs⟩)
  | .vfun, _ => .error "Cannot stringify"
  | .vprom fl p, st =>
      .ok (st.nodes.length,
        ⟨st.nodes ++ [J.arr [J.str "Promise", J.num (Int.ofNat (st.nodes.length + 1))], J.num (Int.ofNat (st.ctr + 1))], st.ctr + 1, st.regs ++ [Reg.prom (st.ctr + 1) fl p]⟩)
  | .vaiter ys isErr fin, st =>
      .ok (st.nodes.length,
        ⟨st.nodes ++ [J.arr [J.str "AsyncIterable", J.num (Int.ofNat (st.nodes.length + 1))], J.num (Int.ofNat (st.ctr + 1))], st.ctr + 1, st.regs ++ [Reg.aiter (st.ctr + 1) ys isErr fin]⟩)
  | .varr xs, st =>
      match flattenL xs ⟨st.nodes ++ [J.null], st.ctr, st.regs⟩ with
      | .error e => .error e
      | .ok (idxs, st2) =>
          .ok (st.nodes.length,
            ⟨st2.nodes.set st.nodes.length (J.arr (idxs.map (fun i => J.num (Int.ofNat i)))), st2.ctr, st2.regs⟩)
  | .vobj fs, st =>
      match flattenF fs ⟨st.nodes ++ [J.null], st.ctr, st.regs⟩ with
      | .error e => .error e
      | .ok (kidxs, st2) =>
          .ok (st.nodes.length,
            ⟨st2.nodes.set st.nodes.length (J.obj (kidxs.map (fun f => (f.1, J.num (Int.ofNat f.2))))), st2.ctr, st2.regs⟩)

/-- Flatten the elements of an array, returning their node indices. -/
def flattenL : List Value → FSt → Except String (List Nat × FSt)
  | [], st => .ok ([], st)
  | v :: vs, st =>
      match flattenV v st with
      | .error e => .error e
      | .ok (i, st1) =>
          match flattenL vs st1 with
          | .error e => .error e
          | .ok (is, st2) => .ok (i :: is, st2)

/-- Flatten the fields of an object, returning key / node index pairs. -/
def flattenF : List (String × Value) → FSt →
    Except String (List (String × Nat) × FSt)
  | [], st => .ok ([], st)
  | f :: fs, st =>
      match flattenV f.2 st with
      | .error e => .error e
      | .ok (i, st1) =>
          match flattenF fs st1 with
          | .error e => .error e
          | .ok (is, st2) => .ok ((f.1, i) :: is, st2)

end

/-- One fresh `stringify(value, revivers)` call, as the producers make for
each chunk payload: its own node array, threading the shared counter and
collecting the registrations made while serializing. -/
def stringifyFresh (v : Value) (ctr : Nat) :
    Except String (J × Nat × List Reg) :=
  match flattenV v ⟨[], ctr, []⟩ with
  | .ok (_, st) => .ok (J.arr st.nodes, st.ctr, st.regs)
  | .error e => .error e

/-- `safeCause` (src/async.ts lines 119-128): try to stringify the cause
with the current reducer map; if that throws and `coerceError` is given,
stringify `coerceError(cause)` instead; otherwise the error escapes. -/
def safeCause (co : Option (Value → Value)) (ctr : Nat) (cause : Value) :
    Except String (J × Nat × List Reg) :=
  match stringifyFresh cause ctr with
  | .ok r => .ok r
  | .error e =>
      match co with
      | none => .error e
      | some f => stringifyFresh (f cause) ctr

mutual

/-- Build the producer source of one registration.  A promise producer
(kind 0, src/async.ts lines 100-115) emits one fulfilled or rejected
chunk; an async-iterable producer (kind 1, lines 72-99) emits its yields
and a terminal.  A serialization error inside the producer's `try` is
caught and re-emitted through `safeCause`; when `safeCause` itself throws
the producer's generator rejects, which the merge engine sees as a failed
pull (`MEvt.fail`).  The error thrown by a failing base-codec call is an
unserializable `Error` object, modelled as `vfun`. -/
def buildSrc (co : Option (Value → Value)) :
    Nat → Nat → Reg → Except String (MSrc Chunk × Nat)
  | 0, _, _ => .error "out of fuel"
  | fuel + 1, ctr, .prom id fl p =>
      if fl then
        match stringifyFresh p ctr with
        | .ok (pj, c1, rg) =>
            match buildSrcs co fuel c1 rg with
            | .ok (sp, c2) => .ok (MSrc.mk id 0 [MEvt.yld (0, pj) sp] none, c2)
            | .error e => .error e
        | .error _ =>
            match safeCause co ctr .vfun with
            | .ok (pj, c1, rg) =>
                match buildSrcs co fuel c1 rg with
                | .ok (sp, c2) => .ok (MSrc.mk id 0 [MEvt.yld (1, pj) sp] none, c2)
                | .error e => .error e
            | .error e => .ok (MSrc.mk id 0 [MEvt.fail e] none, ctr)
      else
        match safeCause co ctr p with
        | .ok (pj, c1, rg) =>
            match buildSrcs co fuel c1 rg with
            | .ok (sp, c2) => .ok (MSrc.mk id 0 [MEvt.yld (1, pj) sp] none, c2)
            | .error e => .error e
        | .error e => .ok (MSrc.mk id 0 [MEvt.fail e] none, ctr)
  | fuel + 1, ctr, .aiter id ys isErr fin =>
      match buildIterEvts co fuel ctr ys isErr fin with
      | .ok (evts, c1) => .ok (MSrc.mk id 1 evts none, c1)
      | .error e => .error e

/-- The events of an async-iterable producer: yields with status 0 while
serialization succeeds, then one terminal — status 2 on a normal return,
status 1 when the underlying iterator throws or a serialization inside
the `try` throws (both reach the `catch` block). -/
def buildIterEvts (co : Option (Value → Value)) :
    Nat → Nat → List Value → Bool → Value →
    Except String (List (MEvt Chunk) × Nat)
  | 0, _, _, _, _ => .error "out of fuel"
  | fuel + 1, ctr, [], isErr, fin =>
      if isErr then
        match safeCause co ctr fin with
        | .ok (pj, c1, rg) =>
            match buildSrcs co fuel c1 rg with
            | .ok (sp, c2) => .ok ([MEvt.yld (1, pj) sp], c2)
            | .error e => .error e
        | .error e => .ok ([MEvt.fail e], ctr)
      else
        match stringifyFresh fin ctr with
        | .ok (pj, c1, rg) =>
            match buildSrcs co fuel c1 rg with
            | .ok (sp, c2) => .ok ([MEvt.yld (2, pj) sp], c2)
            | .error e => .error e
        | .error _ =>
            match safeCause co ctr .vfun with
            | .ok (pj, c1, rg) =>
                match buildSrcs co fuel c1 rg with
                | .ok (sp, c2) => .ok ([MEvt.yld (1, pj) sp], c2)
                | .error e => .error e
            | .error e => .ok ([MEvt.fail e], ctr)
  | fuel + 1, ctr, y :: ys, isErr, fin =>
      match stringifyFresh y ctr with
      | .ok (pj, c1, rg) =>
          match buildSrcs co fuel c1 rg with
          | .ok (sp, c2) =>
              match buildIterEvts co fuel c2 ys isErr fin with
              | .ok (evts, c3) => .ok (MEvt.yld (0, pj) sp :: evts, c3)
              | .error e => .error e
          | .error e => .error e
      | .error _ =>
          match safeCause co ctr .vfun with
          | .ok (pj, c1, rg) =>
              match buildSrcs co fuel c1 rg with
              | .ok (sp, c2) => .ok ([MEvt.yld (1, pj) sp], c2)
              | .error e => .error e
          | .error e => .ok ([MEvt.fail e], ctr)

/-- Build the producers of a list of registrations in order, threading the
shared counter. -/
def buildSrcs (co : Option (Value → Value)) :
    Nat → Nat → List Reg → Except String (List (MSrc Chunk) × Nat)
  | _, ctr, [] => .ok ([], ctr)
  | 0, _, _ :: _ => .error "out of fuel"
  | fuel + 1, ctr, r :: rs =>
      match buildSrc co fuel ctr r with
      | .error e => .error e
      | .ok (src, c1) =>
          match buildSrcs co fuel c1 rs with
          | .error e => .error e
          | .ok (srcs, c2) => .ok (src :: srcs, c2)

end

/-- The header `stringify(value, revivers)` plus the producer sources its
registrations create (src/async.ts line 130 and `registerAsync`). -/
def stringifyRun (co : Option (Value → Value)) (fuel : Nat) (v : Value) :
    Except String (String × List (MSrc Chunk)) :=
  match flattenV v ⟨[], 0, []⟩ with
  | .error e => .error e
  | .ok (_, st) =>
      match buildSrcs co fuel st.ctr st.regs with
      | .error e => .error e
      | .ok (prods, _) => .ok (renderJ (J.arr st.nodes), prods)

/-- A body frame: `"[" + item.join(",") + "]\n"` for the merged item
`[idx, status, payloadString]` (src/async.ts line 133). -/
def renderFrame (id status : Nat) (payload : J) : String :=
  String.mk ('[' :: (natChars id ++ ',' :: (natChars status ++ ',' :: (renderC payload ++ [']', '\n']))))

/-- The full frame sequence one run of `stringifyAsync` yields: first the
header plus a newline (line 130), then one rendered frame per item of the
merged producer sequence (lines 132-134), whose interleaving the
scheduler `sch` resolves. -/
def encodeFrames (co : Option (Value → Value)) (fuel : Nat) (v : Value)
    (sch : Nat → Nat) : Except String (List String) :=
  match stringifyRun co fuel v with
  | .error e => .error e
  | .ok (header, prods) =>
      .ok ((header ++ "\n") ::
        ((runFull sch none prods).output.map
          (fun it => renderFrame it.1 it.2.1 it.2.2)))

/-! ### Single-step unfoldings of the consumer loop

With at most one in-flight pull and at most one buffered item, every step
of `runM` is forced: `sch t % 1 = 0` whatever the scheduler, so runs over
a single source are scheduler-independent. -/

theorem runM_step_arrive (sch : Nat → Nat) (budget : Option Nat) (f t : Nat)
    (src : MSrc α) (bl : List (MSrc α)) (out : List (Nat × α))
    (comp : List Nat) :
    runM sch budget (f + 1) t ⟨[src], bl, [], out, comp⟩ =
      runM sch budget f (t + 1) (doArrive ⟨[src], bl, [], out, comp⟩ 0) := by
  simp [runM, Nat.mod_one]

theorem runM_step_consume (sch : Nat → Nat) (f t : Nat) (id : Nat) (v : α)
    (bl : List (MSrc α)) (out : List (Nat × α)) (comp : List Nat) :
    runM sch none (f + 1) t ⟨[], bl, [(id, .yv v)], out, comp⟩ =
      runM sch none f (t + 1)
        (consumeYld ⟨[], bl, [(id, .yv v)], out, comp⟩ id v []) := by
  simp [runM, Nat.mod_one]

theorem runM_step_errev (sch : Nat → Nat) (budget : Option Nat) (f t : Nat)
    (id : Nat) (e : String) (bl : List (MSrc α))
    (rest : List (Nat × BItem α)) (out : List (Nat × α)) (comp : List Nat) :
    runM sch budget (f + 1) t ⟨[], bl, (id, .ev e) :: rest, out, comp⟩ =
      finishRun (.errored e) ⟨[], bl, rest, out, comp⟩ (some (.src e)) := by
  simp [runM, Nat.mod_one]

theorem runM_step_done (sch : Nat → Nat) (budget : Option Nat) (f t : Nat)
    (out : List (Nat × α)) (comp : List Nat) :
    runM sch budget (f + 1) t ⟨[], [], [], out, comp⟩ =
      finishRun .done ⟨[], [], [], out, comp⟩ none := by
  simp [runM]

/-- Claim C5: when a producer catches a cause, `safeCause` first tries to
stringify the cause with the current reducer map and returns that result
when it succeeds; if that stringification throws and `coerceError` is
provided, it stringifies `coerceError(cause)` instead; with no
`coerceError` the error escapes — and an escaped error makes the
producer's generator reject, which ends the whole encoding run with that
error (session teardown). -/
theorem claim_C5 :
    (∀ (co : Option (Value → Value)) (ctr : Nat) (cause : Value)
        (r : J × Nat × List Reg), stringifyFresh cause ctr = .ok r →
        safeCause co ctr cause = .ok r) ∧
    (∀ (f : Value → Value) (ctr : Nat) (cause : Value) (e : String),
        stringifyFresh cause ctr = .error e →
        safeCause (some f) ctr cause = stringifyFresh (f cause) ctr) ∧
    (∀ (ctr : Nat) (cause : Value) (e : String),
        stringifyFresh cause ctr = .error e →
        safeCause none ctr cause = .error e) ∧
    (∀ (co : Option (Value → Value)) (fuel ctr id : Nat) (cause : Value)
        (e : String), safeCause co ctr cause = .error e →
        buildSrc co (fuel + 1) ctr (Reg.prom id false cause) =
          .ok (MSrc.mk id 0 [MEvt.fail e] none, ctr) ∧
        ∀ sch : Nat → Nat,
          (runFull sch none
              [(MSrc.mk id 0 [MEvt.fail e] none : MSrc Chunk)]).exit =
              ExitK.errored e ∧
            (runFull sch none
                [(MSrc.mk id 0 [MEvt.fail e] none : MSrc Chunk)]).err =
              some (RunErr.src e)) := by
  refine ⟨?_, ?_, ?_, ?_⟩
  · intro co ctr cause r h
    simp [safeCause, h]
  · intro f ctr cause e h
    simp [safeCause, h]
  · intro ctr cause e h
    simp [safeCause, h]
  · intro co fuel ctr id cause e h
    constructor
    · simp [buildSrc, h]
    · intro sch
      have h1 : runFull sch none [MSrc.mk id 0 [MEvt.fail e] none] =
          runM sch none (3 + 1) 0
            (⟨[MSrc.mk id 0 [MEvt.fail e] none], [], [], [], []⟩ :
              MSt Chunk) := rfl
      rw [runM_step_arrive] at h1
      rw [show doArrive
          (⟨[MSrc.mk id 0 [MEvt.fail e] none], [], [], [], []⟩ : MSt Chunk)
          0 = (⟨[], [], [(id, BItem.ev e)], [], [id]⟩ : MSt Chunk)
        from rfl] at h1
      rw [show (3 : Nat) = 2 + 1 from rfl] at h1
      rw [runM_step_errev] at h1
      rw [h1]
      constructor <;> rfl

theorem claim_C5_witness :
    safeCause none 0 Value.vnull = .ok (J.arr [J.null], 0, []) ∧
    safeCause (some (fun _ => Value.vnull)) 0 Value.vfun =
      stringifyFresh Value.vnull 0 ∧
    safeCause none 0 Value.vfun = .error "Cannot stringify" ∧
    buildSrc none 1 0 (Reg.prom 7 false Value.vfun) =
      .ok (MSrc.mk 7 0 [MEvt.fail "Cannot stringify"] none, 0) ∧
    (runFull (fun _ => 0) none
        [(MSrc.mk 7 0 [MEvt.fail "Cannot stringify"] none :
          MSrc Chunk)]).exit =
      ExitK.errored "Cannot stringify" :=
  ⟨claim_C5.1 none 0 .vnull _ rfl,
   claim_C5.2.1 _ 0 .vfun "Cannot stringify" rfl,
   claim_C5.2.2.1 0 .vfun "Cannot stringify" rfl,
   (claim_C5.2.2.2 none 0 0 7 .vfun "Cannot stringify" rfl).1,
   ((claim_C5.2.2.2 none 0 0 7 .vfun "Cannot stringify" rfl).2
     (fun _ => 0)).1⟩

theorem renderC_num_ofNat (n : Nat) :
    renderC (J.num (Int.ofNat n)) = natChars n := by
  show intChars (Int.ofNat n) = natChars n
  rw [intChars, if_neg (by exact not_lt.mpr (Int.ofNat_nonneg n))]
  norm_num

/-- `"[" + [idx, status, payload].join(",") + "]\n"` is exactly the JSON
rendering of the three-element array followed by a newline. -/
theorem renderFrame_eq (id status : Nat) (p : J) :
    renderFrame id status p =
      String.mk (renderC
        (J.arr [J.num (Int.ofNat id), J.num (Int.ofNat status), p]) ++
        ['\n']) := by
  unfold renderFrame
  rw [show renderC
      (J.arr [J.num (Int.ofNat id), J.num (Int.ofNat status), p]) =
    '[' :: (renderArrC
      [J.num (Int.ofNat id), J.num (Int.ofNat status), p] ++ [']'])
    from rfl]
  rw [show renderArrC
      [J.num (Int.ofNat id), J.num (Int.ofNat status), p] =
    renderC (J.num (Int.ofNat id)) ++
      ',' :: (renderC (J.num (Int.ofNat status)) ++ ',' :: renderC p)
    from rfl]
  rw [renderC_num_ofNat, renderC_num_ofNat]
  simp

/-- The root of the spec's literal example: an object holding a generator
that yields `"hello"` and `"world"` and returns `"return value"`. -/
def exRootC2 : Value :=
  .vobj [("asyncIterable",
    .vaiter [.vstr "hello", .vstr "world"] false (.vstr "return value"))]

/-- The frames the spec's literal example encodes to. -/
def exFramesC2 : List String :=
  ["[\x7b\"asyncIterable\":1\x7d,[\"AsyncIterable\",2],1]\n",
   "[1,0,[\"hello\"]]\n",
   "[1,0,[\"world\"]]\n",
   "[1,2,[\"return value\"]]\n"]

/-- The single producer the literal example registers (chunk id 1). -/
def exSrcC2 : MSrc Chunk :=
  MSrc.mk 1 1
    [MEvt.yld (0, J.arr [J.str "hello"]) [],
     MEvt.yld (0, J.arr [J.str "world"]) [],
     MEvt.yld (2, J.arr [J.str "return value"]) []] none

theorem natChars_digit (n : Nat) (h1 : 1 ≤ n) (h2 : n < 10) :
    natChars n = [dChar n] := by
  rw [natChars, if_neg (by omega)]
  rw [Nat.digits_def' (by norm_num : (1 : Nat) < 10) (by omega)]
  rw [Nat.div_eq_of_lt h2]
  simp [Nat.mod_eq_of_lt h2]

theorem renderC_num_one : renderC (J.num 1) = ['1'] := by
  show intChars 1 = ['1']
  rw [intChars, if_neg (by decide)]
  rw [show (1 : Int).toNat = 1 from rfl,
    natChars_digit 1 (by norm_num) (by norm_num)]
  rfl

theorem renderC_num_two : renderC (J.num 2) = ['2'] := by
  show intChars 2 = ['2']
  rw [intChars, if_neg (by decide)]
  rw [show (2 : Int).toNat = 2 from rfl,
    natChars_digit 2 (by norm_num) (by norm_num)]
  rfl

theorem exHeaderC2_eq :
    renderJ (J.arr [J.obj [("asyncIterable", J.num 1)],
      J.arr [J.str "AsyncIterable", J.num 2], J.num 1]) =
    "[\x7b\"asyncIterable\":1\x7d,[\"AsyncIterable\",2],1]" := by
  rw [renderJ]
  rw [show renderC (J.arr [J.obj [("asyncIterable", J.num 1)],
      J.arr [J.str "AsyncIterable", J.num 2], J.num 1]) =
    '[' :: (renderArrC [J.obj [("asyncIterable", J.num 1)],
      J.arr [J.str "AsyncIterable", J.num 2], J.num 1] ++ [']']) from rfl]
  rw [show renderArrC [J.obj [("asyncIterable", J.num 1)],
      J.arr [J.str "AsyncIterable", J.num 2], J.num 1] =
    renderC (J.obj [("asyncIterable", J.num 1)]) ++
      ',' :: (renderC (J.arr [J.str "AsyncIterable", J.num 2]) ++
        ',' :: renderC (J.num 1)) from rfl]
  rw [show renderC (J.obj [("asyncIterable", J.num 1)]) =
    '\x7b' :: (renderObjC [("asyncIterable", J.num 1)] ++ ['\x7d'])
    from rfl]
  rw [show renderObjC [("asyncIterable", J.num 1)] =
    '"' :: (escStr "asyncIterable".data ++ '"' :: ':' :: renderC (J.num 1))
    from rfl]
  rw [show renderC (J.arr [J.str "AsyncIterable", J.num 2]) =
    '[' :: (renderArrC [J.str "AsyncIterable", J.num 2] ++ [']'])
    from rfl]
  rw [show renderArrC [J.str "AsyncIterable", J.num 2] =
    renderC (J.str "AsyncIterable") ++ ',' :: renderC (J.num 2) from rfl]
  rw [renderC_num_one, renderC_num_two]
  rfl

theorem exFrameHello :
    renderFrame 1 0 (J.arr [J.str "hello"]) = "[1,0,[\"hello\"]]\n" := by
  unfold renderFrame
  rw [natChars_digit 1 (by norm_num) (by norm_num),
    show natChars 0 = ['0'] from rfl]
  rfl

theorem exFrameWorld :
    renderFrame 1 0 (J.arr [J.str "world"]) = "[1,0,[\"world\"]]\n" := by
  unfold renderFrame
  rw [natChars_digit 1 (by norm_num) (by norm_num),
    show natChars 0 = ['0'] from rfl]
  rfl

theorem exFrameReturn :
    renderFrame 1 2 (J.arr [J.str "return value"]) =
      "[1,2,[\"return value\"]]\n" := by
  unfold renderFrame
  rw [natChars_digit 1 (by norm_num) (by norm_num),
    natChars_digit 2 (by norm_num) (by norm_num)]
  rfl

/-- Claim C2: the first frame every encoder run emits is the header — the
base codec's serialization of the root plus a newline — and every later
frame is `[id, status, payload]` plus a newline, parsing as a JSON
three-element array; and the literal example (a root whose
`asyncIterable` field is a generator yielding `"hello"` and `"world"`
and returning `"return value"`) encodes, for every scheduler, to exactly
the four lines the spec lists. -/
theorem claim_C2 (co : Option (Value → Value)) (fuel : Nat) (v : Value)
    (sch : Nat → Nat) (frames : List String) (header : String)
    (prods : List (MSrc Chunk))
    (henc : stringifyRun co fuel v = .ok (header, prods))
    (hfr : encodeFrames co fuel v sch = .ok frames) :
    frames.head? = some (header ++ "\n") ∧
    (∀ f ∈ frames.tail, ∃ id status payload,
        f = renderFrame id status payload ∧
        jsParse f = .ok (J.arr [J.num (Int.ofNat id),
          J.num (Int.ofNat status), payload])) ∧
    (∀ sch2 : Nat → Nat,
        encodeFrames none 10 exRootC2 sch2 = .ok exFramesC2) := by
  unfold encodeFrames at hfr
  rw [henc] at hfr
  have hfr2 : Except.ok ((header ++ "\n") ::
      ((runFull sch none prods).output.map
        (fun it => renderFrame it.1 it.2.1 it.2.2))) =
      (.ok frames : Except String (List String)) := hfr
  injection hfr2 with hfe
  subst hfe
  refine ⟨rfl, ?_, ?_⟩
  · intro f hf
    simp only [List.tail_cons] at hf
    obtain ⟨it, hit, rfl⟩ := List.mem_map.mp hf
    refine ⟨it.1, it.2.1, it.2.2, rfl, ?_⟩
    rw [renderFrame_eq]
    exact jsParse_newline _
  · intro sch2
    have h1 : runFull sch2 none [exSrcC2] =
        runM sch2 none (0 + 1 + 1 + 1 + 1 + 1 + 1 + 1 + 1) 0
          (⟨[exSrcC2], [], [], [], []⟩ : MSt Chunk) := rfl
    rw [runM_step_arrive] at h1
    rw [show doArrive (⟨[exSrcC2], [], [], [], []⟩ : MSt Chunk) 0 =
      (⟨[], [MSrc.mk 1 1 [MEvt.yld (0, J.arr [J.str "world"]) [],
          MEvt.yld (2, J.arr [J.str "return value"]) []] none],
        [(1, BItem.yv (0, J.arr [J.str "hello"]))], [], []⟩ : MSt Chunk)
      from rfl] at h1
    rw [runM_step_consume] at h1
    rw [show consumeYld (⟨[], [MSrc.mk 1 1
          [MEvt.yld (0, J.arr [J.str "world"]) [],
           MEvt.yld (2, J.arr [J.str "return value"]) []] none],
        [(1, BItem.yv (0, J.arr [J.str "hello"]))], [], []⟩ : MSt Chunk)
        1 (0, J.arr [J.str "hello"]) [] =
      (⟨[MSrc.mk 1 1 [MEvt.yld (0, J.arr [J.str "world"]) [],
          MEvt.yld (2, J.arr [J.str "return value"]) []] none], [], [],
        [(1, (0, J.arr [J.str "hello"]))], []⟩ : MSt Chunk) from rfl] at h1
    rw [runM_step_arrive] at h1
    rw [show doArrive (⟨[MSrc.mk 1 1
          [MEvt.yld (0, J.arr [J.str "world"]) [],
           MEvt.yld (2, J.arr [J.str "return value"]) []] none], [], [],
        [(1, (0, J.arr [J.str "hello"]))], []⟩ : MSt Chunk) 0 =
      (⟨[], [MSrc.mk 1 1
          [MEvt.yld (2, J.arr [J.str "return value"]) []] none],
        [(1, BItem.yv (0, J.arr [J.str "world"]))],
        [(1, (0, J.arr [J.str "hello"]))], []⟩ : MSt Chunk) from rfl] at h1
    rw [runM_step_consume] at h1
    rw [show consumeYld (⟨[], [MSrc.mk 1 1
          [MEvt.yld (2, J.arr [J.str "return value"]) []] none],
        [(1, BItem.yv (0, J.arr [J.str "world"]))],
        [(1, (0, J.arr [J.str "hello"]))], []⟩ : MSt Chunk)
        1 (0, J.arr [J.str "world"]) [] =
      (⟨[MSrc.mk 1 1 [MEvt.yld (2, J.arr [J.str "return value"]) []] none],
        [], [],
        [(1, (0, J.arr [J.str "hello"])), (1, (0, J.arr [J.str "world"]))],
        []⟩ : MSt Chunk) from rfl] at h1
    rw [runM_step_arrive] at h1
    rw [show doArrive (⟨[MSrc.mk 1 1
          [MEvt.yld (2, J.arr [J.str "return value"]) []] none], [], [],
        [(1, (0, J.arr [J.str "hello"])), (1, (0, J.arr [J.str "world"]))],
        []⟩ : MSt Chunk) 0 =
      (⟨[], [MSrc.mk 1 1 [] none],
        [(1, BItem.yv (2, J.arr [J.str "return value"]))],
        [(1, (0, J.arr [J.str "hello"])), (1, (0, J.arr [J.str "world"]))],
        []⟩ : MSt Chunk) from rfl] at h1
    rw [runM_step_consume] at h1
    rw [show consumeYld (⟨[], [MSrc.mk 1 1 [] none],
        [(1, BItem.yv (2, J.arr [J.str "return value"]))],
        [(1, (0, J.arr [J.str "hello"])), (1, (0, J.arr [J.str "world"]))],
        []⟩ : MSt Chunk) 1 (2, J.arr [J.str "return value"]) [] =
      (⟨[MSrc.mk 1 1 [] none], [], [],
        [(1, (0, J.arr [J.str "hello"])), (1, (0, J.arr [J.str "world"])),
         (1, (2, J.arr [J.str "return value"]))], []⟩ : MSt Chunk)
      from rfl] at h1
    rw [runM_step_arrive] at h1
    rw [show doArrive (⟨[MSrc.mk 1 1 [] none], [], [],
        [(1, (0, J.arr [J.str "hello"])), (1, (0, J.arr [J.str "world"])),
         (1, (2, J.arr [J.str "return value"]))], []⟩ : MSt Chunk) 0 =
      (⟨[], [], [],
        [(1, (0, J.arr [J.str "hello"])), (1, (0, J.arr [J.str "world"])),
         (1, (2, J.arr [J.str "return value"]))], [1]⟩ : MSt Chunk)
      from rfl] at h1
    rw [runM_step_done] at h1
    unfold encodeFrames
    rw [show stringifyRun none 10 exRootC2 =
      .ok (renderJ (J.arr [J.obj [("asyncIterable", J.num 1)],
        J.arr [J.str "AsyncIterable", J.num 2], J.num 1]), [exSrcC2])
      from rfl]
    show Except.ok ((renderJ (J.arr [J.obj [("asyncIterable", J.num 1)],
        J.arr [J.str "AsyncIterable", J.num 2], J.num 1]) ++ "\n") ::
      ((runFull sch2 none [exSrcC2]).output.map
        (fun it => renderFrame it.1 it.2.1 it.2.2))) = .ok exFramesC2
    rw [h1]
    show Except.ok ((renderJ (J.arr [J.obj [("asyncIterable", J.num 1)],
        J.arr [J.str "AsyncIterable", J.num 2], J.num 1]) ++ "\n") ::
      [renderFrame 1 0 (J.arr [J.str "hello"]),
       renderFrame 1 0 (J.arr [J.str "world"]),
       renderFrame 1 2 (J.arr [J.str "return value"])]) = .ok exFramesC2
    rw [exHeaderC2_eq, exFrameHello, exFrameWorld, exFrameReturn]
    rfl

theorem claim_C2_witness :
    stringifyRun none 0 Value.vnull = .ok ("[null]", []) ∧
    encodeFrames none 0 Value.vnull (fun _ => 0) = .ok ["[null]\n"] ∧
    ((["[null]\n"] : List String).head? = some ("[null]" ++ "\n") ∧
     (∀ f ∈ (["[null]\n"] : List String).tail, ∃ id status payload,
        f = renderFrame id status payload ∧
        jsParse f = .ok (J.arr [J.num (Int.ofNat id),
          J.num (Int.ofNat status), payload])) ∧
     (∀ sch2 : Nat → Nat,
        encodeFrames none 10 exRootC2 sch2 = .ok exFramesC2)) :=
  ⟨rfl, rfl,
   claim_C2 none 0 Value.vnull (fun _ => 0) ["[null]\n"] "[null]" []
     rfl rfl⟩

/-! ### Per-id frame grammar (C3) -/

/-- Shape of a promise producer's trace (src/async.ts lines 107-114): one
pull that yields a fulfilled (0) or rejected (1) chunk — or one rejected
pull when `safeCause` itself threw. -/
def promShape : List (MEvt Chunk) → Bool
  | [MEvt.yld (s, _) _] => s == 0 || s == 1
  | [MEvt.fail _] => true
  | _ => false

/-- Shape of an async-iterable producer's trace (lines 76-98): yield
chunks (status 0) followed by exactly one terminal chunk — error (1) or
return (2) — or a final rejected pull when `safeCause` threw. -/
def iterShape : List (MEvt Chunk) → Bool
  | [MEvt.fail _] => true
  | [MEvt.yld (s, _) _] => s == 1 || s == 2
  | MEvt.yld (s, _) _ :: e :: rest => s == 0 && iterShape (e :: rest)
  | _ => false

/-- Every producer the encoder builds has the shape its kind dictates. -/
def shapeOK (src : MSrc Chunk) : Bool :=
  (src.kind == 0 && promShape src.evts) ||
    (src.kind == 1 && iterShape src.evts)

/-- The chunk sequence of a promise id: exactly one chunk, fulfilled or
rejected. -/
def promGram : List Chunk → Bool
  | [(s, _)] => s == 0 || s == 1
  | _ => false

/-- The chunk sequence of an async-iterable id: zero or more yields, then
exactly one terminal (error or return), and nothing after it. -/
def iterGram : List Chunk → Bool
  | [(s, _)] => s == 1 || s == 2
  | (s, _) :: c :: rest => s == 0 && iterGram (c :: rest)
  | _ => false

theorem promGram_of_shape {evts : List (MEvt Chunk)}
    (hs : promShape evts = true) (hnf : nfEvts evts = true) :
    promGram (ylds evts) = true := by
  match evts with
  | [MEvt.yld (s, p) sp] =>
      simp only [promShape] at hs
      simpa [ylds, promGram] using hs
  | [MEvt.fail e] => simp [nfEvts, nfEvt] at hnf
  | [] => simp [promShape] at hs
  | MEvt.yld _ _ :: e :: rest => simp [promShape] at hs
  | MEvt.fail _ :: e :: rest => simp [promShape] at hs

theorem iterGram_of_shape : ∀ {evts : List (MEvt Chunk)},
    iterShape evts = true → nfEvts evts = true →
    iterGram (ylds evts) = true
  | [], hs, _ => by simp [iterShape] at hs
  | [MEvt.fail e], _, hnf => by simp [nfEvts, nfEvt] at hnf
  | [MEvt.yld (s, p) sp], hs, _ => by
      simp only [iterShape] at hs
      simpa [ylds, iterGram] using hs
  | MEvt.fail e :: e2 :: rest, hs, hnf => by
      simp [nfEvts, nfEvt] at hnf
  | MEvt.yld (s, p) sp :: e2 :: rest, hs, hnf => by
      simp only [iterShape, Bool.and_eq_true, beq_iff_eq] at hs
      rw [show nfEvts (MEvt.yld (s, p) sp :: e2 :: rest) =
        (nfEvt (MEvt.yld (s, p) sp) && nfEvts (e2 :: rest)) from rfl,
        Bool.and_eq_true] at hnf
      have ih := iterGram_of_shape hs.2 hnf.2
      rw [show ylds (MEvt.yld (s, p) sp :: e2 :: rest) =
        (s, p) :: ylds (e2 :: rest) from rfl]
      cases hy : ylds (e2 :: rest) with
      | nil => rw [hy] at ih; simp [iterGram] at ih
      | cons c cs =>
          rw [hy] at ih
          simp [iterGram, hs.1, ih]

mutual

theorem nfSrc_of_closSrc : ∀ (s src : MSrc α), nfSrc s = true →
    src ∈ closSrc s → nfSrc src = true
  | .mk i k evts d, src, h, hm => by
      simp only [closSrc] at hm
      rcases List.mem_cons.mp hm with rfl | h2
      · exact h
      · exact nfSrc_of_closEvts evts src (by simpa [nfSrc] using h) h2

theorem nfSrc_of_closEvts : ∀ (evts : List (MEvt α)) (src : MSrc α),
    nfEvts evts = true → src ∈ closEvts evts → nfSrc src = true
  | [], src, _, hm => by simp [closEvts] at hm
  | e :: r, src, h, hm => by
      simp only [nfEvts, Bool.and_eq_true] at h
      simp only [closEvts] at hm
      rcases List.mem_append.mp hm with h2 | h2
      · exact nfSrc_of_closEvt e src h.1 h2
      · exact nfSrc_of_closEvts r src h.2 h2

theorem nfSrc_of_closEvt : ∀ (e : MEvt α) (src : MSrc α),
    nfEvt e = true → src ∈ closEvt e → nfSrc src = true
  | .yld v sp, src, h, hm => by
      simp only [closEvt] at hm
      exact nfSrc_of_closSrcs sp src (by simpa [nfEvt] using h) hm
  | .fail e, src, _, hm => by simp [closEvt] at hm

theorem nfSrc_of_closSrcs : ∀ (l : List (MSrc α)) (src : MSrc α),
    nfSrcs l = true → src ∈ closSrcs l → nfSrc src = true
  | [], src, _, hm => by simp [closSrcs] at hm
  | s :: r, src, h, hm => by
      simp only [nfSrcs, Bool.and_eq_true] at h
      simp only [closSrcs] at hm
      rcases List.mem_append.mp hm with h2 | h2
      · exact nfSrc_of_closSrc s src h.1 h2
      · exact nfSrc_of_closSrcs r src h.2 h2

end

/-- Ids of a registration batch: pairwise distinct and all in `(a, b]` —
`registerAsync` hands out `++counter`, so every id is fresh. -/
def regsOK (a b : Nat) (rs : List Reg) : Prop :=
  (rs.map Reg.rid).Nodup ∧ ∀ r ∈ rs, a < r.rid ∧ r.rid ≤ b

theorem regsOK_nil (a b : Nat) : regsOK a b [] := ⟨List.nodup_nil, by simp⟩

theorem regsOK_mono {a b a2 b2 : Nat} {rs : List Reg} (h : regsOK a b rs)
    (ha : a2 ≤ a) (hb : b ≤ b2) : regsOK a2 b2 rs :=
  ⟨h.1, fun r hr => ⟨lt_of_le_of_lt ha (h.2 r hr).1,
    le_trans (h.2 r hr).2 hb⟩⟩

theorem regsOK_append {a b c : Nat} {r1 r2 : List Reg}
    (h1 : regsOK a b r1) (h2 : regsOK b c r2) (hab : a ≤ b) (hbc : b ≤ c) :
    regsOK a c (r1 ++ r2) := by
  constructor
  · rw [List.map_append]
    refine List.Nodup.append h1.1 h2.1 ?_
    intro x hx1 hx2
    obtain ⟨r, hr, rfl⟩ := List.mem_map.mp hx1
    obtain ⟨q, hq, he⟩ := List.mem_map.mp hx2
    have b1 := (h1.2 r hr).2
    have b2 := (h2.2 q hq).1
    omega
  · intro r hr
    rcases List.mem_append.mp hr with h | h
    · exact ⟨(h1.2 r h).1, le_trans (h1.2 r h).2 hbc⟩
    · exact ⟨lt_of_le_of_lt hab (h2.2 r h).1, (h2.2 r h).2⟩

mutual

/-- Flattening advances the counter monotonically and appends a batch of
fresh, pairwise-distinct registrations. -/
theorem flattenV_regs : ∀ (v : Value) (st : FSt) (i : Nat) (st2 : FSt),
    flattenV v st = .ok (i, st2) →
    st.ctr ≤ st2.ctr ∧
      ∃ new, st2.regs = st.regs ++ new ∧ regsOK st.ctr st2.ctr new
  | .vnull, st, i, st2, h => by
      simp only [flattenV, Except.ok.injEq, Prod.mk.injEq] at h
      rw [← h.2]
      exact ⟨le_refl _, [], by simp, regsOK_nil _ _⟩
  | .vbool true, st, i, st2, h => by
      simp only [flattenV, Except.ok.injEq, Prod.mk.injEq] at h
      rw [← h.2]
      exact ⟨le_refl _, [], by simp, regsOK_nil _ _⟩
  | .vbool false, st, i, st2, h => by
      simp only [flattenV, Except.ok.injEq, Prod.mk.injEq] at h
      rw [← h.2]
      exact ⟨le_refl _, [], by simp, regsOK_nil _ _⟩
  | .vint n, st, i, st2, h => by
      simp only [flattenV, Except.ok.injEq, Prod.mk.injEq] at h
      rw [← h.2]
      exact ⟨le_refl _, [], by simp, regsOK_nil _ _⟩
  | .vstr s, st, i, st2, h => by
      simp only [flattenV, Except.ok.injEq, Prod.mk.injEq] at h
      rw [← h.2]
      exact ⟨le_refl _, [], by simp, regsOK_nil _ _⟩
  | .vfun, st, i, st2, h => by simp [flattenV] at h
  | .vprom fl p, st, i, st2, h => by
      simp only [flattenV, Except.ok.injEq, Prod.mk.injEq] at h
      rw [← h.2]
      dsimp only
      refine ⟨by omega, [Reg.prom (st.ctr + 1) fl p], rfl, ?_, ?_⟩
      · simp
      · intro r hr
        simp only [List.mem_singleton] at hr
        subst hr
        simp [Reg.rid]
  | .vaiter ys isErr fin, st, i, st2, h => by
      simp only [flattenV, Except.ok.injEq, Prod.mk.injEq] at h
      rw [← h.2]
      dsimp only
      refine ⟨by omega, [Reg.aiter (st.ctr + 1) ys isErr fin], rfl, ?_, ?_⟩
      · simp
      · intro r hr
        simp only [List.mem_singleton] at hr
        subst hr
        simp [Reg.rid]
  | .varr xs, st, i, st2, h => by
      rw [show flattenV (.varr xs) st =
        (match flattenL xs ⟨st.nodes ++ [J.null], st.ctr, st.regs⟩ with
         | .error e => .error e
         | .ok (idxs, stL) =>
             .ok (st.nodes.length,
               ⟨stL.nodes.set st.nodes.length
                 (J.arr (idxs.map (fun i => J.num (Int.ofNat i)))),
                stL.ctr, stL.regs⟩)) from rfl] at h
      split at h
      · exact absurd h (by simp)
      · rename_i idxs stL hL
        simp only [Except.ok.injEq, Prod.mk.injEq] at h
        rw [← h.2]
        dsimp only
        obtain ⟨hc, new, hre, hok⟩ := flattenL_regs xs _ idxs stL hL
        exact ⟨hc, new, hre, hok⟩
  | .vobj fs, st, i, st2, h => by
      rw [show flattenV (.vobj fs) st =
        (match flattenF fs ⟨st.nodes ++ [J.null], st.ctr, st.regs⟩ with
         | .error e => .error e
         | .ok (kidxs, stL) =>
             .ok (st.nodes.length,
               ⟨stL.nodes.set st.nodes.length
                 (J.obj (kidxs.map (fun f => (f.1, J.num (Int.ofNat f.2))))),
                stL.ctr, stL.regs⟩)) from rfl] at h
      split at h
      · exact absurd h (by simp)
      · rename_i kidxs stL hL
        simp only [Except.ok.injEq, Prod.mk.injEq] at h
        rw [← h.2]
        dsimp only
        obtain ⟨hc, new, hre, hok⟩ := flattenF_regs fs _ kidxs stL hL
        exact ⟨hc, new, hre, hok⟩

theorem flattenL_regs : ∀ (vs : List Value) (st : FSt) (idxs : List Nat)
    (st2 : FSt), flattenL vs st = .ok (idxs, st2) →
    st.ctr ≤ st2.ctr ∧
      ∃ new, st2.regs = st.regs ++ new ∧ regsOK st.ctr st2.ctr new
  | [], st, idxs, st2, h => by
      simp only [flattenL, Except.ok.injEq, Prod.mk.injEq] at h
      rw [← h.2]
      exact ⟨le_refl _, [], by simp, regsOK_nil _ _⟩
  | v :: vs, st, idxs, st2, h => by
      rw [show flattenL (v :: vs) st =
        (match flattenV v st with
         | .error e => .error e
         | .ok (i, st1) =>
             match flattenL vs st1 with
             | .error e => .error e
             | .ok (is, stL) => .ok (i :: is, stL)) from rfl] at h
      split at h
      · exact absurd h (by simp)
      · rename_i i st1 hV
        split at h
        · exact absurd h (by simp)
        · rename_i is stL hL
          simp only [Except.ok.injEq, Prod.mk.injEq] at h
          rw [← h.2]
          obtain ⟨hc1, n1, hr1, ho1⟩ := flattenV_regs v st i st1 hV
          obtain ⟨hc2, n2, hr2, ho2⟩ := flattenL_regs vs st1 is stL hL
          refine ⟨le_trans hc1 hc2, n1 ++ n2, ?_, ?_⟩
          · rw [hr2, hr1, List.append_assoc]
          · exact regsOK_append ho1
              (regsOK_mono ho2 (le_refl _) (le_refl _)) hc1 hc2

theorem flattenF_regs : ∀ (fs : List (String × Value)) (st : FSt)
    (kidxs : List (String × Nat)) (st2 : FSt),
    flattenF fs st = .ok (kidxs, st2) →
    st.ctr ≤ st2.ctr ∧
      ∃ new, st2.regs = st.regs ++ new ∧ regsOK st.ctr st2.ctr new
  | [], st, kidxs, st2, h => by
      simp only [flattenF, Except.ok.injEq, Prod.mk.injEq] at h
      rw [← h.2]
      exact ⟨le_refl _, [], by simp, regsOK_nil _ _⟩
  | f :: fs, st, kidxs, st2, h => by
      rw [show flattenF (f :: fs) st =
        (match flattenV f.2 st with
         | .error e => .error e
         | .ok (i, st1) =>
             match flattenF fs st1 with
             | .error e => .error e
             | .ok (is, stL) => .ok ((f.1, i) :: is, stL)) from rfl] at h
      split at h
      · exact absurd h (by simp)
      · rename_i i st1 hV
        split at h
        · exact absurd h (by simp)
        · rename_i is stL hL
          simp only [Except.ok.injEq, Prod.mk.injEq] at h
          rw [← h.2]
          obtain ⟨hc1, n1, hr1, ho1⟩ := flattenV_regs f.2 st i st1 hV
          obtain ⟨hc2, n2, hr2, ho2⟩ := flattenF_regs fs st1 is stL hL
          refine ⟨le_trans hc1 hc2, n1 ++ n2, ?_, ?_⟩
          · rw [hr2, hr1, List.append_assoc]
          · exact regsOK_append ho1
              (regsOK_mono ho2 (le_refl _) (le_refl _)) hc1 hc2

end

theorem stringifyFresh_regs {v : Value} {ctr : Nat} {pj : J} {c2 : Nat}
    {rg : List Reg} (h : stringifyFresh v ctr = .ok (pj, c2, rg)) :
    ctr ≤ c2 ∧ regsOK ctr c2 rg := by
  unfold stringifyFresh at h
  cases hF : flattenV v ⟨[], ctr, []⟩ with
  | error e => rw [hF] at h; exact absurd h (by simp)
  | ok p =>
      obtain ⟨i, st⟩ := p
      rw [hF] at h
      simp only [Except.ok.injEq, Prod.mk.injEq] at h
      obtain ⟨h1, h2, h3⟩ := h
      obtain ⟨hc, new, hre, hok⟩ := flattenV_regs v _ i st hF
      simp only [List.nil_append] at hre
      subst h2 h3
      rw [hre]
      exact ⟨hc, hok⟩

theorem safeCause_regs {co : Option (Value → Value)} {ctr : Nat}
    {cause : Value} {pj : J} {c2 : Nat} {rg : List Reg}
    (h : safeCause co ctr cause = .ok (pj, c2, rg)) :
    ctr ≤ c2 ∧ regsOK ctr c2 rg := by
  unfold safeCause at h
  cases h1 : stringifyFresh cause ctr with
  | ok r =>
      rw [h1] at h
      simp only [Except.ok.injEq] at h
      subst h
      exact stringifyFresh_regs h1
  | error e =>
      rw [h1] at h
      cases co with
      | none => exact absurd h (by simp)
      | some f => exact stringifyFresh_regs h

theorem conv_bounds {a b c : Nat} {rg : List Reg} {ids : List Nat}
    (hrg : regsOK a b rg) (hab : a ≤ b) (hbc : b ≤ c)
    (hbd : ∀ x ∈ ids, x ∈ rg.map Reg.rid ∨ (b < x ∧ x ≤ c)) :
    ∀ x ∈ ids, a < x ∧ x ≤ c := by
  intro x hx
  rcases hbd x hx with h | h
  · obtain ⟨r, hr, rfl⟩ := List.mem_map.mp h
    exact ⟨(hrg.2 r hr).1, le_trans (hrg.2 r hr).2 hbc⟩
  · exact ⟨by omega, h.2⟩

theorem seg_append {l1 l2 : List Nat} {a m b : Nat}
    (h1 : l1.Nodup) (h2 : l2.Nodup)
    (b1 : ∀ x ∈ l1, a < x ∧ x ≤ m) (b2 : ∀ x ∈ l2, m < x ∧ x ≤ b)
    (ham : a ≤ m) (hmb : m ≤ b) :
    (l1 ++ l2).Nodup ∧ ∀ x ∈ l1 ++ l2, a < x ∧ x ≤ b := by
  constructor
  · refine List.Nodup.append h1 h2 ?_
    intro x hx1 hx2
    have q1 := (b1 x hx1).2
    have q2 := (b2 x hx2).1
    omega
  · intro x hx
    rcases List.mem_append.mp hx with h | h
    · exact ⟨(b1 x h).1, le_trans (b1 x h).2 hmb⟩
    · have := b2 x h
      exact ⟨by omega, this.2⟩

theorem head_seg {id a b : Nat} {ids : List Nat}
    (hid : id ≤ a) (hnd : ids.Nodup) (hbd : ∀ x ∈ ids, a < x ∧ x ≤ b) :
    (id :: ids).Nodup ∧ ∀ x ∈ id :: ids, x = id ∨ (a < x ∧ x ≤ b) := by
  constructor
  · refine List.nodup_cons.mpr ⟨?_, hnd⟩
    intro hmem
    have := hbd id hmem
    omega
  · intro x hx
    rcases List.mem_cons.mp hx with rfl | h
    · exact Or.inl rfl
    · exact Or.inr (hbd x h)

/-- Properties of the producer builder, by induction on fuel: the counter
advances monotonically; the ids reachable from the built sources are the
registration ids plus counter-fresh ones, pairwise distinct; and every
reachable source has the trace shape of its kind. -/
theorem build_props : ∀ fuel : Nat,
    (∀ (co : Option (Value → Value)) (ctr : Nat) (reg : Reg)
        (src : MSrc Chunk) (c2 : Nat),
        buildSrc co fuel ctr reg = .ok (src, c2) → reg.rid ≤ ctr →
        ctr ≤ c2 ∧ src.id = reg.rid ∧
          ((closSrc src).map MSrc.id).Nodup ∧
          (∀ x ∈ (closSrc src).map MSrc.id,
            x = reg.rid ∨ (ctr < x ∧ x ≤ c2)) ∧
          (∀ s ∈ closSrc src, shapeOK s = true)) ∧
    (∀ (co : Option (Value → Value)) (ctr : Nat) (ys : List Value)
        (isErr : Bool) (fin : Value) (evts : List (MEvt Chunk)) (c2 : Nat),
        buildIterEvts co fuel ctr ys isErr fin = .ok (evts, c2) →
        ctr ≤ c2 ∧ ((closEvts evts).map MSrc.id).Nodup ∧
          (∀ x ∈ (closEvts evts).map MSrc.id, ctr < x ∧ x ≤ c2) ∧
          (∀ s ∈ closEvts evts, shapeOK s = true) ∧
          iterShape evts = true) ∧
    (∀ (co : Option (Value → Value)) (ctr : Nat) (regs : List Reg)
        (srcs : List (MSrc Chunk)) (c2 : Nat),
        buildSrcs co fuel ctr regs = .ok (srcs, c2) →
        (regs.map Reg.rid).Nodup → (∀ r ∈ regs, r.rid ≤ ctr) →
        ctr ≤ c2 ∧ ((closSrcs srcs).map MSrc.id).Nodup ∧
          (∀ x ∈ (closSrcs srcs).map MSrc.id,
            x ∈ regs.map Reg.rid ∨ (ctr < x ∧ x ≤ c2)) ∧
          (∀ s ∈ closSrcs srcs, shapeOK s = true)) := by
  intro fuel
  induction fuel with
  | zero =>
      refine ⟨?_, ?_, ?_⟩
      · intro co ctr reg src c2 h hub
        simp [buildSrc] at h
      · intro co ctr ys isErr fin evts c2 h
        simp [buildIterEvts] at h
      · intro co ctr regs srcs c2 h hnd hub
        cases regs with
        | nil =>
            simp only [buildSrcs, Except.ok.injEq, Prod.mk.injEq] at h
            obtain ⟨rfl, rfl⟩ := h
            exact ⟨le_refl _, by simp [closSrcs], by simp [closSrcs],
              by simp [closSrcs]⟩
        | cons r rs => simp [buildSrcs] at h
  | succ fuel ih =>
      obtain ⟨ihS, ihE, ihL⟩ := ih
      have promAsm : ∀ (ctr c1 c2 id s : Nat) (pj : J) (rg : List Reg)
          (sp : List (MSrc Chunk)), id ≤ ctr → ctr ≤ c1 → regsOK ctr c1 rg →
          c1 ≤ c2 → ((closSrcs sp).map MSrc.id).Nodup →
          (∀ x ∈ (closSrcs sp).map MSrc.id,
            x ∈ rg.map Reg.rid ∨ (c1 < x ∧ x ≤ c2)) →
          (∀ s2 ∈ closSrcs sp, shapeOK s2 = true) →
          (s = 0 ∨ s = 1) →
          ctr ≤ c2 ∧ (MSrc.mk id 0 [MEvt.yld (s, pj) sp] none).id = id ∧
            ((closSrc (MSrc.mk id 0
              [MEvt.yld (s, pj) sp] none)).map MSrc.id).Nodup ∧
            (∀ x ∈ (closSrc (MSrc.mk id 0
                [MEvt.yld (s, pj) sp] none)).map MSrc.id,
              x = id ∨ (ctr < x ∧ x ≤ c2)) ∧
            (∀ s2 ∈ closSrc (MSrc.mk id 0 [MEvt.yld (s, pj) sp] none),
              shapeOK s2 = true) := by
        intro ctr c1 c2 id s pj rg sp hid hc1 hrg hc2 hnd hbd hsh hs
        have hbd2 := conv_bounds hrg hc1 hc2 hbd
        have hcl : closSrc (MSrc.mk id 0 [MEvt.yld (s, pj) sp] none) =
            MSrc.mk id 0 [MEvt.yld (s, pj) sp] none :: closSrcs sp := by
          simp [closSrc, closEvts, closEvt]
        rw [hcl]
        have hh := @head_seg id ctr c2 ((closSrcs sp).map MSrc.id)
          hid hnd hbd2
        refine ⟨le_trans hc1 hc2, rfl, ?_, ?_, ?_⟩
        · simpa [MSrc.id] using hh.1
        · intro x hx
          simp only [List.map_cons, MSrc.id] at hx
          exact hh.2 x hx
        · intro s2 hs2
          rcases List.mem_cons.mp hs2 with rfl | h2
          · rcases hs with rfl | rfl <;> simp [shapeOK, MSrc.kind, MSrc.evts, promShape]
          · exact hsh s2 h2
      refine ⟨?_, ?_, ?_⟩
      · -- buildSrc (fuel+1)
        intro co ctr reg src c2 h hub
        cases reg with
        | prom id fl p =>
            simp only [Reg.rid] at hub
            simp only [buildSrc] at h
            cases fl with
            | true =>
                rw [if_pos rfl] at h
                split at h
                · rename_i pj c1 rg hSF
                  split at h
                  · rename_i sp c2' hBS
                    simp only [Except.ok.injEq, Prod.mk.injEq] at h
                    obtain ⟨h1, h2⟩ := h; subst h1; subst h2
                    obtain ⟨hc1, hrg⟩ := stringifyFresh_regs hSF
                    obtain ⟨hcc, hnd, hbd, hsh⟩ :=
                      ihL co c1 rg sp c2' hBS hrg.1
                        (fun r hr => (hrg.2 r hr).2)
                    have := promAsm ctr c1 c2' id 0 pj rg sp hub hc1 hrg
                      hcc hnd hbd hsh (Or.inl rfl)
                    exact ⟨this.1, this.2.1, this.2.2.1, this.2.2.2.1,
                      this.2.2.2.2⟩
                  · exact absurd h (by simp)
                · rename_i e hSF
                  split at h
                  · rename_i pj c1 rg hSC
                    split at h
                    · rename_i sp c2' hBS
                      simp only [Except.ok.injEq, Prod.mk.injEq] at h
                      obtain ⟨h1, h2⟩ := h; subst h1; subst h2
                      obtain ⟨hc1, hrg⟩ := safeCause_regs hSC
                      obtain ⟨hcc, hnd, hbd, hsh⟩ :=
                        ihL co c1 rg sp c2' hBS hrg.1
                          (fun r hr => (hrg.2 r hr).2)
                      have := promAsm ctr c1 c2' id 1 pj rg sp hub hc1 hrg
                        hcc hnd hbd hsh (Or.inr rfl)
                      exact ⟨this.1, this.2.1, this.2.2.1, this.2.2.2.1,
                        this.2.2.2.2⟩
                    · exact absurd h (by simp)
                  · rename_i e2 hSC
                    simp only [Except.ok.injEq, Prod.mk.injEq] at h
                    obtain ⟨h1, h2⟩ := h; subst h1; subst h2
                    refine ⟨le_refl _, rfl, ?_, ?_, ?_⟩
                    · simp [closSrc, closEvts, closEvt, MSrc.id]
                    · intro x hx
                      simp only [closSrc, closEvts, closEvt, List.map_cons,
                        List.append_nil, List.map_nil, MSrc.id] at hx
                      simp only [List.mem_singleton] at hx
                      exact Or.inl hx
                    · intro s2 hs2
                      simp only [closSrc, closEvts, closEvt,
                        List.append_nil] at hs2
                      simp only [List.mem_singleton] at hs2
                      subst hs2
                      simp [shapeOK, MSrc.kind, MSrc.evts, promShape]
            | false =>
                rw [if_neg (by simp)] at h
                split at h
                · rename_i pj c1 rg hSC
                  split at h
                  · rename_i sp c2' hBS
                    simp only [Except.ok.injEq, Prod.mk.injEq] at h
                    obtain ⟨h1, h2⟩ := h; subst h1; subst h2
                    obtain ⟨hc1, hrg⟩ := safeCause_regs hSC
                    obtain ⟨hcc, hnd, hbd, hsh⟩ :=
                      ihL co c1 rg sp c2' hBS hrg.1
                        (fun r hr => (hrg.2 r hr).2)
                    have := promAsm ctr c1 c2' id 1 pj rg sp hub hc1 hrg
                      hcc hnd hbd hsh (Or.inr rfl)
                    exact ⟨this.1, this.2.1, this.2.2.1, this.2.2.2.1,
                      this.2.2.2.2⟩
                  · exact absurd h (by simp)
                · rename_i e hSC
                  simp only [Except.ok.injEq, Prod.mk.injEq] at h
                  obtain ⟨h1, h2⟩ := h; subst h1; subst h2
                  refine ⟨le_refl _, rfl, ?_, ?_, ?_⟩
                  · simp [closSrc, closEvts, closEvt, MSrc.id]
                  · intro x hx
                    simp only [closSrc, closEvts, closEvt, List.map_cons,
                      List.append_nil, List.map_nil, MSrc.id] at hx
                    simp only [List.mem_singleton] at hx
                    exact Or.inl hx
                  · intro s2 hs2
                    simp only [closSrc, closEvts, closEvt,
                      List.append_nil] at hs2
                    simp only [List.mem_singleton] at hs2
                    subst hs2
                    simp [shapeOK, MSrc.kind, MSrc.evts, promShape]
        | aiter id ys isErr fin =>
            simp only [Reg.rid] at hub
            simp only [buildSrc] at h
            split at h
            · rename_i evts c1 hBE
              simp only [Except.ok.injEq, Prod.mk.injEq] at h
              obtain ⟨h1, h2⟩ := h; subst h1; subst h2
              obtain ⟨hcc, hnd, hbd, hsh, hshape⟩ :=
                ihE co ctr ys isErr fin evts c1 hBE
              have hcl : closSrc (MSrc.mk id 1 evts none) =
                  MSrc.mk id 1 evts none :: closEvts evts := by
                simp [closSrc]
              rw [hcl]
              have hh := @head_seg id ctr c1 ((closEvts evts).map MSrc.id)
                hub hnd hbd
              refine ⟨hcc, rfl, ?_, ?_, ?_⟩
              · simpa [MSrc.id] using hh.1
              · intro x hx
                simp only [List.map_cons, MSrc.id] at hx
                exact hh.2 x hx
              · intro s2 hs2
                rcases List.mem_cons.mp hs2 with rfl | h2
                · simp [shapeOK, MSrc.kind, MSrc.evts, hshape]
                · exact hsh s2 h2
            · exact absurd h (by simp)
      · -- buildIterEvts (fuel+1)
        intro co ctr ys isErr fin evts c2 h
        have termAsm : ∀ (c1 c2' s : Nat) (pj : J) (rg : List Reg)
            (sp : List (MSrc Chunk)), ctr ≤ c1 → regsOK ctr c1 rg →
            buildSrcs co fuel c1 rg = .ok (sp, c2') → (s = 1 ∨ s = 2) →
            ctr ≤ c2' ∧
              ((closEvts [MEvt.yld (s, pj) sp]).map MSrc.id).Nodup ∧
              (∀ x ∈ (closEvts [MEvt.yld (s, pj) sp]).map MSrc.id,
                ctr < x ∧ x ≤ c2') ∧
              (∀ s2 ∈ closEvts [MEvt.yld (s, pj) sp], shapeOK s2 = true) ∧
              iterShape [MEvt.yld (s, pj) sp] = true := by
          intro c1 c2' s pj rg sp hc1 hrg hBS hs
          obtain ⟨hcc, hnd, hbd, hsh⟩ := ihL co c1 rg sp c2' hBS hrg.1
            (fun r hr => (hrg.2 r hr).2)
          have hbd2 := conv_bounds hrg hc1 hcc hbd
          have hcl : closEvts [MEvt.yld (s, pj) sp] = closSrcs sp := by
            simp [closEvts, closEvt]
          rw [hcl]
          refine ⟨le_trans hc1 hcc, hnd, hbd2, hsh, ?_⟩
          rcases hs with rfl | rfl <;> simp [iterShape]
        cases ys with
        | nil =>
            simp only [buildIterEvts] at h
            cases isErr with
            | true =>
                rw [if_pos rfl] at h
                split at h
                · rename_i pj c1 rg hSC
                  split at h
                  · rename_i sp c2' hBS
                    simp only [Except.ok.injEq, Prod.mk.injEq] at h
                    obtain ⟨h1, h2⟩ := h; subst h1; subst h2
                    exact termAsm c1 c2' 1 pj rg sp
                      (safeCause_regs hSC).1 (safeCause_regs hSC).2 hBS
                      (Or.inl rfl)
                  · exact absurd h (by simp)
                · rename_i e hSC
                  simp only [Except.ok.injEq, Prod.mk.injEq] at h
                  obtain ⟨h1, h2⟩ := h; subst h1; subst h2
                  refine ⟨le_refl _, ?_, ?_, ?_, ?_⟩ <;>
                    simp [closEvts, closEvt, iterShape]
            | false =>
                rw [if_neg (by simp)] at h
                split at h
                · rename_i pj c1 rg hSF
                  split at h
                  · rename_i sp c2' hBS
                    simp only [Except.ok.injEq, Prod.mk.injEq] at h
                    obtain ⟨h1, h2⟩ := h; subst h1; subst h2
                    exact termAsm c1 c2' 2 pj rg sp
                      (stringifyFresh_regs hSF).1 (stringifyFresh_regs hSF).2
                      hBS (Or.inr rfl)
                  · exact absurd h (by simp)
                · rename_i e hSF
                  split at h
                  · rename_i pj c1 rg hSC
                    split at h
                    · rename_i sp c2' hBS
                      simp only [Except.ok.injEq, Prod.mk.injEq] at h
                      obtain ⟨h1, h2⟩ := h; subst h1; subst h2
                      exact termAsm c1 c2' 1 pj rg sp
                        (safeCause_regs hSC).1 (safeCause_regs hSC).2 hBS
                        (Or.inl rfl)
                    · exact absurd h (by simp)
                  · rename_i e2 hSC
                    simp only [Except.ok.injEq, Prod.mk.injEq] at h
                    obtain ⟨h1, h2⟩ := h; subst h1; subst h2
                    refine ⟨le_refl _, ?_, ?_, ?_, ?_⟩ <;>
                      simp [closEvts, closEvt, iterShape]
        | cons y ys2 =>
            simp only [buildIterEvts] at h
            split at h
            · rename_i pj c1 rg hSF
              split at h
              · rename_i sp c2' hBS
                split at h
                · rename_i evts2 c3 hBE
                  simp only [Except.ok.injEq, Prod.mk.injEq] at h
                  obtain ⟨h1, h2⟩ := h; subst h1; subst h2
                  obtain ⟨hc1, hrg⟩ := stringifyFresh_regs hSF
                  obtain ⟨hcc, hnd, hbd, hsh⟩ := ihL co c1 rg sp c2' hBS
                    hrg.1 (fun r hr => (hrg.2 r hr).2)
                  have hbd2 := conv_bounds hrg hc1 hcc hbd
                  obtain ⟨hcc2, hnd2, hbd2', hsh2, hshape2⟩ :=
                    ihE co c2' ys2 isErr fin evts2 c3 hBE
                  have hcl : closEvts (MEvt.yld (0, pj) sp :: evts2) =
                      closSrcs sp ++ closEvts evts2 := by
                    simp [closEvts, closEvt]
                  rw [hcl, List.map_append]
                  have hseg := seg_append hnd hnd2 hbd2 hbd2'
                    (le_trans hc1 hcc) hcc2
                  refine ⟨le_trans hc1 (le_trans hcc hcc2), hseg.1,
                    hseg.2, ?_, ?_⟩
                  · intro s2 hs2
                    rcases List.mem_append.mp hs2 with h2 | h2
                    · exact hsh s2 h2
                    · exact hsh2 s2 h2
                  · cases hE2 : evts2 with
                    | nil => rw [hE2] at hshape2; simp [iterShape] at hshape2
                    | cons e2 r2 =>
                        rw [hE2] at hshape2
                        simp [iterShape, hshape2]
                · exact absurd h (by simp)
              · exact absurd h (by simp)
            · rename_i e hSF
              split at h
              · rename_i pj c1 rg hSC
                split at h
                · rename_i sp c2' hBS
                  simp only [Except.ok.injEq, Prod.mk.injEq] at h
                  obtain ⟨h1, h2⟩ := h; subst h1; subst h2
                  exact termAsm c1 c2' 1 pj rg sp (safeCause_regs hSC).1
                    (safeCause_regs hSC).2 hBS (Or.inl rfl)
                · exact absurd h (by simp)
              · rename_i e2 hSC
                simp only [Except.ok.injEq, Prod.mk.injEq] at h
                obtain ⟨h1, h2⟩ := h; subst h1; subst h2
                refine ⟨le_refl _, ?_, ?_, ?_, ?_⟩ <;>
                  simp [closEvts, closEvt, iterShape]
      · -- buildSrcs (fuel+1)
        intro co ctr regs srcs c2 h hnd hub
        cases regs with
        | nil =>
            simp only [buildSrcs, Except.ok.injEq, Prod.mk.injEq] at h
            obtain ⟨h1, h2⟩ := h; subst h1; subst h2
            exact ⟨le_refl _, by simp [closSrcs], by simp [closSrcs],
              by simp [closSrcs]⟩
        | cons r rs =>
            simp only [buildSrcs] at h
            split at h
            · exact absurd h (by simp)
            · rename_i src1 c1 hS
              split at h
              · exact absurd h (by simp)
              · rename_i srcs2 c2' hL
                simp only [Except.ok.injEq, Prod.mk.injEq] at h
                obtain ⟨h1, h2⟩ := h; subst h1; subst h2
                have hr0 : r.rid ≤ ctr := hub r (by simp)
                obtain ⟨hc1, hid1, hnd1, hbd1, hsh1⟩ :=
                  ihS co ctr r src1 c1 hS hr0
                simp only [List.map_cons, List.nodup_cons] at hnd
                obtain ⟨hcc, hnd2, hbd2, hsh2⟩ := ihL co c1 rs srcs2 c2' hL
                  hnd.2 (fun q hq => le_trans (hub q (by simp [hq])) hc1)
                have hcl : closSrcs (src1 :: srcs2) =
                    closSrc src1 ++ closSrcs srcs2 := by
                  simp [closSrcs]
                rw [hcl, List.map_append]
                refine ⟨le_trans hc1 hcc, ?_, ?_, ?_⟩
                · refine List.Nodup.append hnd1 hnd2 ?_
                  intro x hx1 hx2
                  rcases hbd1 x hx1 with rfl | hb1
                  · rcases hbd2 _ hx2 with hb2 | hb2
                    · exact hnd.1 hb2
                    · have := hub r (by simp)
                      omega
                  · rcases hbd2 x hx2 with hb2 | hb2
                    · obtain ⟨q, hq, he⟩ := List.mem_map.mp hb2
                      have := hub q (by simp [hq])
                      omega
                    · omega
                · intro x hx
                  rcases List.mem_append.mp hx with h2 | h2
                  · rcases hbd1 x h2 with rfl | hb
                    · exact Or.inl (List.mem_map_of_mem _
                        (List.mem_cons_self _ _))
                    · exact Or.inr ⟨hb.1, le_trans hb.2 hcc⟩
                  · rcases hbd2 x h2 with hb | hb
                    · refine Or.inl ?_
                      rw [List.map_cons]
                      exact List.mem_cons_of_mem _ hb
                    · exact Or.inr ⟨by omega, hb.2⟩
                · intro s2 hs2
                  rcases List.mem_append.mp hs2 with h2 | h2
                  · exact hsh1 s2 h2
                  · exact hsh2 s2 h2

/-- Claim C3: for every chunk-stream id created during one encoding
session — in a session whose producers all serialize successfully — the
complete per-id subsequence of the emitted body frames obeys the per-kind
grammar: a promise id gets exactly one frame, with status 0 (fulfilled)
or 1 (rejected), and nothing after it; an async-sequence id gets zero or
more status-0 (yield) frames followed by exactly one terminal frame with
status 1 (error) or 2 (return), and nothing after the terminal. -/
theorem claim_C3 (co : Option (Value → Value)) (fuel : Nat) (v : Value)
    (header : String) (prods : List (MSrc Chunk)) (sch : Nat → Nat)
    (henc : stringifyRun co fuel v = .ok (header, prods))
    (hnf : nfSrcs prods = true) :
    ∀ src ∈ closSrcs prods,
      (src.kind = 0 →
        promGram (outFor src.id (runFull sch none prods).output) = true) ∧
      (src.kind = 1 →
        iterGram (outFor src.id (runFull sch none prods).output) = true) := by
  have key : ((closSrcs prods).map MSrc.id).Nodup ∧
      (∀ s ∈ closSrcs prods, shapeOK s = true) := by
    unfold stringifyRun at henc
    split at henc
    · exact absurd henc (by simp)
    · rename_i i st hF
      split at henc
      · exact absurd henc (by simp)
      · rename_i prods2 cF hB
        simp only [Except.ok.injEq, Prod.mk.injEq] at henc
        obtain ⟨h1, h2⟩ := henc
        subst h2
        obtain ⟨hc0, new, hre, hok⟩ := flattenV_regs v _ i st hF
        simp only [List.nil_append] at hre
        have hall := (build_props fuel).2.2 co st.ctr st.regs _ _ hB
          (by rw [hre]; exact hok.1)
          (by rw [hre]; intro r hr; exact (hok.2 r hr).2)
        exact ⟨hall.2.1, hall.2.2.2⟩
  intro src hmem
  obtain ⟨sid, skind, sevts, sd⟩ := src
  have hInv := Inv_initSt prods key.1
  have hNF : NoFailSt (initSt prods) := by
    constructor
    · simp only [initSt, List.append_nil]
      exact hnf
    · intro p hp
      simp [initSt] at hp
  have hrun := runM_ordering sch (trOf prods) (wSt (initSt prods) + 1) 0
    (initSt prods) hInv hNF (by omega)
  have hx : (MSrc.mk sid skind sevts sd).id ∈ stIdsL (initSt prods) := by
    simp only [stIdsL, initSt, closSrcs, List.map_nil, List.append_nil]
    exact List.mem_map_of_mem _ hmem
  have hout := hrun.2 _ hx
  rw [trOf_eq key.1 hmem] at hout
  have hnfs : nfEvts sevts = true := nfSrc_of_closSrcs prods _ hnf hmem
  have hsh := key.2 _ hmem
  simp only [shapeOK, MSrc.kind, MSrc.evts, Bool.or_eq_true,
    Bool.and_eq_true, beq_iff_eq] at hsh
  constructor
  · intro hk
    simp only [MSrc.kind] at hk
    subst hk
    rw [show runFull sch none prods =
      runM sch none (wSt (initSt prods) + 1) 0 (initSt prods) from rfl]
    rw [hout]
    rcases hsh with ⟨_, hp⟩ | ⟨hk1, _⟩
    · exact promGram_of_shape hp hnfs
    · exact absurd hk1 (by norm_num)
  · intro hk
    simp only [MSrc.kind] at hk
    subst hk
    rw [show runFull sch none prods =
      runM sch none (wSt (initSt prods) + 1) 0 (initSt prods) from rfl]
    rw [hout]
    rcases hsh with ⟨hk0, _⟩ | ⟨_, hp⟩
    · exact absurd hk0 (by norm_num)
    · exact iterGram_of_shape hp hnfs

/-- The single promise producer of the C3 witness run. -/
def srcC3 : MSrc Chunk :=
  MSrc.mk 1 0 [MEvt.yld (0, J.arr [J.null]) []] none

theorem claim_C3_witness :
    nfSrcs [srcC3] = true ∧
    promGram (outFor srcC3.id
      (runFull (fun _ => 0) none [srcC3]).output) = true :=
  ⟨by decide,
   (claim_C3 none 2 (Value.vobj [("p", Value.vprom true .vnull)])
      (renderJ (J.arr [J.obj [("p", J.num 1)],
        J.arr [J.str "Promise", J.num 2], J.num 1]))
      [srcC3] (fun _ => 0) rfl (by decide) srcC3
      (by simp [closSrcs, closSrc, closEvts, closEvt, srcC3])).1 rfl⟩

/-! ### Round trip of the synchronous fragment (C1) -/

mutual

/-- Fuel needed to decode the value; linear in its size. -/
def vSize : Value → Nat
  | .varr xs => 1 + vSizeL xs
  | .vobj fs => 1 + vSizeF fs
  | _ => 1

def vSizeL : List Value → Nat
  | [] => 0
  | v :: vs => 1 + vSize v + vSizeL vs

def vSizeF : List (String × Value) → Nat
  | [] => 0
  | f :: fs => 1 + vSize f.2 + vSizeF fs

end

theorem vSize_pos (v : Value) : 1 ≤ vSize v := by
  cases v <;> simp [vSize]

mutual

/-- Where flattening writes: the value's node index is the entry length,
the node list grows, and entries below the entry length are untouched. -/
theorem flattenV_entry : ∀ (v : Value) (st : FSt) (i : Nat) (st2 : FSt),
    flattenV v st = .ok (i, st2) →
    i = st.nodes.length ∧ st.nodes.length < st2.nodes.length ∧
      ∀ k, k < st.nodes.length → st2.nodes[k]? = st.nodes[k]?
  | .vnull, st, i, st2, h => by
      simp only [flattenV, Except.ok.injEq, Prod.mk.injEq] at h
      obtain ⟨h1, h2⟩ := h; subst h1; subst h2
      refine ⟨rfl, by simp, fun k hk => List.getElem?_append_left hk⟩
  | .vbool true, st, i, st2, h => by
      simp only [flattenV, Except.ok.injEq, Prod.mk.injEq] at h
      obtain ⟨h1, h2⟩ := h; subst h1; subst h2
      refine ⟨rfl, by simp, fun k hk => List.getElem?_append_left hk⟩
  | .vbool false, st, i, st2, h => by
      simp only [flattenV, Except.ok.injEq, Prod.mk.injEq] at h
      obtain ⟨h1, h2⟩ := h; subst h1; subst h2
      refine ⟨rfl, by simp, fun k hk => List.getElem?_append_left hk⟩
  | .vint n, st, i, st2, h => by
      simp only [flattenV, Except.ok.injEq, Prod.mk.injEq] at h
      obtain ⟨h1, h2⟩ := h; subst h1; subst h2
      refine ⟨rfl, by simp, fun k hk => List.getElem?_append_left hk⟩
  | .vstr s, st, i, st2, h => by
      simp only [flattenV, Except.ok.injEq, Prod.mk.injEq] at h
      obtain ⟨h1, h2⟩ := h; subst h1; subst h2
      refine ⟨rfl, by simp, fun k hk => List.getElem?_append_left hk⟩
  | .vfun, st, i, st2, h => by simp [flattenV] at h
  | .vprom fl p, st, i, st2, h => by
      simp only [flattenV, Except.ok.injEq, Prod.mk.injEq] at h
      obtain ⟨h1, h2⟩ := h; subst h1; subst h2
      refine ⟨rfl, by simp, fun k hk => List.getElem?_append_left hk⟩
  | .vaiter ys isErr fin, st, i, st2, h => by
      simp only [flattenV, Except.ok.injEq, Prod.mk.injEq] at h
      obtain ⟨h1, h2⟩ := h; subst h1; subst h2
      refine ⟨rfl, by simp, fun k hk => List.getElem?_append_left hk⟩
  | .varr xs, st, i, st2, h => by
      rw [show flattenV (.varr xs) st =
        (match flattenL xs ⟨st.nodes ++ [J.null], st.ctr, st.regs⟩ with
         | .error e => .error e
         | .ok (idxs, stL) =>
             .ok (st.nodes.length,
               ⟨stL.nodes.set st.nodes.length
                 (J.arr (idxs.map (fun i => J.num (Int.ofNat i)))),
                stL.ctr, stL.regs⟩)) from rfl] at h
      split at h
      · exact absurd h (by simp)
      · rename_i idxs stL hL
        simp only [Except.ok.injEq, Prod.mk.injEq] at h
        obtain ⟨h1, h2⟩ := h; subst h1; subst h2
        obtain ⟨hlen, hstab⟩ := flattenL_entry xs _ idxs stL hL
        refine ⟨rfl, ?_, ?_⟩
        · dsimp only
          rw [List.length_set]
          simp only [List.length_append, List.length_singleton] at hlen
          omega
        · intro k hk
          dsimp only
          rw [List.getElem?_set_ne (by omega)]
          rw [hstab k (by simp; omega)]
          exact List.getElem?_append_left hk
  | .vobj fs, st, i, st2, h => by
      rw [show flattenV (.vobj fs) st =
        (match flattenF fs ⟨st.nodes ++ [J.null], st.ctr, st.regs⟩ with
         | .error e => .error e
         | .ok (kidxs, stL) =>
             .ok (st.nodes.length,
               ⟨stL.nodes.set st.nodes.length
                 (J.obj (kidxs.map (fun f => (f.1, J.num (Int.ofNat f.2))))),
                stL.ctr, stL.regs⟩)) from rfl] at h
      split at h
      · exact absurd h (by simp)
      · rename_i kidxs stL hL
        simp only [Except.ok.injEq, Prod.mk.injEq] at h
        obtain ⟨h1, h2⟩ := h; subst h1; subst h2
        obtain ⟨hlen, hstab⟩ := flattenF_entry fs _ kidxs stL hL
        refine ⟨rfl, ?_, ?_⟩
        · dsimp only
          rw [List.length_set]
          simp only [List.length_append, List.length_singleton] at hlen
          omega
        · intro k hk
          dsimp only
          rw [List.getElem?_set_ne (by omega)]
          rw [hstab k (by simp; omega)]
          exact List.getElem?_append_left hk

theorem flattenL_entry : ∀ (vs : List Value) (st : FSt) (idxs : List Nat)
    (st2 : FSt), flattenL vs st = .ok (idxs, st2) →
    st.nodes.length ≤ st2.nodes.length ∧
      ∀ k, k < st.nodes.length → st2.nodes[k]? = st.nodes[k]?
  | [], st, idxs, st2, h => by
      simp only [flattenL, Except.ok.injEq, Prod.mk.injEq] at h
      obtain ⟨h1, h2⟩ := h; subst h1; subst h2
      exact ⟨le_refl _, fun k _ => rfl⟩
  | v :: vs, st, idxs, st2, h => by
      rw [show flattenL (v :: vs) st =
        (match flattenV v st with
         | .error e => .error e
         | .ok (i, st1) =>
             match flattenL vs st1 with
             | .error e => .error e
             | .ok (is, stL) => .ok (i :: is, stL)) from rfl] at h
      split at h
      · exact absurd h (by simp)
      · rename_i i st1 hV
        split at h
        · exact absurd h (by simp)
        · rename_i is stL hL
          simp only [Except.ok.injEq, Prod.mk.injEq] at h
          obtain ⟨h1, h2⟩ := h; subst h1; subst h2
          obtain ⟨_, hlen1, hstab1⟩ := flattenV_entry v st i st1 hV
          obtain ⟨hlen2, hstab2⟩ := flattenL_entry vs st1 is stL hL
          refine ⟨by omega, fun k hk => ?_⟩
          rw [hstab2 k (by omega), hstab1 k hk]

theorem flattenF_entry : ∀ (fs : List (String × Value)) (st : FSt)
    (kidxs : List (String × Nat)) (st2 : FSt),
    flattenF fs st = .ok (kidxs, st2) →
    st.nodes.length ≤ st2.nodes.length ∧
      ∀ k, k < st.nodes.length → st2.nodes[k]? = st.nodes[k]?
  | [], st, kidxs, st2, h => by
      simp only [flattenF, Except.ok.injEq, Prod.mk.injEq] at h
      obtain ⟨h1, h2⟩ := h; subst h1; subst h2
      exact ⟨le_refl _, fun k _ => rfl⟩
  | f :: fs, st, kidxs, st2, h => by
      rw [show flattenF (f :: fs) st =
        (match flattenV f.2 st with
         | .error e => .error e
         | .ok (i, st1) =>
             match flattenF fs st1 with
             | .error e => .error e
             | .ok (is, stL) => .ok ((f.1, i) :: is, stL)) from rfl] at h
      split at h
      · exact absurd h (by simp)
      · rename_i i st1 hV
        split at h
        · exact absurd h (by simp)
        · rename_i is stL hL
          simp only [Except.ok.injEq, Prod.mk.injEq] at h
          obtain ⟨h1, h2⟩ := h; subst h1; subst h2
          obtain ⟨_, hlen1, hstab1⟩ := flattenV_entry f.2 st i st1 hV
          obtain ⟨hlen2, hstab2⟩ := flattenF_entry fs st1 is stL hL
          refine ⟨by omega, fun k hk => ?_⟩
          rw [hstab2 k (by omega), hstab1 k hk]

end

mutual

/-- The base codec alone serializes every synchronous value: flattening
succeeds, makes no registrations, and produces enough nodes to cover the
decode fuel. -/
theorem flattenV_sync : ∀ (v : Value) (st : FSt), syncV v = true →
    ∃ st2, flattenV v st = .ok (st.nodes.length, st2) ∧
      st2.regs = st.regs ∧ st2.ctr = st.ctr ∧
      2 * st.nodes.length + vSize v < 2 * st2.nodes.length
  | .vnull, st, _ => by
      refine ⟨⟨st.nodes ++ [J.null], st.ctr, st.regs⟩, rfl, rfl, rfl, ?_⟩
      simp only [vSize, List.length_append, List.length_singleton]
      omega
  | .vbool true, st, _ => by
      refine ⟨⟨st.nodes ++ [J.tru], st.ctr, st.regs⟩, rfl, rfl, rfl, ?_⟩
      simp only [vSize, List.length_append, List.length_singleton]
      omega
  | .vbool false, st, _ => by
      refine ⟨⟨st.nodes ++ [J.fls], st.ctr, st.regs⟩, rfl, rfl, rfl, ?_⟩
      simp only [vSize, List.length_append, List.length_singleton]
      omega
  | .vint n, st, _ => by
      refine ⟨⟨st.nodes ++ [J.num n], st.ctr, st.regs⟩, rfl, rfl, rfl, ?_⟩
      simp only [vSize, List.length_append, List.length_singleton]
      omega
  | .vstr s, st, _ => by
      refine ⟨⟨st.nodes ++ [J.str s], st.ctr, st.regs⟩, rfl, rfl, rfl, ?_⟩
      simp only [vSize, List.length_append, List.length_singleton]
      omega
  | .vfun, st, h => by simp [syncV] at h
  | .vprom fl p, st, h => by simp [syncV] at h
  | .vaiter ys isErr fin, st, h => by simp [syncV] at h
  | .varr xs, st, h => by
      have hx : syncL xs = true := by simpa [syncV] using h
      obtain ⟨idxs, stL, hL, hregs, hctr, hsz⟩ :=
        flattenL_sync xs ⟨st.nodes ++ [J.null], st.ctr, st.regs⟩ hx
      refine ⟨⟨stL.nodes.set st.nodes.length
        (J.arr (idxs.map (fun i => J.num (Int.ofNat i)))),
        stL.ctr, stL.regs⟩, ?_, hregs, hctr, ?_⟩
      · rw [show flattenV (.varr xs) st =
          (match flattenL xs ⟨st.nodes ++ [J.null], st.ctr, st.regs⟩ with
           | .error e => .error e
           | .ok (idxs, stL) =>
               .ok (st.nodes.length,
                 ⟨stL.nodes.set st.nodes.length
                   (J.arr (idxs.map (fun i => J.num (Int.ofNat i)))),
                  stL.ctr, stL.regs⟩)) from rfl, hL]
      · simp only [vSize, List.length_set]
        simp only [List.length_append, List.length_singleton] at hsz
        omega
  | .vobj fs, st, h => by
      have hx : syncF fs = true := by simpa [syncV] using h
      obtain ⟨kidxs, stL, hL, hregs, hctr, hsz⟩ :=
        flattenF_sync fs ⟨st.nodes ++ [J.null], st.ctr, st.regs⟩ hx
      refine ⟨⟨stL.nodes.set st.nodes.length
        (J.obj (kidxs.map (fun f => (f.1, J.num (Int.ofNat f.2))))),
        stL.ctr, stL.regs⟩, ?_, hregs, hctr, ?_⟩
      · rw [show flattenV (.vobj fs) st =
          (match flattenF fs ⟨st.nodes ++ [J.null], st.ctr, st.regs⟩ with
           | .error e => .error e
           | .ok (kidxs, stL) =>
               .ok (st.nodes.length,
                 ⟨stL.nodes.set st.nodes.length
                   (J.obj (kidxs.map
                     (fun f => (f.1, J.num (Int.ofNat f.2))))),
                  stL.ctr, stL.regs⟩)) from rfl, hL]
      · simp only [vSize, List.length_set]
        simp only [List.length_append, List.length_singleton] at hsz
        omega

theorem flattenL_sync : ∀ (vs : List Value) (st : FSt), syncL vs = true →
    ∃ idxs st2, flattenL vs st = .ok (idxs, st2) ∧
      st2.regs = st.regs ∧ st2.ctr = st.ctr ∧
      2 * st.nodes.length + vSizeL vs ≤ 2 * st2.nodes.length
  | [], st, _ => ⟨[], st, rfl, rfl, rfl, by simp [vSizeL]⟩
  | v :: vs, st, h => by
      have h2 : syncV v = true ∧ syncL vs = true := by
        simpa [syncL, Bool.and_eq_true] using h
      obtain ⟨st1, hV, hregs1, hctr1, hsz1⟩ := flattenV_sync v st h2.1
      obtain ⟨is, stL, hL, hregs2, hctr2, hsz2⟩ := flattenL_sync vs st1 h2.2
      refine ⟨st.nodes.length :: is, stL, ?_, by rw [hregs2, hregs1],
        by rw [hctr2, hctr1], ?_⟩
      · rw [show flattenL (v :: vs) st =
          (match flattenV v st with
           | .error e => .error e
           | .ok (i, st1) =>
               match flattenL vs st1 with
               | .error e => .error e
               | .ok (is, stL) => .ok (i :: is, stL)) from rfl, hV]
        show (match flattenL vs st1 with
          | .error e => .error e
          | .ok (is, stL) => Except.ok (st.nodes.length :: is, stL)) =
          Except.ok (st.nodes.length :: is, stL)
        rw [hL]
      · simp only [vSizeL]
        omega

theorem flattenF_sync : ∀ (fs : List (String × Value)) (st : FSt),
    syncF fs = true →
    ∃ kidxs st2, flattenF fs st = .ok (kidxs, st2) ∧
      st2.regs = st.regs ∧ st2.ctr = st.ctr ∧
      2 * st.nodes.length + vSizeF fs ≤ 2 * st2.nodes.length
  | [], st, _ => ⟨[], st, rfl, rfl, rfl, by simp [vSizeF]⟩
  | f :: fs, st, h => by
      have h2 : syncV f.2 = true ∧ syncF fs = true := by
        simpa [syncF, Bool.and_eq_true] using h
      obtain ⟨st1, hV, hregs1, hctr1, hsz1⟩ := flattenV_sync f.2 st h2.1
      obtain ⟨is, stL, hL, hregs2, hctr2, hsz2⟩ := flattenF_sync fs st1 h2.2
      refine ⟨(f.1, st.nodes.length) :: is, stL, ?_,
        by rw [hregs2, hregs1], by rw [hctr2, hctr1], ?_⟩
      · rw [show flattenF (f :: fs) st =
          (match flattenV f.2 st with
           | .error e => .error e
           | .ok (i, st1) =>
               match flattenF fs st1 with
               | .error e => .error e
               | .ok (is, stL) => .ok ((f.1, i) :: is, stL)) from rfl, hV]
        show (match flattenF fs st1 with
          | .error e => .error e
          | .ok (is, stL) => Except.ok ((f.1, st.nodes.length) :: is, stL)) =
          Except.ok ((f.1, st.nodes.length) :: is, stL)
        rw [hL]
      · simp only [vSizeF]
        omega

end

/-! ## The decoder's synchronous half

`devalue.unflatten` is an external collaborator of this repository; its
behavior on the flattened node array is spec-modelled: node `0` is the
root, objects map keys to node indices, plain arrays list node indices,
and an array whose first element is a string is a custom-type tag (an
async value, not part of the synchronous fragment).  `fuel` bounds the
recursion; `2 * nodes.length + 1` is enough for every array produced by
the encoder's flattening. -/

mutual

def decodeNode : Nat → List J → Nat → Except String Value
  | 0, _, _ => .error "Invalid input"
  | fuel + 1, nodes, i =>
    match nodes[i]? with
    | none => .error "Invalid input"
    | some J.null => .ok .vnull
    | some J.tru => .ok (.vbool true)
    | some J.fls => .ok (.vbool false)
    | some (J.num n) => .ok (.vint n)
    | some (J.str s) => .ok (.vstr s)
    | some (J.arr es) =>
      match es with
      | J.str _ :: _ => .error "Async value in synchronous decode"
      | _ =>
        match decodeIdxL fuel nodes es with
        | .ok vs => .ok (.varr vs)
        | .error e => .error e
    | some (J.obj fs) =>
      match decodeIdxF fuel nodes fs with
      | .ok gs => .ok (.vobj gs)
      | .error e => .error e

/-- Decode a list of node indices (the elements of a plain array node). -/
def decodeIdxL : Nat → List J → List J → Except String (List Value)
  | _, _, [] => .ok []
  | 0, _, _ :: _ => .error "Invalid input"
  | fuel + 1, nodes, e :: es =>
    match e with
    | J.num k =>
      if 0 ≤ k then
        match decodeNode fuel nodes k.toNat with
        | .ok v =>
          match decodeIdxL fuel nodes es with
          | .ok vs => .ok (v :: vs)
          | .error e2 => .error e2
        | .error e2 => .error e2
      else .error "Invalid input"
    | _ => .error "Invalid input"

/-- Decode the fields of an object node (key, node index pairs). -/
def decodeIdxF : Nat → List J → List (String × J) →
    Except String (List (String × Value))
  | _, _, [] => .ok []
  | 0, _, _ :: _ => .error "Invalid input"
  | fuel + 1, nodes, (k, e) :: es =>
    match e with
    | J.num n =>
      if 0 ≤ n then
        match decodeNode fuel nodes n.toNat with
        | .ok v =>
          match decodeIdxF fuel nodes es with
          | .ok vs => .ok ((k, v) :: vs)
          | .error e2 => .error e2
        | .error e2 => .error e2
      else .error "Invalid input"
    | _ => .error "Invalid input"

end

mutual

/-- Decoding reads back exactly what flattening wrote: on any node array
that agrees with the flattening result on the value's window, the decoder
returns the original value. -/
theorem decode_flattenV : ∀ (v : Value) (st : FSt) (i : Nat) (st2 : FSt),
    syncV v = true → flattenV v st = .ok (i, st2) →
    ∀ (final : List J) (fuel : Nat),
      (∀ k, st.nodes.length ≤ k → k < st2.nodes.length →
        final[k]? = st2.nodes[k]?) →
      vSize v ≤ fuel → decodeNode fuel final i = .ok v
  | .vnull, st, i, st2, _, h, final, fuel, hag, hfu => by
      simp only [flattenV, Except.ok.injEq, Prod.mk.injEq] at h
      obtain ⟨h1, h2⟩ := h; subst h1; subst h2
      cases fuel with
      | zero => simp [vSize] at hfu
      | succ f =>
          have hfin : final[st.nodes.length]? = some J.null := by
            rw [hag _ (le_refl _) (by simp)]
            exact List.getElem?_concat_length _ _
          simp only [decodeNode]
          rw [hfin]
  | .vbool true, st, i, st2, _, h, final, fuel, hag, hfu => by
      simp only [flattenV, Except.ok.injEq, Prod.mk.injEq] at h
      obtain ⟨h1, h2⟩ := h; subst h1; subst h2
      cases fuel with
      | zero => simp [vSize] at hfu
      | succ f =>
          have hfin : final[st.nodes.length]? = some J.tru := by
            rw [hag _ (le_refl _) (by simp)]
            exact List.getElem?_concat_length _ _
          simp only [decodeNode]
          rw [hfin]
  | .vbool false, st, i, st2, _, h, final, fuel, hag, hfu => by
      simp only [flattenV, Except.ok.injEq, Prod.mk.injEq] at h
      obtain ⟨h1, h2⟩ := h; subst h1; subst h2
      cases fuel with
      | zero => simp [vSize] at hfu
      | succ f =>
          have hfin : final[st.nodes.length]? = some J.fls := by
            rw [hag _ (le_refl _) (by simp)]
            exact List.getElem?_concat_length _ _
          simp only [decodeNode]
          rw [hfin]
  | .vint n, st, i, st2, _, h, final, fuel, hag, hfu => by
      simp only [flattenV, Except.ok.injEq, Prod.mk.injEq] at h
      obtain ⟨h1, h2⟩ := h; subst h1; subst h2
      cases fuel with
      | zero => simp [vSize] at hfu
      | succ f =>
          have hfin : final[st.nodes.length]? = some (J.num n) := by
            rw [hag _ (le_refl _) (by simp)]
            exact List.getElem?_concat_length _ _
          simp only [decodeNode]
          rw [hfin]
  | .vstr s, st, i, st2, _, h, final, fuel, hag, hfu => by
      simp only [flattenV, Except.ok.injEq, Prod.mk.injEq] at h
      obtain ⟨h1, h2⟩ := h; subst h1; subst h2
      cases fuel with
      | zero => simp [vSize] at hfu
      | succ f =>
          have hfin : final[st.nodes.length]? = some (J.str s) := by
            rw [hag _ (le_refl _) (by simp)]
            exact List.getElem?_concat_length _ _
          simp only [decodeNode]
          rw [hfin]
  | .vfun, st, i, st2, hs, h, final, fuel, hag, hfu => by
      simp [syncV] at hs
  | .vprom fl p, st, i, st2, hs, h, final, fuel, hag, hfu => by
      simp [syncV] at hs
  | .vaiter ys isErr fin, st, i, st2, hs, h, final, fuel, hag, hfu => by
      simp [syncV] at hs
  | .varr xs, st, i, st2, hs, h, final, fuel, hag, hfu => by
      have hx : syncL xs = true := by simpa [syncV] using hs
      rw [show flattenV (.varr xs) st =
        (match flattenL xs ⟨st.nodes ++ [J.null], st.ctr, st.regs⟩ with
         | .error e => .error e
         | .ok (idxs, stL) =>
             .ok (st.nodes.length,
               ⟨stL.nodes.set st.nodes.length
                 (J.arr (idxs.map (fun i => J.num (Int.ofNat i)))),
                stL.ctr, stL.regs⟩)) from rfl] at h
      split at h
      · exact absurd h (by simp)
      · rename_i idxs stL hL
        simp only [Except.ok.injEq, Prod.mk.injEq] at h
        obtain ⟨h1, h2⟩ := h; subst h1; subst h2
        obtain ⟨hlen, hstab⟩ := flattenL_entry xs _ idxs stL hL
        simp only [List.length_append, List.length_singleton] at hlen
        cases fuel with
        | zero => have := vSize_pos (.varr xs); omega
        | succ f =>
            have hlt : st.nodes.length < stL.nodes.length := by omega
            have hfin : final[st.nodes.length]? =
                some (J.arr (idxs.map (fun k => J.num (Int.ofNat k)))) := by
              rw [hag _ (le_refl _) (by dsimp only; rw [List.length_set]; exact hlt)]
              dsimp only
              rw [List.getElem?_set_self]
              exact hlt
            have hwin : ∀ k, (st.nodes ++ [J.null]).length ≤ k →
                k < stL.nodes.length → final[k]? = stL.nodes[k]? := by
              intro k hk1 hk2
              simp only [List.length_append, List.length_singleton] at hk1
              rw [hag k (by omega) (by dsimp only; rw [List.length_set]; exact hk2)]
              dsimp only
              rw [List.getElem?_set_ne (by omega)]
            have hDL := decode_flattenL xs _ idxs stL hx hL final f hwin
              (by simp only [vSize] at hfu; omega)
            simp only [decodeNode]
            rw [hfin]
            cases idxs with
            | nil =>
                simp only [List.map_nil] at hDL ⊢
                show (match decodeIdxL f final ([] : List J) with
                  | .ok vs => Except.ok (Value.varr vs)
                  | .error e => .error e) = .ok (.varr xs)
                rw [hDL]
            | cons k1 ks =>
                simp only [List.map_cons] at hDL ⊢
                show (match decodeIdxL f final (J.num (Int.ofNat k1) ::
                    ks.map (fun k => J.num (Int.ofNat k))) with
                  | .ok vs => Except.ok (Value.varr vs)
                  | .error e => .error e) = .ok (.varr xs)
                rw [hDL]
  | .vobj fs, st, i, st2, hs, h, final, fuel, hag, hfu => by
      have hx : syncF fs = true := by simpa [syncV] using hs
      rw [show flattenV (.vobj fs) st =
        (match flattenF fs ⟨st.nodes ++ [J.null], st.ctr, st.regs⟩ with
         | .error e => .error e
         | .ok (kidxs, stL) =>
             .ok (st.nodes.length,
               ⟨stL.nodes.set st.nodes.length
                 (J.obj (kidxs.map (fun f => (f.1, J.num (Int.ofNat f.2))))),
                stL.ctr, stL.regs⟩)) from rfl] at h
      split at h
      · exact absurd h (by simp)
      · rename_i kidxs stL hL
        simp only [Except.ok.injEq, Prod.mk.injEq] at h
        obtain ⟨h1, h2⟩ := h; subst h1; subst h2
        obtain ⟨hlen, hstab⟩ := flattenF_entry fs _ kidxs stL hL
        simp only [List.length_append, List.length_singleton] at hlen
        cases fuel with
        | zero => have := vSize_pos (.vobj fs); omega
        | succ f =>
            have hlt : st.nodes.length < stL.nodes.length := by omega
            have hfin : final[st.nodes.length]? =
                some (J.obj (kidxs.map
                  (fun g => (g.1, J.num (Int.ofNat g.2))))) := by
              rw [hag _ (le_refl _) (by dsimp only; rw [List.length_set]; exact hlt)]
              dsimp only
              rw [List.getElem?_set_self]
              exact hlt
            have hwin : ∀ k, (st.nodes ++ [J.null]).length ≤ k →
                k < stL.nodes.length → final[k]? = stL.nodes[k]? := by
              intro k hk1 hk2
              simp only [List.length_append, List.length_singleton] at hk1
              rw [hag k (by omega) (by dsimp only; rw [List.length_set]; exact hk2)]
              dsimp only
              rw [List.getElem?_set_ne (by omega)]
            have hDF := decode_flattenF fs _ kidxs stL hx hL final f hwin
              (by simp only [vSize] at hfu; omega)
            simp only [decodeNode]
            rw [hfin]
            show (match decodeIdxF f final (kidxs.map
                (fun g => (g.1, J.num (Int.ofNat g.2)))) with
              | .ok gs => Except.ok (Value.vobj gs)
              | .error e => .error e) = .ok (.vobj fs)
            rw [hDF]

theorem decode_flattenL : ∀ (vs : List Value) (st : FSt) (idxs : List Nat)
    (st2 : FSt), syncL vs = true → flattenL vs st = .ok (idxs, st2) →
    ∀ (final : List J) (fuel : Nat),
      (∀ k, st.nodes.length ≤ k → k < st2.nodes.length →
        final[k]? = st2.nodes[k]?) →
      vSizeL vs ≤ fuel →
      decodeIdxL fuel final (idxs.map (fun k => J.num (Int.ofNat k))) =
        .ok vs
  | [], st, idxs, st2, _, h, final, fuel, hag, hfu => by
      simp only [flattenL, Except.ok.injEq, Prod.mk.injEq] at h
      obtain ⟨h1, h2⟩ := h; subst h1; subst h2
      simp [decodeIdxL]
  | v :: vs, st, idxs, st2, hs, h, final, fuel, hag, hfu => by
      have h2 : syncV v = true ∧ syncL vs = true := by
        simpa [syncL, Bool.and_eq_true] using hs
      rw [show flattenL (v :: vs) st =
        (match flattenV v st with
         | .error e => .error e
         | .ok (i, st1) =>
             match flattenL vs st1 with
             | .error e => .error e
             | .ok (is, stL) => .ok (i :: is, stL)) from rfl] at h
      split at h
      · exact absurd h (by simp)
      · rename_i i st1 hV
        split at h
        · exact absurd h (by simp)
        · rename_i is stL hL
          simp only [Except.ok.injEq, Prod.mk.injEq] at h
          obtain ⟨hh1, hh2⟩ := h; subst hh1; subst hh2
          obtain ⟨hi, hlen1, hstab1⟩ := flattenV_entry v st i st1 hV
          obtain ⟨hlen2, hstab2⟩ := flattenL_entry vs st1 is stL hL
          cases fuel with
          | zero => simp [vSizeL] at hfu
          | succ f =>
              have hwin1 : ∀ k, st.nodes.length ≤ k →
                  k < st1.nodes.length → final[k]? = st1.nodes[k]? := by
                intro k hk1 hk2
                rw [hag k hk1 (by omega), hstab2 k hk2]
              have hDV := decode_flattenV v st i st1 h2.1 hV final f hwin1
                (by simp only [vSizeL] at hfu; omega)
              have hwin2 : ∀ k, st1.nodes.length ≤ k →
                  k < stL.nodes.length → final[k]? = stL.nodes[k]? := by
                intro k hk1 hk2
                exact hag k (by omega) hk2
              have hDL := decode_flattenL vs st1 is stL h2.2 hL final f
                hwin2 (by simp only [vSizeL] at hfu; omega)
              simp only [List.map_cons, decodeIdxL]
              rw [if_pos (by exact Int.ofNat_nonneg i)]
              rw [show (Int.ofNat i).toNat = i from rfl]
              rw [hDV]
              show (match decodeIdxL f final
                  (is.map (fun k => J.num (Int.ofNat k))) with
                | .ok vs2 => Except.ok (v :: vs2)
                | .error e2 => .error e2) = .ok (v :: vs)
              rw [hDL]

theorem decode_flattenF : ∀ (fs : List (String × Value)) (st : FSt)
    (kidxs : List (String × Nat)) (st2 : FSt),
    syncF fs = true → flattenF fs st = .ok (kidxs, st2) →
    ∀ (final : List J) (fuel : Nat),
      (∀ k, st.nodes.length ≤ k → k < st2.nodes.length →
        final[k]? = st2.nodes[k]?) →
      vSizeF fs ≤ fuel →
      decodeIdxF fuel final
        (kidxs.map (fun g => (g.1, J.num (Int.ofNat g.2)))) = .ok fs
  | [], st, kidxs, st2, _, h, final, fuel, hag, hfu => by
      simp only [flattenF, Except.ok.injEq, Prod.mk.injEq] at h
      obtain ⟨h1, h2⟩ := h; subst h1; subst h2
      simp [decodeIdxF]
  | (key, fv) :: fs, st, kidxs, st2, hs, h, final, fuel, hag, hfu => by
      have h2 : syncV fv = true ∧ syncF fs = true := by
        simpa [syncF, Bool.and_eq_true] using hs
      rw [show flattenF ((key, fv) :: fs) st =
        (match flattenV fv st with
         | .error e => .error e
         | .ok (i, st1) =>
             match flattenF fs st1 with
             | .error e => .error e
             | .ok (is, stL) => .ok ((key, i) :: is, stL)) from rfl] at h
      split at h
      · exact absurd h (by simp)
      · rename_i i st1 hV
        split at h
        · exact absurd h (by simp)
        · rename_i is stL hL
          simp only [Except.ok.injEq, Prod.mk.injEq] at h
          obtain ⟨hh1, hh2⟩ := h; subst hh1; subst hh2
          obtain ⟨hi, hlen1, hstab1⟩ := flattenV_entry fv st i st1 hV
          obtain ⟨hlen2, hstab2⟩ := flattenF_entry fs st1 is stL hL
          cases fuel with
          | zero => simp [vSizeF] at hfu
          | succ f =>
              have hwin1 : ∀ k, st.nodes.length ≤ k →
                  k < st1.nodes.length → final[k]? = st1.nodes[k]? := by
                intro k hk1 hk2
                rw [hag k hk1 (by omega), hstab2 k hk2]
              have hDV := decode_flattenV fv st i st1 h2.1 hV final f hwin1
                (by simp only [vSizeF] at hfu; omega)
              have hwin2 : ∀ k, st1.nodes.length ≤ k →
                  k < stL.nodes.length → final[k]? = stL.nodes[k]? := by
                intro k hk1 hk2
                exact hag k (by omega) hk2
              have hDF := decode_flattenF fs st1 is stL h2.2 hL final f
                hwin2 (by simp only [vSizeF] at hfu; omega)
              simp only [List.map_cons, decodeIdxF]
              rw [if_pos (by exact Int.ofNat_nonneg i)]
              rw [show (Int.ofNat i).toNat = i from rfl]
              rw [hDV]
              show (match decodeIdxF f final
                  (is.map (fun g => (g.1, J.num (Int.ofNat g.2)))) with
                | .ok vs2 => Except.ok ((key, fv) :: vs2)
                | .error e2 => .error e2) = .ok ((key, fv) :: fs)
              rw [hDF]

end

/-- spec-modelled: `devalue.unflatten` applied to the parsed header.  The
parsed JSON document must be the flattened node array; its node `0` is the
root. -/
def decodeRootJ : J → Except String Value
  | J.arr nodes => decodeNode (2 * nodes.length + 1) nodes 0
  | _ => .error "Invalid input"

/-- The head handling of `unflattenAsync` (src/async.ts lines 240-282): the
first iteration result is parsed with `JSON.parse` and hydrated with
`unflatten`; the background dispatcher task is spawned only when the first
result was not `done`.  For the empty frame sequence the first result is
`done: true` with `value` `undefined`, and `JSON.parse` coerces `undefined`
to the string `"undefined"` before failing to parse it.  The returned flag
records whether the dispatcher task was spawned. -/
def unflattenAsyncStart (frames : List String) : Except String Value × Bool :=
  match frames with
  | [] =>
    (match jsParse "undefined" with
     | .ok j => (decodeRootJ j, false)
     | .error e => (.error e, false))
  | h :: _ =>
    match jsParse h with
    | .error e => (.error e, false)
    | .ok j =>
      match decodeRootJ j with
      | .error e => (.error e, false)
      | .ok v => (.ok v, true)

theorem renderJ_newline (j : J) :
    renderJ j ++ "\n" = String.mk (renderC j ++ ['\n']) := rfl

/-- Claim C1: for every value the base codec alone can serialize, encoding
the root object whose `x` field holds it with `stringifyAsync` and then
decoding the resulting frame sequence with `unflattenAsync` returns a
root whose `x` field equals the original value: synchronous values
round-trip through the header frame.  (The session makes no async
registrations, so the header is the only frame.) -/
theorem claim_C1 (co : Option (Value → Value)) (bf : Nat) (v : Value)
    (sch : Nat → Nat) (frames : List String)
    (hs : syncV v = true)
    (henc : encodeFrames co bf (.vobj [("x", v)]) sch = .ok frames) :
    unflattenAsyncStart frames = (.ok (.vobj [("x", v)]), true) := by
  have hsr : syncV (Value.vobj [("x", v)]) = true := by
    simp [syncV, syncF, hs]
  obtain ⟨st, hF, hregs, hctr, hsz⟩ :=
    flattenV_sync (.vobj [("x", v)]) ⟨[], 0, []⟩ hsr
  have hB : buildSrcs co bf st.ctr [] = .ok ([], st.ctr) := by
    cases bf <;> rfl
  have hSR : stringifyRun co bf (.vobj [("x", v)]) =
      .ok (renderJ (J.arr st.nodes), []) := by
    unfold stringifyRun
    rw [hF]
    show (match buildSrcs co bf st.ctr st.regs with
      | Except.error e =>
          (Except.error e : Except String (String × List (MSrc Chunk)))
      | Except.ok (prods, _) =>
          Except.ok (renderJ (J.arr st.nodes), prods)) =
      Except.ok (renderJ (J.arr st.nodes), [])
    rw [hregs, hB]
  unfold encodeFrames at henc
  rw [hSR] at henc
  have henc2 : Except.ok ([renderJ (J.arr st.nodes) ++ "\n"]) =
      (.ok frames : Except String (List String)) := henc
  injection henc2 with hfe
  subst hfe
  have hjp : jsParse (renderJ (J.arr st.nodes) ++ "\n") =
      .ok (J.arr st.nodes) := by
    rw [renderJ_newline]
    exact jsParse_newline _
  show (match jsParse (renderJ (J.arr st.nodes) ++ "\n") with
    | Except.error e => ((Except.error e : Except String Value), false)
    | Except.ok j =>
      match decodeRootJ j with
      | Except.error e => ((Except.error e : Except String Value), false)
      | Except.ok v2 => (Except.ok v2, true)) =
    (Except.ok (Value.vobj [("x", v)]), true)
  rw [hjp]
  have hsz2 : vSize (Value.vobj [("x", v)]) < 2 * st.nodes.length := by
    simpa using hsz
  have hdec : decodeRootJ (J.arr st.nodes) = .ok (Value.vobj [("x", v)]) := by
    unfold decodeRootJ
    exact decode_flattenV _ ⟨[], 0, []⟩ _ st hsr hF st.nodes
      (2 * st.nodes.length + 1) (fun k _ _ => rfl) (by omega)
  show (match decodeRootJ (J.arr st.nodes) with
    | Except.error e => ((Except.error e : Except String Value), false)
    | Except.ok v2 => (Except.ok v2, true)) =
    (Except.ok (Value.vobj [("x", v)]), true)
  rw [hdec]

theorem claim_C1_witness :
    syncV (Value.vint 5) = true ∧
    unflattenAsyncStart
      [renderJ (J.arr [J.obj [("x", J.num 1)], J.num 5]) ++ "\n"] =
      (.ok (Value.vobj [("x", Value.vint 5)]), true) :=
  ⟨rfl, claim_C1 none 0 (Value.vint 5) (fun _ => 0)
    [renderJ (J.arr [J.obj [("x", J.num 1)], J.num 5]) ++ "\n"] rfl rfl⟩

/-- Claim C10: on the empty frame sequence, `unflattenAsync` reads the
first iteration result (whose value is `undefined`), hands it to
`JSON.parse`, and the parse error propagates as a rejection; no value is
reconstructed and no dispatcher task is spawned. -/
theorem claim_C10 :
    unflattenAsyncStart [] = (.error "SyntaxError: invalid JSON", false) := rfl

/-! ## The decoder's dispatcher and controllers (C4)

The background dispatcher task of `unflattenAsync` (src/async.ts lines
248-282) pushes each parsed body chunk into the controller of its id and,
when the frame sequence ends or throws, pushes an `Error` into every
still-open controller.  A controller's consumer (the `AsyncIterable`
reviver generator, lines 195-211) drains the buffered entries in order
and observes the first terminal one. -/

/-- An entry of a controller's buffer: a parsed body chunk
`[status, value]`, or an `Error` object the dispatcher pushed. -/
inductive DChunk where
  | chunk : Nat → J → DChunk
  | errC : String → DChunk

/-- The decoder's `controllerMap`: per chunk id, the buffered entries of
its (still open) controller. -/
abbrev CMap := List (Nat × List DChunk)

/-- `getController(idx).push(entry)` (lines 174-191): an existing
controller's buffer grows at the end; a missing controller is created. -/
def cmapPush (m : CMap) (id : Nat) (c : DChunk) : CMap :=
  if m.any (fun p => p.1 == id) then
    m.map (fun p => if p.1 == id then (p.1, p.2 ++ [c]) else p)
  else m ++ [(id, [c])]

/-- How the body-frame iteration ends: the underlying iterator finished
(`fin`), or it threw — the `Bool` says whether the cause is an `Error`
instance, the `String` its message (or a description of the bare
cause). -/
inductive Ending where
  | fin : Ending
  | threw : Bool → String → Ending

/-- The message of the `Error` the dispatcher pushes for each ending:
the synthetic malformed-stream error after a completed stream
(line 270), the cause itself when it is an `Error`, and the wrapping
`Error("Stream interrupted", \x7b cause \x7d)` otherwise (lines
275-279). -/
def endErr : Ending → String
  | .fin => "Stream interrupted: malformed stream"
  | .threw true msg => msg
  | .threw false _ => "Stream interrupted"

/-- The end-of-loop and catch handling of the dispatcher task: every
still-open controller is pushed the ending's `Error`. -/
def dispatchEnd (e : Ending) (m : CMap) : CMap :=
  m.map (fun p => (p.1, p.2 ++ [DChunk.errC (endErr e)]))

/-- The dispatcher loop (lines 250-266): each body frame
`[idx, status, flattened]` is pushed to controller `idx`; when the frames
are exhausted the ending is dispatched to the still-open controllers. -/
def dispatchRun (frames : List (Nat × Nat × J)) (e : Ending) (m : CMap) :
    CMap :=
  match frames with
  | [] => dispatchEnd e m
  | (id, st, p) :: rest =>
      dispatchRun rest e (cmapPush m id (DChunk.chunk st p))

/-- What the consumer of an `AsyncIterable` reviver observes after
draining a controller's buffered entries. -/
inductive DrainEnd where
  | ret : J → DrainEnd
  | thrownPayload : J → DrainEnd
  | thrownErr : String → DrainEnd
  | pending : DrainEnd

/-- The controller generator as its consumer drains it (lines 154-171
and 199-210): status 2 returns, status 0 yields and continues, status 1
throws the chunk's value, an `Error` entry is thrown by the generator,
an unknown status is skipped by the `switch`; an exhausted buffer leaves
the consumer waiting on the deferred. -/
def drainIter : List DChunk → List J × DrainEnd
  | [] => ([], .pending)
  | DChunk.errC e :: _ => ([], .thrownErr e)
  | DChunk.chunk s p :: rest =>
      if s = 2 then ([], .ret p)
      else if s = 0 then
        let r := drainIter rest
        (p :: r.1, r.2)
      else if s = 1 then ([], .thrownPayload p)
      else drainIter rest

/-- No buffered entry ends the drain: only yields and unknown statuses. -/
def noTerminal : List DChunk → Bool
  | [] => true
  | DChunk.errC _ :: _ => false
  | DChunk.chunk s _ :: rest => !(s == 1) && !(s == 2) && noTerminal rest

theorem dispatchEnd_push (e : Ending) (m : CMap) :
    ∀ p ∈ dispatchEnd e m, ∃ pre, p.2 = pre ++ [DChunk.errC (endErr e)] := by
  intro p hp
  obtain ⟨q, hq, rfl⟩ := List.mem_map.mp hp
  exact ⟨q.2, rfl⟩

/-- Claim C4 (amended): when the incoming frame sequence ends while
controllers are still open, every such controller is pushed an `Error`
whose message is `"Stream interrupted: malformed stream"`; when the
sequence throws, every still-open controller is pushed the cause, wrapped
in a `"Stream interrupted"` `Error` when the cause is not itself an
`Error`.  The consumer observes that pushed error as a throw *provided no
terminal chunk precedes it in the controller's buffer* — a buffered
terminal chunk (status 1 or 2) ends the drain first, so the claim's
unconditional "its consumer observes a throw" does not hold (see the
counterexample). -/
theorem claim_C4 :
    (∀ (frames : List (Nat × Nat × J)) (e : Ending) (m : CMap),
      ∀ p ∈ dispatchRun frames e m,
        ∃ pre, p.2 = pre ++ [DChunk.errC (endErr e)]) ∧
    (∀ (bs : List DChunk) (msg : String), noTerminal bs = true →
      (drainIter (bs ++ [DChunk.errC msg])).2 = DrainEnd.thrownErr msg) := by
  constructor
  · intro frames
    induction frames with
    | nil => exact fun e m p hp => dispatchEnd_push e m p hp
    | cons f rest ih =>
        intro e m p hp
        obtain ⟨id, st, pl⟩ := f
        exact ih e (cmapPush m id (DChunk.chunk st pl)) p hp
  · intro bs
    induction bs with
    | nil =>
        intro msg _
        rfl
    | cons c bs ih =>
        intro msg hnt
        cases c with
        | errC e => simp [noTerminal] at hnt
        | chunk st p =>
            simp only [noTerminal, Bool.and_eq_true, Bool.not_eq_true',
              beq_eq_false_iff_ne, ne_eq] at hnt
            obtain ⟨⟨h1, h2⟩, h3⟩ := hnt
            simp only [List.cons_append, drainIter]
            rw [if_neg h2]
            by_cases h0 : st = 0
            · rw [if_pos h0]
              exact ih msg h3
            · rw [if_neg h0, if_neg h1]
              exact ih msg h3

theorem claim_C4_witness :
    (∀ p ∈ dispatchRun [(1, 0, J.null)] Ending.fin [],
      ∃ pre, p.2 = pre ++
        [DChunk.errC (endErr Ending.fin)]) ∧
    noTerminal [DChunk.chunk 0 J.null] = true ∧
    (drainIter ([DChunk.chunk 0 J.null] ++
        [DChunk.errC "boom"])).2 = DrainEnd.thrownErr "boom" :=
  ⟨claim_C4.1 [(1, 0, J.null)] Ending.fin [],
   by decide,
   claim_C4.2 [DChunk.chunk 0 J.null] "boom" (by decide)⟩

/-- Counterexample to the literal claim: a well-formed terminal chunk
(status 2, a return) is already buffered in controller 1 when the frame
sequence ends.  The dispatcher does push the synthetic
`"Stream interrupted: malformed stream"` error — but the consumer drains
the terminal chunk first and observes a normal completion, not a
throw. -/
theorem claim_C4_counterexample :
    dispatchRun [(1, 2, J.arr [])] .fin [] =
      [(1, [DChunk.chunk 2 (J.arr []),
            DChunk.errC "Stream interrupted: malformed stream"])] ∧
    drainIter [DChunk.chunk 2 (J.arr []),
        DChunk.errC "Stream interrupted: malformed stream"] =
      ([], DrainEnd.ret (J.arr [])) ∧
    ∀ e2, DrainEnd.ret (J.arr []) ≠ DrainEnd.thrownErr e2 :=
  ⟨rfl, rfl, fun e2 h => DrainEnd.noConfusion h⟩

/-! ## Reserved reducer and reviver names (C9)

`recSet m k v` is one property insertion of a JavaScript object literal: an
existing key keeps its position and gets the new value, a new key is
appended.  `recGet` is property lookup.  The three effective maps below
mirror the three object literals of the sources, spreading the user map
first and then inserting the built-ins in textual order. -/

def recSet {ρ : Type} (m : List (String × ρ)) (k : String) (v : ρ) :
    List (String × ρ) :=
  if m.any (fun p => p.1 == k) then
    m.map (fun p => if p.1 == k then (k, v) else p)
  else m ++ [(k, v)]

def recGet {ρ : Type} (m : List (String × ρ)) (k : String) : Option ρ :=
  (m.find? (fun p => p.1 == k)).map Prod.snd

/-- The effective reducer map of `stringifyAsync` (src/async.ts line 70). -/
def effAsyncTs {ρ : Type} (user : List (String × ρ)) (bAI bP : ρ) :
    List (String × ρ) :=
  recSet (recSet user "AsyncIterable" bAI) "Promise" bP

/-- The effective reviver map of `unflattenAsync` (src/async.ts line 193). -/
def effUnflatten {ρ : Type} (user : List (String × ρ)) (bAI bP : ρ) :
    List (String × ρ) :=
  recSet (recSet user "AsyncIterable" bAI) "Promise" bP

/-- The effective reducer map of the `ReadableStream`-aware encoder
(src/unnamed/part_004 line 67). -/
def effPart004 {ρ : Type} (user : List (String × ρ)) (bRS bAI bP : ρ) :
    List (String × ρ) :=
  recSet (recSet (recSet user "ReadableStream" bRS) "AsyncIterable" bAI)
    "Promise" bP

theorem recGet_map_override {ρ : Type} (m : List (String × ρ))
    (k k2 : String) (v : ρ) (hne : k2 ≠ k) :
    recGet (m.map (fun p => if p.1 == k2 then (k2, v) else p)) k =
      recGet m k := by
  induction m with
  | nil => rfl
  | cons p rest ih =>
    simp only [recGet] at ih ⊢
    have hkf : (k2 == k) = false := beq_eq_false_iff_ne.mpr hne
    cases hp : (p.1 == k2) with
    | true =>
      have h2 : (p.1 == k) = false := beq_eq_false_iff_ne.mpr
        (fun hc => hne ((eq_of_beq hp).symm.trans hc))
      simpa [List.find?_cons, eq_of_beq hp, hkf, hne, h2] using ih
    | false =>
      cases hk : (p.1 == k) with
      | true =>
        simp [List.find?_cons, ne_of_beq_false hp, hk, eq_of_beq hk,
          Ne.symm hne]
      | false =>
        simpa [List.find?_cons, ne_of_beq_false hp, hk, ne_of_beq_false hk]
          using ih

theorem recGet_recSet_eq {ρ : Type} (m : List (String × ρ)) (k : String)
    (v : ρ) : recGet (recSet m k v) k = some v := by
  rw [recSet]
  by_cases h : m.any (fun p => p.1 == k)
  · rw [if_pos h]
    induction m with
    | nil => simp at h
    | cons p rest ih =>
      simp only [recGet] at ih ⊢
      cases hp : (p.1 == k) with
      | true => simp [List.find?_cons, eq_of_beq hp]
      | false =>
        simp only [List.any_cons, Bool.or_eq_true] at h
        have h2 := h.resolve_left (by simp [hp])
        simpa [List.find?_cons, ne_of_beq_false hp, hp] using ih h2
  · rw [if_neg h]
    have hm : m.find? (fun p => p.1 == k) = none := by
      rw [List.find?_eq_none]
      intro p hp hc
      exact h (List.any_eq_true.mpr ⟨p, hp, hc⟩)
    simp only [recGet]
    rw [List.find?_append, hm]
    simp [List.find?_cons]

theorem recGet_recSet_ne {ρ : Type} (m : List (String × ρ)) (k k2 : String)
    (v : ρ) (hne : k2 ≠ k) : recGet (recSet m k2 v) k = recGet m k := by
  rw [recSet]
  by_cases h : m.any (fun p => p.1 == k2)
  · rw [if_pos h]
    exact recGet_map_override m k k2 v hne
  · rw [if_neg h]
    simp only [recGet]
    rw [List.find?_append]
    have hkf : (k2 == k) = false := beq_eq_false_iff_ne.mpr hne
    cases hm : m.find? (fun p => p.1 == k) with
    | none => simp [hm, List.find?_cons, hkf, hne]
    | some p => simp [hm]

/-- Claim C9: in all three effective maps the reserved names `Promise`,
`AsyncIterable` and `ReadableStream` resolve to the built-in entry no
matter what the user map contains: the literals spread the user entries
first and insert the built-ins afterwards, so the built-ins override. -/
theorem claim_C9 {ρ : Type} (user : List (String × ρ)) (bRS bAI bP : ρ) :
    recGet (effAsyncTs user bAI bP) "AsyncIterable" = some bAI ∧
    recGet (effAsyncTs user bAI bP) "Promise" = some bP ∧
    recGet (effUnflatten user bAI bP) "AsyncIterable" = some bAI ∧
    recGet (effUnflatten user bAI bP) "Promise" = some bP ∧
    recGet (effPart004 user bRS bAI bP) "ReadableStream" = some bRS ∧
    recGet (effPart004 user bRS bAI bP) "AsyncIterable" = some bAI ∧
    recGet (effPart004 user bRS bAI bP) "Promise" = some bP := by
  refine ⟨?_, ?_, ?_, ?_, ?_, ?_, ?_⟩
  · rw [effAsyncTs, recGet_recSet_ne _ _ _ _ (by decide)]
    exact recGet_recSet_eq _ _ _
  · exact recGet_recSet_eq _ _ _
  · rw [effUnflatten, recGet_recSet_ne _ _ _ _ (by decide)]
    exact recGet_recSet_eq _ _ _
  · exact recGet_recSet_eq _ _ _
  · rw [effPart004, recGet_recSet_ne _ _ _ _ (by decide),
      recGet_recSet_ne _ _ _ _ (by decide)]
    exact recGet_recSet_eq _ _ _
  · rw [effPart004, recGet_recSet_ne _ _ _ _ (by decide)]
    exact recGet_recSet_eq _ _ _
  · exact recGet_recSet_eq _ _ _

end DevalueAsync
